import Mathlib

/-!
# leptjson (tutorial02): a shallow embedding of `leptjson.c`

The C program parses a NUL-terminated text holding one JSON scalar
(`null`, `true`, `false` or a number).  The embedding follows the source
function by function.

* A `const char *` into the text is the list of characters from the pointer up
  to (not including) the terminating NUL: dereferencing the empty list reads
  the terminator, `p++` drops the head.
* `lept_value` is a record of the payload `n` and the tag `type`.
* A failed `assert` and an exhausted loop budget are `none`; every function
  that can reach one returns an `Option`.
* `strtod` belongs to the C library, not to the program.  It is modelled after
  ISO C 7.22.1.3 with IEEE 754 binary64 round-to-nearest-even arithmetic.
-/

namespace Leptjson

/-! ## Declarations of `leptjson.h` -/

/-- Modelled from the spec: the enum `lept_type` of the header `leptjson.h`
(the kinds Null, False, True, Number of the data model). -/
inductive lept_type
  | LEPT_NULL
  | LEPT_FALSE
  | LEPT_TRUE
  | LEPT_NUMBER
deriving DecidableEq, Repr

/-- Modelled from the spec: the status codes of the header `leptjson.h`
(success and the four members of the error taxonomy). -/
inductive lept_status
  | LEPT_PARSE_OK
  | LEPT_PARSE_EXPECT_VALUE
  | LEPT_PARSE_INVALID_VALUE
  | LEPT_PARSE_ROOT_NOT_SINGULAR
  | LEPT_PARSE_NUMBER_TOO_BIG
deriving DecidableEq, Repr

/-- An IEEE 754 binary64 datum: `finite neg m e` is `(-1)^neg * m * 2^e`. -/
inductive Double
  | finite (neg : Bool) (mant : Nat) (exp : Int)
  | inf (neg : Bool)
  | nan
deriving DecidableEq, Repr

/-- Modelled from the spec: the struct `lept_value` of the header `leptjson.h`
(a kind tag and a 64-bit floating-point payload). -/
structure lept_value where
  n : Double
  type : lept_type
deriving DecidableEq, Repr

open lept_type lept_status

/-! ## Characters and pointers -/

/-- The context `lept_context`: the read pointer `json`. -/
structure lept_context where
  json : List Char
deriving DecidableEq, Repr

/-- Dereference `*p`: the character under the pointer, NUL at the end of the text. -/
def deref (p : List Char) : Char := p.headD '\x00'

/-- Indexed read `p[i]` inside the text and its terminator; `none` past the terminator. -/
def index (p : List Char) (i : Nat) : Option Char := (p ++ ['\x00'])[i]?

/-- Macro `ISDIGIT(ch)`. -/
def ISDIGIT (ch : Char) : Bool := decide ('0' ≤ ch) && decide (ch ≤ '9')

/-- Macro `ISDIGIT1TO9(ch)`. -/
def ISDIGIT1TO9 (ch : Char) : Bool := decide ('1' ≤ ch) && decide (ch ≤ '9')

/-- The test `*p == ' ' || *p == '\t' || *p == '\n' || *p == '\r'` of the skipper. -/
def is_ws (ch : Char) : Bool := ch == ' ' || ch == '\t' || ch == '\n' || ch == '\r'

/-- Macro `EXPECT(c, ch)`: the assertion `*c->json == ch`, then `c->json++`. -/
def EXPECT (c : lept_context) (ch : Char) : Option lept_context :=
  if deref c.json = ch then some ⟨c.json.tail⟩ else none

/-! ## Whitespace skipper -/

/-- The loop `while (*p is whitespace) p++` of `lept_parse_whitespace`. -/
def skip_ws : List Char → List Char
  | [] => []
  | ch :: rest => if is_ws ch then skip_ws rest else ch :: rest

/-- Function `lept_parse_whitespace`. -/
def lept_parse_whitespace (c : lept_context) : lept_context :=
  let p := c.json
  let p := skip_ws p
  { c with json := p }

/-! ## Literal matcher -/

/-- The loop of `lept_parse_literal`: `ks` is `lept_str` from index `i + 1` on.
The result is `none` for a read past the terminator, `some none` for the
early `return LEPT_PARSE_INVALID_VALUE`, and `some (some i)` with the final
counter when the loop ends. -/
def literal_loop (json : List Char) : List Char → Nat → Option (Option Nat)
  | [], i => some (some i)
  | k :: ks, i =>
    match index json i with
    | none => none
    | some ch => if ch ≠ k then some none else literal_loop json ks (i + 1)

/-- Function `lept_parse_literal`. -/
def lept_parse_literal (c : lept_context) (v : lept_value) (lept_str : List Char)
    (type : lept_type) : Option (lept_status × lept_context × lept_value) :=
  match EXPECT c (deref lept_str) with
  | none => none
  | some c =>
    match literal_loop c.json lept_str.tail 0 with
    | none => none
    | some none => some (LEPT_PARSE_INVALID_VALUE, c, v)
    | some (some i) => some (LEPT_PARSE_OK, { c with json := c.json.drop i }, { v with type := type })

/-! ## Number validator -/

/-- The enum `LEPT_VALIDATE_STATE`. -/
inductive LEPT_VALIDATE_STATE
  | VALIDATE_START
  | VALIDATE_POST_SIGN
  | VALIDATE_POST_INT
  | VALIDATE_POST_FRAC
  | VALIDATE_END
deriving DecidableEq, Repr

open LEPT_VALIDATE_STATE

/-- Macro `BEGIN_WITH_CHAR(s, c)`, which expands to `(*(s) == (c)) ? true : false`
without outer parentheses. -/
def BEGIN_WITH_CHAR (s : List Char) (c : Char) : Bool :=
  if deref s = c then true else false

/-- The condition `BEGIN_WITH_CHAR(s, a) || BEGIN_WITH_CHAR(s, b)` as C parses
its expansion `(*(s) == (a)) ? true : false || (*(s) == (b)) ? true : false`:
the first conditional expression has the second one, `false || ...` included,
as its third operand. -/
def BEGIN_WITH_CHAR_or (s : List Char) (a b : Char) : Bool :=
  if deref s = a then true
  else if (false || decide (deref s = b)) then true else false

/-- The loops `while (ISDIGIT(*s)) s++;` of the validator. -/
def skip_digits : List Char → List Char
  | [] => []
  | ch :: rest => if ISDIGIT ch then skip_digits rest else ch :: rest

/-- What one pass through the `switch` of the validator does. -/
inductive validate_step_result
  | next (s : List Char) (state : LEPT_VALIDATE_STATE)
  | reject
  | accept (size : Nat)
deriving DecidableEq, Repr

/-- One iteration of the `while (true)` loop of `lept_validate_number`:
the `switch` on the state, from the pointer `s`. -/
def validate_step (num s : List Char) : LEPT_VALIDATE_STATE → validate_step_result
  | VALIDATE_START =>
    let s := if BEGIN_WITH_CHAR s '-' then s.tail else s
    .next s VALIDATE_POST_SIGN
  | VALIDATE_POST_SIGN =>
    if BEGIN_WITH_CHAR s '0' then
      let s := s.tail
      .next s VALIDATE_POST_INT
    else if ISDIGIT1TO9 (deref s) then
      let s := s.tail
      let s := skip_digits s
      .next s VALIDATE_POST_INT
    else
      .reject
  | VALIDATE_POST_INT =>
    if BEGIN_WITH_CHAR s '.' then
      let s := s.tail
      if !ISDIGIT (deref s) then .reject
      else
        let s := skip_digits s
        .next s VALIDATE_POST_FRAC
    else
      .next s VALIDATE_POST_FRAC
  | VALIDATE_POST_FRAC =>
    if BEGIN_WITH_CHAR_or s 'e' 'E' then
      let s := s.tail
      let s := if BEGIN_WITH_CHAR_or s '+' '-' then s.tail else s
      if !ISDIGIT (deref s) then .reject
      else
        let s := skip_digits s
        .next s VALIDATE_END
    else
      .next s VALIDATE_END
  | VALIDATE_END =>
    .accept (num.length - s.length)

/-- The `while (true)` loop of `lept_validate_number` with a budget of
iterations: `none` when the budget runs out, `some none` for `return false`,
`some (some size)` for `*size = s - num; return true`. -/
def validate_loop (num : List Char) : Nat → List Char → LEPT_VALIDATE_STATE → Option (Option Nat)
  | 0, _, _ => none
  | fuel + 1, s, state =>
    match validate_step num s state with
    | .next s state => validate_loop num fuel s state
    | .reject => some none
    | .accept size => some (some size)

/-- Function `lept_validate_number`: the loop from `VALIDATE_START`.  The state
only moves forward through its five values, so five iterations suffice. -/
def lept_validate_number (num : List Char) : Option (Option Nat) :=
  validate_loop num 5 num VALIDATE_START

/-! ## The C library function `strtod` -/

/-- What a call of `strtod` leaves behind: the returned value and whether it
stored `ERANGE` in `errno`. -/
structure strtod_result where
  value : Double
  erange : Bool
deriving DecidableEq, Repr

/-- The constant `HUGE_VAL` of `math.h`: positive infinity. -/
def HUGE_VAL : Double := .inf false

/-- Unary minus on a binary64 datum. -/
def Double.neg : Double → Double
  | .finite s m e => .finite (!s) m e
  | .inf s => .inf (!s)
  | .nan => .nan

/-- The comparison `==` of C on binary64 data: a NaN equals nothing, the two
zeros are equal. -/
def Double.eq : Double → Double → Bool
  | .nan, _ => false
  | _, .nan => false
  | .inf a, .inf b => a == b
  | .finite a m e, .finite b k f => (m == 0 && k == 0) || (a == b && m == k && e == f)
  | _, _ => false

/-- The quotient `n / d` rounded to the nearest integer, ties to even. -/
def round_half_even (n d : Nat) : Nat :=
  let q := n / d
  let r := n % d
  if 2 * r < d then q
  else if d < 2 * r then q + 1
  else if q % 2 = 0 then q else q + 1

/-- The integer `⌊log₂ n⌋` of a positive `n`, by halving at most `fuel` times. -/
def log2_halving : Nat → Nat → Nat
  | 0, _ => 0
  | fuel + 1, n => if n < 2 then 0 else log2_halving fuel (n / 2) + 1

/-- The integer `⌊log₂ (n / d)⌋` for positive `n` and `d`. -/
def floor_log2 (n d : Nat) : Int :=
  let k : Int := (log2_halving n n : Int) - (log2_halving d d : Int)
  if 0 ≤ k then
    if d * 2 ^ k.toNat ≤ n then k else k - 1
  else
    if d ≤ n * 2 ^ (-k).toNat then k else k - 1

/-- The exponent of the unit in the last place for the positive rational
`n / d`: that of its binade, or `-1074` below the smallest normal value. -/
def quantum_exponent (n d : Nat) : Int :=
  max (floor_log2 n d) (-1022) - 52

/-- The positive rational `n / d` in units of `2 ^ quantum_exponent n d`,
rounded to the nearest integer, ties to even. -/
def rounded_significand (n d : Nat) : Nat :=
  if 0 ≤ quantum_exponent n d then round_half_even n (d * 2 ^ (quantum_exponent n d).toNat)
  else round_half_even (n * 2 ^ (- quantum_exponent n d).toNat) d

/-- Whether the positive rational `n / d` is a whole number of units of
`2 ^ quantum_exponent n d`, so that rounding it changes nothing. -/
def rounding_exact (n d : Nat) : Bool :=
  if 0 ≤ quantum_exponent n d then n % (d * 2 ^ (quantum_exponent n d).toNat) == 0
  else (n * 2 ^ (- quantum_exponent n d).toNat) % d == 0

/-- Round-to-nearest-even conversion of the rational `(-1)^neg * n / d` to
binary64 (53-bit significand, exponents of the unit in the last place from
`-1074` to `971`; a zero is written with exponent `0`).  A magnitude that
rounds beyond the largest finite value gives an infinity and `ERANGE`.  A
magnitude that rounds inexactly to a subnormal or to a zero underflows;
storing `ERANGE` there is implementation-defined and modelled as done. -/
def binary64_round (neg : Bool) (n d : Nat) : strtod_result :=
  if n = 0 then ⟨.finite neg 0 0, false⟩
  else
    let q : Int := quantum_exponent n d
    let m := rounded_significand n d
    let q := if m = 2 ^ 53 then q + 1 else q
    let m := if m = 2 ^ 53 then 2 ^ 52 else m
    if 971 < q then ⟨.inf neg, true⟩
    else ⟨.finite neg m (if m = 0 then 0 else q), decide (m < 2 ^ 52) && !rounding_exact n d⟩

/-- The rational `m * base ^ x` as a numerator and a denominator. -/
def scale (m base : Nat) (x : Int) : Nat × Nat :=
  if 0 ≤ x then (m * base ^ x.toNat, 1) else (m, base ^ (-x).toNat)

/-- The function `isspace` of `ctype.h` in the C locale. -/
def isspace (ch : Char) : Bool :=
  ch == ' ' || (decide ('\t' ≤ ch) && decide (ch ≤ '\r'))

/-- Skips the leading white space of the text given to `strtod`. -/
def skip_space : List Char → List Char
  | [] => []
  | ch :: rest => if isspace ch then skip_space rest else ch :: rest

/-- Value of a decimal digit. -/
def digit_value (ch : Char) : Nat := ch.toNat - '0'.toNat

/-- Value of a hexadecimal digit, `none` for another character. -/
def hex_value (ch : Char) : Option Nat :=
  if ISDIGIT ch then some (ch.toNat - '0'.toNat)
  else if decide ('a' ≤ ch) && decide (ch ≤ 'f') then some (ch.toNat - 'a'.toNat + 10)
  else if decide ('A' ≤ ch) && decide (ch ≤ 'F') then some (ch.toNat - 'A'.toNat + 10)
  else none

/-- Reads the longest run of decimal digits: the value accumulated on `acc`,
the number of digits added to `cnt`, and the text left. -/
def read_digits (acc cnt : Nat) : List Char → Nat × Nat × List Char
  | [] => (acc, cnt, [])
  | ch :: rest =>
    if ISDIGIT ch then read_digits (acc * 10 + digit_value ch) (cnt + 1) rest
    else (acc, cnt, ch :: rest)

/-- Reads the longest run of hexadecimal digits, as `read_digits` does. -/
def read_hex_digits (acc cnt : Nat) : List Char → Nat × Nat × List Char
  | [] => (acc, cnt, [])
  | ch :: rest =>
    match hex_value ch with
    | some d => read_hex_digits (acc * 16 + d) (cnt + 1) rest
    | none => (acc, cnt, ch :: rest)

/-- The optional exponent part after a significand: one of the two marker
letters, an optional sign and at least one decimal digit.  Anything else is
not part of the number and the exponent is `0`. -/
def read_exponent (lower upper : Char) : List Char → Int
  | [] => 0
  | ch :: rest =>
    if ch = lower ∨ ch = upper then
      let signed : Bool × List Char :=
        match rest with
        | '-' :: r => (true, r)
        | '+' :: r => (false, r)
        | _ => (false, rest)
      let digits := read_digits 0 0 signed.2
      if digits.2.1 = 0 then 0
      else if signed.1 then - (digits.1 : Int) else (digits.1 : Int)
    else 0

/-- The decimal form of the subject sequence: a non-empty run of digits that
may contain one radix point, then an optional exponent part.  The result is
the pair `(m, x)` with value `m * 10 ^ x`; `none` when the text does not
start with such a form. -/
def decimal_subject (s : List Char) : Option (Nat × Int) :=
  let ip := read_digits 0 0 s
  let fp : Nat × Nat × List Char :=
    match ip.2.2 with
    | '.' :: r => read_digits ip.1 0 r
    | r => (ip.1, 0, r)
  if ip.2.1 + fp.2.1 = 0 then none
  else some (fp.1, read_exponent 'e' 'E' fp.2.2 - (fp.2.1 : Int))

/-- The hexadecimal form of the subject sequence: `0x` or `0X`, a non-empty
run of hexadecimal digits that may contain one radix point, then an optional
binary exponent part.  The result is the pair `(m, x)` with value `m * 2 ^ x`. -/
def hex_subject (s : List Char) : Option (Nat × Int) :=
  match s with
  | '0' :: x :: r =>
    if x = 'x' ∨ x = 'X' then
      let ip := read_hex_digits 0 0 r
      let fp : Nat × Nat × List Char :=
        match ip.2.2 with
        | '.' :: r => read_hex_digits ip.1 0 r
        | r => (ip.1, 0, r)
      if ip.2.1 + fp.2.1 = 0 then none
      else some (fp.1, read_exponent 'p' 'P' fp.2.2 - 4 * (fp.2.1 : Int))
    else none
  | _ => none

/-- Whether the text starts with the word `w` (given in lower case), ignoring case. -/
def starts_with_word (s w : List Char) : Bool :=
  (s.take w.length).map Char.toLower == w

/-- The call `strtod(nptr, NULL)` (ISO C 7.22.1.3): skips white space, reads an
optional sign and the longest subject sequence (hexadecimal, decimal, `inf` or
`nan`), and converts it with `binary64_round`.  Without a subject sequence
the value is zero. -/
def strtod (nptr : List Char) : strtod_result :=
  let s := skip_space nptr
  let signed : Bool × List Char :=
    match s with
    | '-' :: r => (true, r)
    | '+' :: r => (false, r)
    | _ => (false, s)
  match hex_subject signed.2 with
  | some (m, x) => binary64_round signed.1 (scale m 2 x).1 (scale m 2 x).2
  | none =>
    match decimal_subject signed.2 with
    | some (m, x) => binary64_round signed.1 (scale m 10 x).1 (scale m 10 x).2
    | none =>
      if starts_with_word signed.2 ['i', 'n', 'f'] then ⟨.inf signed.1, false⟩
      else if starts_with_word signed.2 ['n', 'a', 'n'] then ⟨.nan, false⟩
      else ⟨.finite false 0 0, false⟩

/-! ## Number parser, dispatcher and entry point -/

/-- Function `lept_parse_number`. -/
def lept_parse_number (c : lept_context) (v : lept_value) :
    Option (lept_status × lept_context × lept_value) :=
  match lept_validate_number c.json with
  | none => none
  | some none => some (LEPT_PARSE_INVALID_VALUE, c, v)
  | some (some size) =>
    let r := strtod c.json
    let v := { v with n := r.value }
    if r.erange && (v.n.eq HUGE_VAL || v.n.eq HUGE_VAL.neg) then
      some (LEPT_PARSE_NUMBER_TOO_BIG, c, v)
    else
      let c := { c with json := c.json.drop size }
      let v := { v with type := LEPT_NUMBER }
      some (LEPT_PARSE_OK, c, v)

/-- Function `lept_parse_value`: the `switch` on `*c->json`. -/
def lept_parse_value (c : lept_context) (v : lept_value) :
    Option (lept_status × lept_context × lept_value) :=
  if deref c.json = 't' then lept_parse_literal c v ['t', 'r', 'u', 'e'] LEPT_TRUE
  else if deref c.json = 'f' then lept_parse_literal c v ['f', 'a', 'l', 's', 'e'] LEPT_FALSE
  else if deref c.json = 'n' then lept_parse_literal c v ['n', 'u', 'l', 'l'] LEPT_NULL
  else if deref c.json = '\x00' then some (LEPT_PARSE_EXPECT_VALUE, c, v)
  else lept_parse_number c v

/-- Function `lept_parse`: the status returned and the value left in `*v`. -/
def lept_parse (v : lept_value) (json : List Char) : Option (lept_status × lept_value) :=
  let c : lept_context := ⟨json⟩
  let v := { v with type := LEPT_NULL }
  let c := lept_parse_whitespace c
  match lept_parse_value c v with
  | none => none
  | some (ret, c, v) =>
    if ret = LEPT_PARSE_OK then
      let c := lept_parse_whitespace c
      if deref c.json ≠ '\x00' then
        some (LEPT_PARSE_ROOT_NOT_SINGULAR, { v with type := LEPT_NULL })
      else some (ret, v)
    else some (ret, v)

/-- Function `lept_get_type`. -/
def lept_get_type (v : lept_value) : lept_type := v.type

/-- Function `lept_get_number`: `none` when the assertion
`v->type == LEPT_NUMBER` fails. -/
def lept_get_number (v : lept_value) : Option Double :=
  if v.type = LEPT_NUMBER then some v.n else none

/-! ## The validator, phase by phase

The loop of `lept_validate_number` passes through its states in one order.
The four functions below are the effect of each state on the pointer; they
serve the proofs, which first show that the loop computes their composition. -/

/-- Effect of the state `VALIDATE_START`. -/
def after_sign (s : List Char) : List Char :=
  if deref s = '-' then s.tail else s

/-- Effect of the state `VALIDATE_POST_SIGN`; `none` is `return false`. -/
def after_int (s : List Char) : Option (List Char) :=
  if deref s = '0' then some s.tail
  else if ISDIGIT1TO9 (deref s) then some (skip_digits s.tail)
  else none

/-- Effect of the state `VALIDATE_POST_INT`; `none` is `return false`. -/
def after_frac (s : List Char) : Option (List Char) :=
  if deref s = '.' then
    if ISDIGIT (deref s.tail) then some (skip_digits s.tail) else none
  else some s

/-- The pointer after the optional sign of an exponent. -/
def after_exp_sign (s : List Char) : List Char :=
  if deref s = '+' ∨ deref s = '-' then s.tail else s

/-- Effect of the state `VALIDATE_POST_FRAC`; `none` is `return false`. -/
def after_exp (s : List Char) : Option (List Char) :=
  if deref s = 'e' ∨ deref s = 'E' then
    if ISDIGIT (deref (after_exp_sign s.tail)) then some (skip_digits (after_exp_sign s.tail))
    else none
  else some s

/-- The pointer at which the validator accepts, `none` when it rejects. -/
def validate_end (num : List Char) : Option (List Char) :=
  ((after_int (after_sign num)).bind after_frac).bind after_exp

/-! ## The number grammar of the specification

`number := '-'? int-part frac-part? exp-part?` with
`int-part := '0' | [1-9] [0-9]*`, `frac-part := '.' [0-9]+` and
`exp-part := ('e'|'E') ('+'|'-')? [0-9]+`. -/

/-- The character class `[0-9]`. -/
def digit_chars : List Char := ['0', '1', '2', '3', '4', '5', '6', '7', '8', '9']

/-- The character class `[1-9]`. -/
def nonzero_digit_chars : List Char := ['1', '2', '3', '4', '5', '6', '7', '8', '9']

/-- The four whitespace characters: space, tab, LF and CR. -/
def ws_chars : List Char := [' ', '\t', '\n', '\r']

/-- A text made only of whitespace characters. -/
def all_ws (w : List Char) : Prop := ∀ ch ∈ w, ch ∈ ws_chars

instance (w : List Char) : Decidable (all_ws w) := by
  unfold all_ws; infer_instance

/-- A text made only of decimal digits. -/
def all_digits (ds : List Char) : Bool := ds.all (fun ch => decide (ch ∈ digit_chars))

/-- An exponent part taken apart: the marker, the sign if any, the digits. -/
structure exp_text where
  marker : Char
  sign : Option Char
  digits : List Char
deriving DecidableEq, Repr

/-- A number text taken apart along the grammar: whether it has the minus
sign, the int-part, the digits of the frac-part if any, the exp-part if any. -/
structure number_text where
  neg : Bool
  int : List Char
  frac : Option (List Char)
  exp : Option exp_text
deriving DecidableEq, Repr

/-- The int-part rule `'0' | [1-9] [0-9]*`. -/
def int_wf : List Char → Bool
  | [] => false
  | d :: ds => (d == '0' && ds.isEmpty) || (decide (d ∈ nonzero_digit_chars) && all_digits ds)

/-- The exp-part rule `('e'|'E') ('+'|'-')? [0-9]+`. -/
def exp_text.wf (e : exp_text) : Bool :=
  (e.marker == 'e' || e.marker == 'E') &&
  (e.sign == none || e.sign == some '+' || e.sign == some '-') &&
  !e.digits.isEmpty && all_digits e.digits

/-- The frac-part rule `'.' [0-9]+`, on the digits of an optional frac-part. -/
def frac_wf : Option (List Char) → Bool
  | none => true
  | some ds => !ds.isEmpty && all_digits ds

/-- The exp-part rule on an optional exp-part. -/
def opt_exp_wf : Option exp_text → Bool
  | none => true
  | some e => e.wf

/-- The parts of a number text obey the rules of the grammar. -/
def number_text.wf (t : number_text) : Bool :=
  int_wf t.int && frac_wf t.frac && opt_exp_wf t.exp

/-- The characters of an exp-part. -/
def exp_text.text (e : exp_text) : List Char :=
  e.marker :: (e.sign.toList ++ e.digits)

/-- The characters of the optional frac-part. -/
def frac_text : Option (List Char) → List Char
  | none => []
  | some ds => '.' :: ds

/-- The characters of the optional exp-part. -/
def opt_exp_text : Option exp_text → List Char
  | none => []
  | some e => e.text

/-- The characters of a number text. -/
def number_text.text (t : number_text) : List Char :=
  (if t.neg then ['-'] else []) ++ (t.int ++ (frac_text t.frac ++ opt_exp_text t.exp))

/-- A string of the number grammar. -/
def is_number (g : List Char) : Prop := ∃ t : number_text, t.wf = true ∧ g = t.text

/-- The number written by a run of decimal digits. -/
def digits_value (ds : List Char) : Nat :=
  ds.foldl (fun acc ch => acc * 10 + (ch.toNat - '0'.toNat)) 0

/-- The significand of a number text: the digits of the int-part and of the
frac-part read as one integer. -/
def number_text.significand (t : number_text) : Nat :=
  digits_value (t.int ++ (t.frac.getD []))

/-- The written exponent of a number text, `0` without an exp-part. -/
def number_text.written_exponent (t : number_text) : Int :=
  match t.exp with
  | none => 0
  | some e => if e.sign = some '-' then - (digits_value e.digits : Int) else (digits_value e.digits : Int)

/-- The power of ten that scales the significand: the written exponent less
the number of frac-part digits.  The exact value of the text is
`(-1)^neg * significand * 10 ^ exponent`. -/
def number_text.exponent (t : number_text) : Int :=
  t.written_exponent - ((t.frac.getD []).length : Int)

/-- The binary64 value nearest to the exact value of a number text (ties to even). -/
def number_text.nearest_double (t : number_text) : Double :=
  (binary64_round t.neg (scale t.significand 10 t.exponent).1
    (scale t.significand 10 t.exponent).2).value

/-- The exact value of the number text rounds to positive or negative infinity. -/
def number_text.rounds_to_infinity (t : number_text) : Prop :=
  t.nearest_double = .inf false ∨ t.nearest_double = .inf true

instance (t : number_text) : Decidable t.rounds_to_infinity := by
  unfold number_text.rounds_to_infinity; infer_instance

/-- The text after a number does not continue it: its first character is no
digit, radix point or exponent marker. -/
def number_end (r : List Char) : Prop :=
  ISDIGIT (deref r) = false ∧ deref r ≠ '.' ∧ deref r ≠ 'e' ∧ deref r ≠ 'E'

/-- The overflow test of `lept_parse_number` on what `strtod` left behind:
`errno == ERANGE && (v->n == HUGE_VAL || v->n == -HUGE_VAL)`. -/
def overflowed (r : strtod_result) : Bool :=
  r.erange && (r.value.eq HUGE_VAL || r.value.eq HUGE_VAL.neg)

/-- The three literal keywords with the kind each denotes. -/
def keywords : List (List Char × lept_type) :=
  [(['n', 'u', 'l', 'l'], LEPT_NULL), (['t', 'r', 'u', 'e'], LEPT_TRUE),
   (['f', 'a', 'l', 's', 'e'], LEPT_FALSE)]

/-- The text after a number continues it neither for the validator nor for
`strtod`: its first character is no digit, radix point, exponent marker or
hexadecimal marker. -/
def value_end (r : List Char) : Prop :=
  number_end r ∧ deref r ≠ 'x' ∧ deref r ≠ 'X'

/-- The exact magnitude of a number text, `significand * 10 ^ exponent`. -/
def number_text.magnitude (t : number_text) : ℚ :=
  (t.significand : ℚ) * (10 : ℚ) ^ t.exponent

/-- The place of a state in the order `START, POST_SIGN, POST_INT, POST_FRAC, END`. -/
def state_rank : LEPT_VALIDATE_STATE → Nat
  | VALIDATE_START => 0
  | VALIDATE_POST_SIGN => 1
  | VALIDATE_POST_INT => 2
  | VALIDATE_POST_FRAC => 3
  | VALIDATE_END => 4

/-- What the validator has seen of the character after an accepted number
with the parts `t`: after an exp-part it is no digit; without one it is no
exponent marker and, after a frac-part, no digit; without a frac-part either
it is no radix point and, unless the int-part is `0`, no digit. -/
def stops_at (t : number_text) (r : List Char) : Prop :=
  (t.exp ≠ none → ISDIGIT (deref r) = false) ∧
  (t.exp = none → deref r ≠ 'e' ∧ deref r ≠ 'E' ∧
    (t.frac ≠ none → ISDIGIT (deref r) = false) ∧
    (t.frac = none → deref r ≠ '.' ∧ (t.int ≠ ['0'] → ISDIGIT (deref r) = false)))

/-- The optional minus sign of a number text. -/
def sign_text (neg : Bool) : List Char := if neg then ['-'] else []

/-- The cursor of the context is at index `p` of the text: `p` is at most the
length of the text (the index of the terminator) and the pointer is the text
from index `p` on. -/
def at_position (text : List Char) (c : lept_context) (p : Nat) : Prop :=
  p ≤ text.length ∧ c.json = text.drop p

/-- A test on a character that fails on the terminator and on whitespace. -/
def inert (p : Char → Bool) : Prop :=
  p '\x00' = false ∧ p ' ' = false ∧ p '\t' = false ∧ p '\n' = false ∧ p '\r' = false


/-- What `strtod` does from the first character that is not white space: the
sign, the subject sequence and the conversion. -/
def strtod_at (s : List Char) : strtod_result :=
  let signed : Bool × List Char :=
    match s with
    | '-' :: r => (true, r)
    | '+' :: r => (false, r)
    | _ => (false, s)
  match hex_subject signed.2 with
  | some (m, x) => binary64_round signed.1 (scale m 2 x).1 (scale m 2 x).2
  | none =>
    match decimal_subject signed.2 with
    | some (m, x) => binary64_round signed.1 (scale m 10 x).1 (scale m 10 x).2
    | none =>
      if starts_with_word signed.2 ['i', 'n', 'f'] then ⟨.inf signed.1, false⟩
      else if starts_with_word signed.2 ['n', 'a', 'n'] then ⟨.nan, false⟩
      else ⟨.finite false 0 0, false⟩

/-! ## The parser with checked accesses

A second reading of the same source in which every access to the text can
fail: a read `*p` or `p[i]` is `index`, which is `none` past the terminator,
and a pointer may move only to an index up to that of the terminator.  In
this reading `none` also stands for a failed `assert` and for an exhausted
loop budget, as before.  The theorems show that it never differs from the
first reading. -/

/-- The read `*p`. -/
def read (p : List Char) : Option Char := index p 0

/-- The increment `p++`, which must not leave the terminator behind. -/
def advance : List Char → Option (List Char)
  | [] => none
  | _ :: rest => some rest

/-- The move `p += i`, which must not leave the terminator behind. -/
def advance_by (p : List Char) (i : Nat) : Option (List Char) :=
  if i ≤ p.length then some (p.drop i) else none

/-- A loop `while (test(*p)) p++;` with a budget of iterations. -/
def skip_while_checked (test : Char → Bool) : Nat → List Char → Option (List Char)
  | 0, _ => none
  | fuel + 1, p =>
    match read p with
    | none => none
    | some ch =>
      if test ch then
        match advance p with
        | none => none
        | some p => skip_while_checked test fuel p
      else some p

/-- Function `lept_parse_whitespace`, accesses checked. -/
def lept_parse_whitespace_checked (c : lept_context) : Option lept_context :=
  (skip_while_checked is_ws (c.json.length + 1) c.json).map (fun p => { c with json := p })

/-- The digit loops of the validator, accesses checked. -/
def skip_digits_checked (s : List Char) : Option (List Char) :=
  skip_while_checked ISDIGIT (s.length + 1) s

/-- Macro `EXPECT(c, ch)`, accesses checked. -/
def EXPECT_checked (c : lept_context) (ch : Char) : Option lept_context := do
  let x ← read c.json
  if x = ch then
    let p ← advance c.json
    pure ⟨p⟩
  else none

/-- Function `lept_parse_literal`, accesses checked; the loop `literal_loop`
already reads through `index`. -/
def lept_parse_literal_checked (c : lept_context) (v : lept_value) (lept_str : List Char)
    (type : lept_type) : Option (lept_status × lept_context × lept_value) := do
  let c ← EXPECT_checked c (deref lept_str)
  let r ← literal_loop c.json lept_str.tail 0
  match r with
  | none => pure (LEPT_PARSE_INVALID_VALUE, c, v)
  | some i =>
    let p ← advance_by c.json i
    pure (LEPT_PARSE_OK, { c with json := p }, { v with type := type })

/-- One iteration of the loop of `lept_validate_number`, accesses checked. -/
def validate_step_checked (num s : List Char) :
    LEPT_VALIDATE_STATE → Option validate_step_result
  | VALIDATE_START => do
    let ch ← read s
    let s ← if ch = '-' then advance s else pure s
    pure (.next s VALIDATE_POST_SIGN)
  | VALIDATE_POST_SIGN => do
    let ch ← read s
    if ch = '0' then
      let s ← advance s
      pure (.next s VALIDATE_POST_INT)
    else if ISDIGIT1TO9 ch then
      let s ← advance s
      let s ← skip_digits_checked s
      pure (.next s VALIDATE_POST_INT)
    else
      pure .reject
  | VALIDATE_POST_INT => do
    let ch ← read s
    if ch = '.' then
      let s ← advance s
      let ch ← read s
      if !ISDIGIT ch then pure .reject
      else
        let s ← skip_digits_checked s
        pure (.next s VALIDATE_POST_FRAC)
    else
      pure (.next s VALIDATE_POST_FRAC)
  | VALIDATE_POST_FRAC => do
    let ch ← read s
    if (if ch = 'e' then true else if (false || decide (ch = 'E')) then true else false) then
      let s ← advance s
      let ch ← read s
      let s ← if (if ch = '+' then true else if (false || decide (ch = '-')) then true else false)
        then advance s else pure s
      let ch ← read s
      if !ISDIGIT ch then pure .reject
      else
        let s ← skip_digits_checked s
        pure (.next s VALIDATE_END)
    else
      pure (.next s VALIDATE_END)
  | VALIDATE_END =>
    pure (.accept (num.length - s.length))

/-- The loop of `lept_validate_number`, accesses checked. -/
def validate_loop_checked (num : List Char) :
    Nat → List Char → LEPT_VALIDATE_STATE → Option (Option Nat)
  | 0, _, _ => none
  | fuel + 1, s, state =>
    match validate_step_checked num s state with
    | none => none
    | some (.next s state) => validate_loop_checked num fuel s state
    | some .reject => some none
    | some (.accept size) => some (some size)

/-- Function `lept_validate_number`, accesses checked. -/
def lept_validate_number_checked (num : List Char) : Option (Option Nat) :=
  validate_loop_checked num 5 num VALIDATE_START

/-- Function `lept_parse_number`, accesses checked. -/
def lept_parse_number_checked (c : lept_context) (v : lept_value) :
    Option (lept_status × lept_context × lept_value) := do
  let r ← lept_validate_number_checked c.json
  match r with
  | none => pure (LEPT_PARSE_INVALID_VALUE, c, v)
  | some size =>
    let r := strtod c.json
    let v := { v with n := r.value }
    if r.erange && (v.n.eq HUGE_VAL || v.n.eq HUGE_VAL.neg) then
      pure (LEPT_PARSE_NUMBER_TOO_BIG, c, v)
    else
      let p ← advance_by c.json size
      pure (LEPT_PARSE_OK, { c with json := p }, { v with type := LEPT_NUMBER })

/-- Function `lept_parse_value`, accesses checked. -/
def lept_parse_value_checked (c : lept_context) (v : lept_value) :
    Option (lept_status × lept_context × lept_value) := do
  let ch ← read c.json
  if ch = 't' then lept_parse_literal_checked c v ['t', 'r', 'u', 'e'] LEPT_TRUE
  else if ch = 'f' then lept_parse_literal_checked c v ['f', 'a', 'l', 's', 'e'] LEPT_FALSE
  else if ch = 'n' then lept_parse_literal_checked c v ['n', 'u', 'l', 'l'] LEPT_NULL
  else if ch = '\x00' then pure (LEPT_PARSE_EXPECT_VALUE, c, v)
  else lept_parse_number_checked c v

/-- Function `lept_parse`, accesses checked. -/
def lept_parse_checked (v : lept_value) (json : List Char) :
    Option (lept_status × lept_value) := do
  let c : lept_context := ⟨json⟩
  let v := { v with type := LEPT_NULL }
  let c ← lept_parse_whitespace_checked c
  let (ret, c, v) ← lept_parse_value_checked c v
  if ret = LEPT_PARSE_OK then
    let c ← lept_parse_whitespace_checked c
    let ch ← read c.json
    if ch ≠ '\x00' then
      pure (LEPT_PARSE_ROOT_NOT_SINGULAR, { v with type := LEPT_NULL })
    else pure (ret, v)
  else pure (ret, v)

/-! # Lemmas and theorems -/

/-! ## Whitespace -/

theorem is_ws_iff (ch : Char) :
    is_ws ch = true ↔ ch = ' ' ∨ ch = '\t' ∨ ch = '\n' ∨ ch = '\r' := by
  simp [is_ws, or_assoc]

theorem deref_nil : deref [] = '\x00' := rfl

theorem deref_cons (ch : Char) (rest : List Char) : deref (ch :: rest) = ch := rfl

theorem skip_ws_append (w s : List Char) (hw : ∀ ch ∈ w, is_ws ch = true) :
    skip_ws (w ++ s) = skip_ws s := by
  induction w with
  | nil => rfl
  | cons a w ih =>
    have ha : is_ws a = true := hw a (List.mem_cons_self _ _)
    have hw2 : ∀ ch ∈ w, is_ws ch = true := fun ch h => hw ch (List.mem_cons_of_mem _ h)
    simp [skip_ws, ha, ih hw2]

theorem skip_ws_of_not_ws (s : List Char) (h : is_ws (deref s) = false) : skip_ws s = s := by
  cases s with
  | nil => rfl
  | cons a s => simp [skip_ws, deref_cons] at h ⊢; simp [h]

theorem skip_ws_all (w : List Char) (hw : ∀ ch ∈ w, is_ws ch = true) : skip_ws w = [] := by
  have := skip_ws_append w [] hw
  simpa [skip_ws] using this

theorem is_ws_deref_skip_ws (s : List Char) : is_ws (deref (skip_ws s)) = false := by
  induction s with
  | nil => decide
  | cons a s ih =>
    by_cases ha : is_ws a = true
    · simp [skip_ws, ha, ih]
    · simp [skip_ws, ha, deref_cons]

/-- The text splits into the whitespace skipped and the text left. -/
theorem skip_ws_split (s : List Char) :
    ∃ w, (∀ ch ∈ w, is_ws ch = true) ∧ s = w ++ skip_ws s := by
  induction s with
  | nil => exact ⟨[], by simp, rfl⟩
  | cons a s ih =>
    by_cases ha : is_ws a = true
    · obtain ⟨w, hw, hs⟩ := ih
      refine ⟨a :: w, ?_, ?_⟩
      · intro ch hch
        rcases List.mem_cons.mp hch with rfl | h
        · exact ha
        · exact hw ch h
      · simp only [skip_ws, ha, if_true, List.cons_append]
        exact congrArg _ hs
    · exact ⟨[], by simp, by simp [skip_ws, ha]⟩

/-- After the skipper, the end of a NUL-free text is reached only when all of
it was whitespace. -/
theorem skip_ws_eq_nil_of_deref (s : List Char) (h0 : '\x00' ∉ s)
    (h : deref (skip_ws s) = '\x00') : skip_ws s = [] := by
  obtain ⟨w, _, hs⟩ := skip_ws_split s
  cases hk : skip_ws s with
  | nil => rfl
  | cons a r =>
    rw [hk, deref_cons] at h
    exfalso
    apply h0
    rw [hs, hk, h]
    simp

/-! ## Literal matcher -/

theorem index_of_le (json : List Char) (i : Nat) (h : i ≤ json.length) :
    index json i = some (deref (json.drop i)) := by
  induction json generalizing i with
  | nil =>
    have : i = 0 := by simpa using h
    subst this
    rfl
  | cons a json ih =>
    cases i with
    | zero => simp [index, deref]
    | succ i =>
      have := ih i (by simpa using h)
      simpa [index] using this

/-- The loop of the matcher compares the keyword tail with the text at `i`. -/
theorem literal_loop_eq (json ks : List Char) (i : Nat) (hk : '\x00' ∉ ks)
    (hi : i ≤ json.length) :
    literal_loop json ks i =
      if ks <+: json.drop i then some (some (i + ks.length)) else some none := by
  induction ks generalizing i with
  | nil => simp [literal_loop]
  | cons k ks ih =>
    have hk0 : k ≠ '\x00' := fun h => hk (by simp [h])
    have hks : '\x00' ∉ ks := fun h => hk (List.mem_cons_of_mem _ h)
    rw [literal_loop, index_of_le json i hi]
    cases hd : json.drop i with
    | nil =>
      simp [deref_nil, Ne.symm hk0]
    | cons a r =>
      have hlt : i < json.length := by
        by_contra hge
        have : json.drop i = [] := List.drop_eq_nil_of_le (by omega)
        simp [this] at hd
      have hr : json.drop (i + 1) = r := by
        have := congrArg List.tail hd
        simpa [List.tail_drop] using this
      by_cases hak : a = k
      · subst hak
        simp only [deref_cons, ne_eq, not_true_eq_false, if_false]
        rw [ih (i + 1) hks hlt, hr]
        simp [List.cons_prefix_cons, Nat.add_assoc, Nat.add_comm 1]
      · have hka : ¬ k = a := fun h => hak h.symm
        simp [deref_cons, hak, hka, List.cons_prefix_cons]

theorem lept_parse_literal_eq (rest : List Char) (v : lept_value) (k : Char) (ks : List Char)
    (type : lept_type) (hk : '\x00' ∉ ks) :
    lept_parse_literal ⟨k :: rest⟩ v (k :: ks) type =
      if ks <+: rest then
        some (LEPT_PARSE_OK, ⟨rest.drop ks.length⟩, { v with type := type })
      else some (LEPT_PARSE_INVALID_VALUE, ⟨rest⟩, v) := by
  have h := literal_loop_eq rest ks 0 hk (Nat.zero_le _)
  simp only [List.drop_zero, Nat.zero_add] at h
  simp only [lept_parse_literal, EXPECT, deref_cons, if_true, List.tail_cons, h]
  split_ifs <;> rfl

/-! ## Validator: the loop computes the composition of its phases -/

theorem BEGIN_WITH_CHAR_iff (s : List Char) (c : Char) :
    BEGIN_WITH_CHAR s c = true ↔ deref s = c := by
  simp [BEGIN_WITH_CHAR]

theorem validate_loop_start (num s : List Char) (fuel : Nat) :
    validate_loop num (fuel + 1) s VALIDATE_START =
      validate_loop num fuel (after_sign s) VALIDATE_POST_SIGN := by
  simp only [validate_loop, validate_step, after_sign, BEGIN_WITH_CHAR]
  by_cases h : deref s = '-' <;> simp [h]

theorem validate_loop_post_sign (num s : List Char) (fuel : Nat) :
    validate_loop num (fuel + 1) s VALIDATE_POST_SIGN =
      match after_int s with
      | none => some none
      | some s => validate_loop num fuel s VALIDATE_POST_INT := by
  simp only [validate_loop, validate_step, after_int, BEGIN_WITH_CHAR]
  by_cases h : deref s = '0'
  · simp [h]
  · by_cases h2 : ISDIGIT1TO9 (deref s) = true <;> simp [h, h2]

theorem validate_loop_post_int (num s : List Char) (fuel : Nat) :
    validate_loop num (fuel + 1) s VALIDATE_POST_INT =
      match after_frac s with
      | none => some none
      | some s => validate_loop num fuel s VALIDATE_POST_FRAC := by
  simp only [validate_loop, validate_step, after_frac, BEGIN_WITH_CHAR]
  by_cases h : deref s = '.'
  · by_cases h2 : ISDIGIT (deref s.tail) = true <;> simp [h, h2]
  · simp [h]

theorem validate_loop_post_frac (num s : List Char) (fuel : Nat) :
    validate_loop num (fuel + 1) s VALIDATE_POST_FRAC =
      match after_exp s with
      | none => some none
      | some s => validate_loop num fuel s VALIDATE_END := by
  simp only [validate_loop, validate_step, after_exp, after_exp_sign, BEGIN_WITH_CHAR_or,
    Bool.false_or, decide_eq_true_eq]
  by_cases h : deref s = 'e' <;> by_cases h' : deref s = 'E' <;>
    by_cases hp : deref s.tail = '+' <;> by_cases hm : deref s.tail = '-' <;>
    simp only [h, h', hp, hm, if_true, if_false, Bool.or_true, Bool.or_false, Bool.or_self,
      or_true, or_false, or_self, true_or] <;>
    split_ifs <;> simp_all

theorem validate_loop_end (num s : List Char) (fuel : Nat) :
    validate_loop num (fuel + 1) s VALIDATE_END = some (some (num.length - s.length)) := by
  simp [validate_loop, validate_step]

theorem lept_validate_number_eq (num : List Char) :
    lept_validate_number num =
      some ((validate_end num).map (fun s => num.length - s.length)) := by
  rw [lept_validate_number, validate_loop_start, validate_loop_post_sign, validate_end]
  cases h1 : after_int (after_sign num) with
  | none => rfl
  | some s1 =>
    simp only [Option.some_bind]
    rw [validate_loop_post_int]
    cases h2 : after_frac s1 with
    | none => rfl
    | some s2 =>
      simp only [Option.some_bind]
      rw [validate_loop_post_frac]
      cases h3 : after_exp s2 with
      | none => rfl
      | some s3 =>
        simp only [Option.some_bind, Option.map_some']
        rw [validate_loop_end]

/-! ## Character classes -/

theorem char_eq_of_toNat (ch : Char) (k : Nat) (h : ch.toNat = k) : ch = Char.ofNat k := by
  rw [← h, Char.ofNat_toNat]

theorem ISDIGIT_iff (ch : Char) : ISDIGIT ch = true ↔ ch ∈ digit_chars := by
  constructor
  · intro h
    simp only [ISDIGIT, Bool.and_eq_true, decide_eq_true_eq] at h
    have h1 : 48 ≤ ch.toNat := h.1
    have h2 : ch.toNat ≤ 57 := h.2
    have : ch.toNat = 48 ∨ ch.toNat = 49 ∨ ch.toNat = 50 ∨ ch.toNat = 51 ∨ ch.toNat = 52 ∨
        ch.toNat = 53 ∨ ch.toNat = 54 ∨ ch.toNat = 55 ∨ ch.toNat = 56 ∨ ch.toNat = 57 := by omega
    rcases this with h | h | h | h | h | h | h | h | h | h <;>
      · rw [char_eq_of_toNat ch _ h]; decide
  · intro h
    simp only [digit_chars, List.mem_cons, List.mem_singleton, List.not_mem_nil, or_false] at h
    rcases h with h | h | h | h | h | h | h | h | h | h <;> subst h <;> decide

theorem ISDIGIT1TO9_iff (ch : Char) : ISDIGIT1TO9 ch = true ↔ ch ∈ nonzero_digit_chars := by
  constructor
  · intro h
    simp only [ISDIGIT1TO9, Bool.and_eq_true, decide_eq_true_eq] at h
    have h1 : 49 ≤ ch.toNat := h.1
    have h2 : ch.toNat ≤ 57 := h.2
    have : ch.toNat = 49 ∨ ch.toNat = 50 ∨ ch.toNat = 51 ∨ ch.toNat = 52 ∨
        ch.toNat = 53 ∨ ch.toNat = 54 ∨ ch.toNat = 55 ∨ ch.toNat = 56 ∨ ch.toNat = 57 := by omega
    rcases this with h | h | h | h | h | h | h | h | h <;>
      · rw [char_eq_of_toNat ch _ h]; decide
  · intro h
    simp only [nonzero_digit_chars, List.mem_cons, List.mem_singleton, List.not_mem_nil,
      or_false] at h
    rcases h with h | h | h | h | h | h | h | h | h <;> subst h <;> decide

theorem is_ws_iff_mem (ch : Char) : is_ws ch = true ↔ ch ∈ ws_chars := by
  rw [is_ws_iff]; simp [ws_chars]

theorem all_ws_iff (w : List Char) : all_ws w ↔ ∀ ch ∈ w, is_ws ch = true := by
  simp only [all_ws, is_ws_iff_mem]

theorem ISDIGIT_of_1TO9 (ch : Char) (h : ISDIGIT1TO9 ch = true) : ISDIGIT ch = true := by
  simp only [ISDIGIT1TO9, ISDIGIT, Bool.and_eq_true, decide_eq_true_eq] at h ⊢
  refine ⟨?_, h.2⟩
  have h1 : 49 ≤ ch.toNat := h.1
  show 48 ≤ ch.toNat
  omega

/-- A digit is none of the other characters the parser looks for. -/
theorem ISDIGIT_ne (ch : Char) (h : ISDIGIT ch = true) :
    ch ≠ '-' ∧ ch ≠ '+' ∧ ch ≠ '.' ∧ ch ≠ 'e' ∧ ch ≠ 'E' ∧ ch ≠ 't' ∧ ch ≠ 'f' ∧ ch ≠ 'n' ∧
      ch ≠ '\x00' ∧ ch ≠ 'x' ∧ ch ≠ 'X' ∧ is_ws ch = false ∧ isspace ch = false := by
  have := (ISDIGIT_iff ch).mp h
  simp only [digit_chars, List.mem_cons, List.mem_singleton, List.not_mem_nil, or_false] at this
  rcases this with h | h | h | h | h | h | h | h | h | h <;> subst h <;> decide

/-- A whitespace character is none of the characters that start or continue a value. -/
theorem is_ws_ne (ch : Char) (h : is_ws ch = true) :
    ch ≠ '-' ∧ ch ≠ '+' ∧ ch ≠ '.' ∧ ch ≠ 'e' ∧ ch ≠ 'E' ∧ ch ≠ 't' ∧ ch ≠ 'f' ∧ ch ≠ 'n' ∧
      ch ≠ '\x00' ∧ ch ≠ 'x' ∧ ch ≠ 'X' ∧ ISDIGIT ch = false := by
  rcases (is_ws_iff ch).mp h with h | h | h | h <;> subst h <;> decide

theorem all_digits_iff (ds : List Char) : all_digits ds = true ↔ ∀ ch ∈ ds, ISDIGIT ch = true := by
  simp [all_digits, ISDIGIT_iff]

/-! ## The digit loops -/

theorem skip_digits_append (ds rest : List Char) (hd : all_digits ds = true)
    (hr : ISDIGIT (deref rest) = false) : skip_digits (ds ++ rest) = rest := by
  rw [all_digits_iff] at hd
  induction ds with
  | nil =>
    cases rest with
    | nil => rfl
    | cons a r => simp only [deref_cons] at hr; simp [skip_digits, hr]
  | cons a ds ih =>
    have ha := hd a (List.mem_cons_self _ _)
    simp only [List.cons_append, skip_digits, ha, if_true]
    exact ih (fun ch h => hd ch (List.mem_cons_of_mem _ h))

theorem skip_digits_split (s : List Char) :
    ∃ ds, all_digits ds = true ∧ s = ds ++ skip_digits s ∧
      ISDIGIT (deref (skip_digits s)) = false := by
  induction s with
  | nil => exact ⟨[], rfl, rfl, by decide⟩
  | cons a s ih =>
    by_cases ha : ISDIGIT a = true
    · obtain ⟨ds, h1, h2, h3⟩ := ih
      refine ⟨a :: ds, ?_, ?_, ?_⟩
      · rw [all_digits_iff] at h1 ⊢
        intro ch hch
        rcases List.mem_cons.mp hch with rfl | h
        · exact ha
        · exact h1 ch h
      · simp only [skip_digits, ha, if_true, List.cons_append]
        exact congrArg _ h2
      · simpa [skip_digits, ha] using h3
    · refine ⟨[], rfl, ?_, ?_⟩
      · simp [skip_digits, ha]
      · simp [skip_digits, ha, deref_cons]

/-! ## Validator phases against the grammar -/

theorem deref_append_of_ne_nil (a b : List Char) (h : a ≠ []) : deref (a ++ b) = deref a := by
  cases a with
  | nil => exact absurd rfl h
  | cons x a => rfl

theorem cons_tail_of_deref (s : List Char) (ch : Char) (h : deref s = ch) (h0 : ch ≠ '\x00') :
    s = ch :: s.tail := by
  cases s with
  | nil => exact absurd h.symm h0
  | cons a s => simp only [deref_cons] at h; simp [h]

theorem int_wf_deref (ip : List Char) (h : int_wf ip = true) :
    ISDIGIT (deref ip) = true ∧ ip ≠ [] := by
  cases ip with
  | nil => simp [int_wf] at h
  | cons d ds =>
    refine ⟨?_, by simp⟩
    simp only [deref_cons]
    simp only [int_wf, Bool.or_eq_true, Bool.and_eq_true, beq_iff_eq, decide_eq_true_eq] at h
    rcases h with ⟨h, _⟩ | ⟨h, _⟩
    · subst h; decide
    · exact ISDIGIT_of_1TO9 d ((ISDIGIT1TO9_iff d).mpr h)

theorem after_int_text (ip r : List Char) (h : int_wf ip = true)
    (hr : ip = ['0'] ∨ ISDIGIT (deref r) = false) : after_int (ip ++ r) = some r := by
  cases ip with
  | nil => simp [int_wf] at h
  | cons d ds =>
    simp only [int_wf, Bool.or_eq_true, Bool.and_eq_true, beq_iff_eq, decide_eq_true_eq,
      List.isEmpty_iff] at h
    by_cases hd : d = '0'
    · subst hd
      rcases h with ⟨_, h⟩ | ⟨h, _⟩
      · subst h; simp [after_int, deref_cons]
      · exact absurd h (by decide)
    · rcases h with ⟨h, _⟩ | ⟨h1, h2⟩
      · exact absurd h hd
      · have hr2 : ISDIGIT (deref r) = false := by
          rcases hr with hr | hr
          · exact absurd (List.cons.inj hr).1 hd
          · exact hr
        simp [after_int, deref_cons, hd, (ISDIGIT1TO9_iff d).mpr h1, skip_digits_append ds r h2 hr2]

theorem after_int_sound (s r : List Char) (h : after_int s = some r) :
    ∃ ip, int_wf ip = true ∧ s = ip ++ r ∧ (ip = ['0'] ∨ ISDIGIT (deref r) = false) := by
  unfold after_int at h
  by_cases h0 : deref s = '0'
  · simp only [h0, if_true, Option.some.injEq] at h
    refine ⟨['0'], by decide, ?_, Or.inl rfl⟩
    rw [← h]
    exact cons_tail_of_deref s '0' h0 (by decide)
  · simp only [h0, if_false] at h
    by_cases h1 : ISDIGIT1TO9 (deref s) = true
    · simp only [h1, if_true, Option.some.injEq] at h
      obtain ⟨ds, hds, hsplit, hstop⟩ := skip_digits_split s.tail
      rw [h] at hsplit hstop
      have hne : deref s ≠ '\x00' := (ISDIGIT_ne _ (ISDIGIT_of_1TO9 _ h1)).2.2.2.2.2.2.2.2.1
      refine ⟨deref s :: ds, ?_, ?_, Or.inr hstop⟩
      · simp [int_wf, (ISDIGIT1TO9_iff _).mp h1, hds]
      · have := cons_tail_of_deref s (deref s) rfl hne
        rw [hsplit] at this
        simpa using this
    · simp [h1] at h

theorem after_frac_text (f : Option (List Char)) (r : List Char) (h : frac_wf f = true)
    (hr : ISDIGIT (deref r) = false ∧ deref r ≠ '.') :
    after_frac (frac_text f ++ r) = some r := by
  cases f with
  | none => simp [frac_text, after_frac, hr.2]
  | some ds =>
    simp only [frac_wf, Bool.and_eq_true, Bool.not_eq_true', List.isEmpty_eq_false] at h
    have hd : ISDIGIT (deref (ds ++ r)) = true := by
      rw [deref_append_of_ne_nil ds r h.1]
      cases ds with
      | nil => exact absurd rfl h.1
      | cons a ds => exact (all_digits_iff _).mp h.2 a (List.mem_cons_self _ _)
    simp [frac_text, after_frac, deref_cons, hd, skip_digits_append ds r h.2 hr.1]

theorem after_frac_sound (s r : List Char) (h : after_frac s = some r) :
    ∃ f, frac_wf f = true ∧ s = frac_text f ++ r ∧
      (f = none → deref r ≠ '.') ∧ (f ≠ none → ISDIGIT (deref r) = false) := by
  unfold after_frac at h
  by_cases h0 : deref s = '.'
  · simp only [h0, if_true] at h
    by_cases h1 : ISDIGIT (deref s.tail) = true
    · simp only [h1, if_true, Option.some.injEq] at h
      obtain ⟨ds, hds, hsplit, hstop⟩ := skip_digits_split s.tail
      rw [h] at hsplit hstop
      have hne : ds ≠ [] := by
        rintro rfl
        rw [hsplit] at h1
        simp only [List.nil_append] at h1
        rw [h1] at hstop
        exact absurd hstop (by decide)
      refine ⟨some ds, ?_, ?_, by simp, fun _ => hstop⟩
      · simp [frac_wf, hne, hds]
      · have := cons_tail_of_deref s '.' h0 (by decide)
        rw [hsplit] at this
        simpa [frac_text] using this
    · simp [h1] at h
  · simp only [h0, if_false, Option.some.injEq] at h
    subst h
    exact ⟨none, rfl, rfl, fun _ => h0, fun h => absurd rfl h⟩

theorem all_digits_deref (ds r : List Char) (hne : ds ≠ []) (hd : all_digits ds = true) :
    ISDIGIT (deref (ds ++ r)) = true := by
  rw [deref_append_of_ne_nil ds r hne]
  cases ds with
  | nil => exact absurd rfl hne
  | cons a ds => exact (all_digits_iff _).mp hd a (List.mem_cons_self _ _)

theorem after_exp_sign_digit (s : List Char) (h : ISDIGIT (deref s) = true) :
    after_exp_sign s = s := by
  have := ISDIGIT_ne _ h
  simp [after_exp_sign, this.1, this.2.1]

theorem after_exp_text (e : Option exp_text) (r : List Char) (h : opt_exp_wf e = true)
    (hr : ISDIGIT (deref r) = false ∧ deref r ≠ 'e' ∧ deref r ≠ 'E') :
    after_exp (opt_exp_text e ++ r) = some r := by
  cases e with
  | none => simp [opt_exp_text, after_exp, hr.2.1, hr.2.2]
  | some e =>
    obtain ⟨m, sg, ds⟩ := e
    simp only [opt_exp_wf, exp_text.wf, Bool.and_eq_true, Bool.or_eq_true, beq_iff_eq,
      Bool.not_eq_true', List.isEmpty_eq_false] at h
    obtain ⟨⟨⟨hm, hs⟩, hne⟩, hds⟩ := h
    have hdig := all_digits_deref ds r hne hds
    have hm' : m = 'e' ∨ m = 'E' := hm
    have key : after_exp_sign (sg.toList ++ ds ++ r) = ds ++ r := by
      rcases hs with (hs | hs) | hs
      · subst hs
        simpa using after_exp_sign_digit _ hdig
      · subst hs
        simp [after_exp_sign, deref_cons]
      · subst hs
        simp [after_exp_sign, deref_cons]
    simp only [opt_exp_text, exp_text.text, List.cons_append, after_exp, deref_cons, hm',
      if_true, List.tail_cons]
    rw [key, hdig, skip_digits_append ds r hds hr.1]
    rfl

theorem after_exp_sound (s r : List Char) (h : after_exp s = some r) :
    ∃ e, opt_exp_wf e = true ∧ s = opt_exp_text e ++ r ∧
      (e = none → deref r ≠ 'e' ∧ deref r ≠ 'E') ∧ (e ≠ none → ISDIGIT (deref r) = false) := by
  unfold after_exp at h
  by_cases h0 : deref s = 'e' ∨ deref s = 'E'
  · simp only [h0, if_true] at h
    by_cases h1 : ISDIGIT (deref (after_exp_sign s.tail)) = true
    · simp only [h1, if_true, Option.some.injEq] at h
      obtain ⟨ds, hds, hsplit, hstop⟩ := skip_digits_split (after_exp_sign s.tail)
      rw [h] at hsplit hstop
      have hne : ds ≠ [] := by
        rintro rfl
        rw [hsplit] at h1
        simp only [List.nil_append] at h1
        rw [h1] at hstop
        exact absurd hstop (by decide)
      have hm0 : deref s ≠ '\x00' := by
        rcases h0 with h0 | h0 <;> rw [h0] <;> decide
      have hs := cons_tail_of_deref s (deref s) rfl hm0
      by_cases hsg : deref s.tail = '+' ∨ deref s.tail = '-'
      · have hsg0 : deref s.tail ≠ '\x00' := by
          rcases hsg with h | h <;> rw [h] <;> decide
        have ht := cons_tail_of_deref s.tail (deref s.tail) rfl hsg0
        have hx : after_exp_sign s.tail = s.tail.tail := by simp [after_exp_sign, hsg]
        rw [hx] at hsplit
        refine ⟨some ⟨deref s, some (deref s.tail), ds⟩, ?_, ?_, by simp, fun _ => hstop⟩
        · simp only [opt_exp_wf, exp_text.wf, Bool.and_eq_true, Bool.or_eq_true, beq_iff_eq,
            Bool.not_eq_true', List.isEmpty_eq_false]
          refine ⟨⟨⟨h0, ?_⟩, hne⟩, hds⟩
          rcases hsg with h | h
          · exact Or.inl (Or.inr (by rw [h]))
          · exact Or.inr (by rw [h])
        · simp only [opt_exp_text, exp_text.text, Option.toList, List.cons_append,
            List.nil_append, List.append_assoc]
          rw [← hsplit, ← ht, ← hs]
      · have hx : after_exp_sign s.tail = s.tail := by simp [after_exp_sign, hsg]
        rw [hx] at hsplit
        refine ⟨some ⟨deref s, none, ds⟩, ?_, ?_, by simp, fun _ => hstop⟩
        · simp only [opt_exp_wf, exp_text.wf, Bool.and_eq_true, Bool.or_eq_true, beq_iff_eq,
            Bool.not_eq_true', List.isEmpty_eq_false]
          exact ⟨⟨⟨h0, Or.inl (Or.inl trivial)⟩, hne⟩, hds⟩
        · simp only [opt_exp_text, exp_text.text, Option.toList, List.cons_append,
            List.nil_append, List.append_assoc]
          rw [← hsplit, ← hs]
    · simp [h1] at h
  · simp only [h0, if_false, Option.some.injEq] at h
    subst h
    exact ⟨none, rfl, rfl, fun _ => not_or.mp h0, fun h => absurd rfl h⟩

theorem opt_exp_text_deref (e : Option exp_text) (r : List Char) (h : opt_exp_wf e = true)
    (hr : number_end r) :
    ISDIGIT (deref (opt_exp_text e ++ r)) = false ∧ deref (opt_exp_text e ++ r) ≠ '.' := by
  cases e with
  | none => exact ⟨hr.1, hr.2.1⟩
  | some e =>
    simp only [opt_exp_wf, exp_text.wf, Bool.and_eq_true, Bool.or_eq_true, beq_iff_eq] at h
    simp only [opt_exp_text, exp_text.text, List.cons_append, deref_cons]
    rcases h.1.1.1 with h | h <;> rw [h] <;> decide

theorem frac_text_deref (f : Option (List Char)) (r : List Char)
    (hr : ISDIGIT (deref r) = false) :
    ISDIGIT (deref (frac_text f ++ r)) = false := by
  cases f with
  | none => exact hr
  | some ds => simp only [frac_text, List.cons_append, deref_cons]; decide

/-- Completeness of the validator: on a string of the grammar followed by a
text that does not continue it, the validator stops right after the string. -/
theorem validate_end_text (t : number_text) (r : List Char) (h : t.wf = true)
    (hr : number_end r) : validate_end (t.text ++ r) = some r := by
  simp only [number_text.wf, Bool.and_eq_true] at h
  obtain ⟨⟨hi, hf⟩, he⟩ := h
  have h3 := after_exp_text t.exp r he ⟨hr.1, hr.2.2.1, hr.2.2.2⟩
  have hd3 := opt_exp_text_deref t.exp r he hr
  have h2 := after_frac_text t.frac (opt_exp_text t.exp ++ r) hf hd3
  have hd2 := frac_text_deref t.frac (opt_exp_text t.exp ++ r) hd3.1
  have h1 := after_int_text t.int (frac_text t.frac ++ (opt_exp_text t.exp ++ r)) hi (Or.inr hd2)
  have hd1 : ISDIGIT (deref (t.int ++ (frac_text t.frac ++ (opt_exp_text t.exp ++ r)))) = true := by
    rw [deref_append_of_ne_nil _ _ (int_wf_deref _ hi).2]
    exact (int_wf_deref _ hi).1
  have h0 : after_sign (t.text ++ r) = t.int ++ (frac_text t.frac ++ (opt_exp_text t.exp ++ r)) := by
    simp only [number_text.text, List.append_assoc]
    cases t.neg with
    | true => simp [after_sign, deref_cons]
    | false => simp [after_sign, (ISDIGIT_ne _ hd1).1]
  simp [validate_end, h0, h1, h2, h3]

/-- Soundness of the validator: the text up to the pointer at which it
accepts is a string of the grammar. -/
theorem validate_end_sound (num r : List Char) (h : validate_end num = some r) :
    ∃ t : number_text, t.wf = true ∧ num = t.text ++ r := by
  unfold validate_end at h
  cases h1 : after_int (after_sign num) with
  | none => simp [h1] at h
  | some s1 =>
    simp only [h1, Option.some_bind] at h
    cases h2 : after_frac s1 with
    | none => simp [h2] at h
    | some s2 =>
      simp only [h2, Option.some_bind] at h
      obtain ⟨ip, hip, hs0, _⟩ := after_int_sound _ _ h1
      obtain ⟨f, hf, hs1, _⟩ := after_frac_sound _ _ h2
      obtain ⟨e, he, hs2, _⟩ := after_exp_sound _ _ h
      by_cases hm : deref num = '-'
      · refine ⟨⟨true, ip, f, e⟩, by simp [number_text.wf, hip, hf, he], ?_⟩
        have hn := cons_tail_of_deref num '-' hm (by decide)
        have : after_sign num = num.tail := by simp [after_sign, hm]
        rw [this] at hs0
        rw [hn, hs0, hs1, hs2]
        simp [number_text.text]
      · refine ⟨⟨false, ip, f, e⟩, by simp [number_text.wf, hip, hf, he], ?_⟩
        have : after_sign num = num := by simp [after_sign, hm]
        rw [this] at hs0
        rw [hs0, hs1, hs2]
        simp [number_text.text]

/-! ## Number parser, dispatcher and entry point -/

theorem drop_length_sub (a r : List Char) : (a ++ r).drop ((a ++ r).length - r.length) = r := by
  simp

theorem lept_parse_number_eq (c : lept_context) (v : lept_value) :
    lept_parse_number c v =
      match validate_end c.json with
      | none => some (LEPT_PARSE_INVALID_VALUE, c, v)
      | some r =>
        if overflowed (strtod c.json) then
          some (LEPT_PARSE_NUMBER_TOO_BIG, c, { v with n := (strtod c.json).value })
        else
          some (LEPT_PARSE_OK, ⟨r⟩, ⟨(strtod c.json).value, LEPT_NUMBER⟩) := by
  rw [lept_parse_number, lept_validate_number_eq]
  cases h : validate_end c.json with
  | none => rfl
  | some r =>
    obtain ⟨t, _, ht⟩ := validate_end_sound _ _ h
    simp only [Option.map_some', overflowed]
    split_ifs
    · rfl
    · rw [ht, drop_length_sub]

theorem lept_parse_value_literal (rest : List Char) (v : lept_value) (k : Char)
    (ks : List Char) (type : lept_type) (h : (k :: ks, type) ∈ keywords) :
    lept_parse_value ⟨k :: rest⟩ v =
      if ks <+: rest then
        some (LEPT_PARSE_OK, ⟨rest.drop ks.length⟩, { v with type := type })
      else some (LEPT_PARSE_INVALID_VALUE, ⟨rest⟩, v) := by
  simp only [keywords, List.mem_cons, Prod.mk.injEq, List.cons.injEq, List.mem_singleton,
    List.not_mem_nil, or_false] at h
  rcases h with ⟨⟨hk, hks⟩, ht⟩ | ⟨⟨hk, hks⟩, ht⟩ | ⟨⟨hk, hks⟩, ht⟩ <;> subst hk hks ht
  · rw [← lept_parse_literal_eq rest v 'n' _ _ (by decide)]
    simp [lept_parse_value, deref_cons]
  · rw [← lept_parse_literal_eq rest v 't' _ _ (by decide)]
    simp [lept_parse_value, deref_cons]
  · rw [← lept_parse_literal_eq rest v 'f' _ _ (by decide)]
    simp [lept_parse_value, deref_cons]

theorem lept_parse_value_end (c : lept_context) (v : lept_value) (h : deref c.json = '\x00') :
    lept_parse_value c v = some (LEPT_PARSE_EXPECT_VALUE, c, v) := by
  simp [lept_parse_value, h]

theorem lept_parse_value_number (c : lept_context) (v : lept_value)
    (ht : deref c.json ≠ 't') (hf : deref c.json ≠ 'f') (hn : deref c.json ≠ 'n')
    (h0 : deref c.json ≠ '\x00') :
    lept_parse_value c v = lept_parse_number c v := by
  simp [lept_parse_value, ht, hf, hn, h0]

/-- The dispatcher always returns; a status other than success leaves the
tag as it was, and success never comes with the status `EXPECT_VALUE`. -/
theorem lept_parse_value_total (c : lept_context) (v : lept_value) :
    ∃ ret c1 v1, lept_parse_value c v = some (ret, c1, v1) ∧
      (ret ≠ LEPT_PARSE_OK → v1.type = v.type) := by
  obtain ⟨json⟩ := c
  by_cases ht : deref json = 't'
  · have hj := cons_tail_of_deref json 't' ht (by decide)
    rw [hj, lept_parse_value_literal _ v 't' ['r', 'u', 'e'] LEPT_TRUE (by decide)]
    split_ifs
    · exact ⟨_, _, _, rfl, fun h => absurd rfl h⟩
    · exact ⟨_, _, _, rfl, fun _ => rfl⟩
  by_cases hf : deref json = 'f'
  · have hj := cons_tail_of_deref json 'f' hf (by decide)
    rw [hj, lept_parse_value_literal _ v 'f' ['a', 'l', 's', 'e'] LEPT_FALSE (by decide)]
    split_ifs
    · exact ⟨_, _, _, rfl, fun h => absurd rfl h⟩
    · exact ⟨_, _, _, rfl, fun _ => rfl⟩
  by_cases hn : deref json = 'n'
  · have hj := cons_tail_of_deref json 'n' hn (by decide)
    rw [hj, lept_parse_value_literal _ v 'n' ['u', 'l', 'l'] LEPT_NULL (by decide)]
    split_ifs
    · exact ⟨_, _, _, rfl, fun h => absurd rfl h⟩
    · exact ⟨_, _, _, rfl, fun _ => rfl⟩
  by_cases h0 : deref json = '\x00'
  · rw [lept_parse_value_end _ v h0]
    exact ⟨_, _, _, rfl, fun _ => rfl⟩
  · rw [lept_parse_value_number _ v ht hf hn h0, lept_parse_number_eq]
    cases validate_end json with
    | none => exact ⟨_, _, _, rfl, fun _ => rfl⟩
    | some r =>
      simp only
      split_ifs
      · exact ⟨_, _, _, rfl, fun _ => rfl⟩
      · exact ⟨_, _, _, rfl, fun h => absurd rfl h⟩

/-- The entry point in terms of the dispatcher. -/
theorem lept_parse_eq (v : lept_value) (json : List Char) :
    lept_parse v json =
      match lept_parse_value ⟨skip_ws json⟩ ⟨v.n, LEPT_NULL⟩ with
      | none => none
      | some (ret, c, v1) =>
        if ret = LEPT_PARSE_OK then
          if deref (skip_ws c.json) ≠ '\x00' then
            some (LEPT_PARSE_ROOT_NOT_SINGULAR, ⟨v1.n, LEPT_NULL⟩)
          else some (LEPT_PARSE_OK, v1)
        else some (ret, v1) := by
  simp only [lept_parse, lept_parse_whitespace]
  cases lept_parse_value ⟨skip_ws json⟩ ⟨v.n, LEPT_NULL⟩ with
  | none => rfl
  | some x =>
    obtain ⟨ret, c, v1⟩ := x
    simp only
    split_ifs with h1 h2
    · rfl
    · rw [h1]
    · rfl

/-- The three ways through the dispatcher: a keyword letter, the end of the
text, or anything else (the number parser). -/
theorem lept_parse_value_cases (json : List Char) (v : lept_value) :
    (∃ k ks ty rest, (k :: ks, ty) ∈ keywords ∧ json = k :: rest ∧
      lept_parse_value ⟨json⟩ v =
        if ks <+: rest then some (LEPT_PARSE_OK, ⟨rest.drop ks.length⟩, ⟨v.n, ty⟩)
        else some (LEPT_PARSE_INVALID_VALUE, ⟨rest⟩, v)) ∨
    (deref json = '\x00' ∧
      lept_parse_value ⟨json⟩ v = some (LEPT_PARSE_EXPECT_VALUE, ⟨json⟩, v)) ∨
    ((deref json ≠ 't' ∧ deref json ≠ 'f' ∧ deref json ≠ 'n' ∧ deref json ≠ '\x00') ∧
      lept_parse_value ⟨json⟩ v =
        match validate_end json with
        | none => some (LEPT_PARSE_INVALID_VALUE, ⟨json⟩, v)
        | some r =>
          if overflowed (strtod json) then
            some (LEPT_PARSE_NUMBER_TOO_BIG, ⟨json⟩, ⟨(strtod json).value, v.type⟩)
          else
            some (LEPT_PARSE_OK, ⟨r⟩, ⟨(strtod json).value, LEPT_NUMBER⟩)) := by
  by_cases ht : deref json = 't'
  · exact Or.inl ⟨'t', ['r', 'u', 'e'], LEPT_TRUE, json.tail, by decide,
      cons_tail_of_deref json 't' ht (by decide), by
        conv_lhs => rw [cons_tail_of_deref json 't' ht (by decide)]
        exact lept_parse_value_literal _ v 't' _ _ (by decide)⟩
  by_cases hf : deref json = 'f'
  · exact Or.inl ⟨'f', ['a', 'l', 's', 'e'], LEPT_FALSE, json.tail, by decide,
      cons_tail_of_deref json 'f' hf (by decide), by
        conv_lhs => rw [cons_tail_of_deref json 'f' hf (by decide)]
        exact lept_parse_value_literal _ v 'f' _ _ (by decide)⟩
  by_cases hn : deref json = 'n'
  · exact Or.inl ⟨'n', ['u', 'l', 'l'], LEPT_NULL, json.tail, by decide,
      cons_tail_of_deref json 'n' hn (by decide), by
        conv_lhs => rw [cons_tail_of_deref json 'n' hn (by decide)]
        exact lept_parse_value_literal _ v 'n' _ _ (by decide)⟩
  by_cases h0 : deref json = '\x00'
  · exact Or.inr (Or.inl ⟨h0, lept_parse_value_end _ v h0⟩)
  · refine Or.inr (Or.inr ⟨⟨ht, hf, hn, h0⟩, ?_⟩)
    rw [lept_parse_value_number ⟨json⟩ v ht hf hn h0, lept_parse_number_eq]

theorem keyword_first (k : Char) (ks : List Char) (ty : lept_type)
    (h : (k :: ks, ty) ∈ keywords) :
    (k = 't' ∨ k = 'f' ∨ k = 'n') ∧ '\x00' ∉ k :: ks ∧ is_ws k = false ∧
      (∀ ch ∈ k :: ks, is_ws ch = false) ∧ ty ≠ LEPT_NUMBER := by
  simp only [keywords, List.mem_cons, Prod.mk.injEq, List.cons.injEq, List.mem_singleton,
    List.not_mem_nil, or_false] at h
  rcases h with ⟨⟨hk, hks⟩, ht⟩ | ⟨⟨hk, hks⟩, ht⟩ | ⟨⟨hk, hks⟩, ht⟩ <;> subst hk hks ht <;> decide

theorem keyword_unique (kw kw2 : List Char) (ty : lept_type)
    (h : (kw, ty) ∈ keywords) (h2 : (kw2, ty) ∈ keywords) : kw = kw2 := by
  simp only [keywords, List.mem_cons, Prod.mk.injEq, List.mem_singleton,
    List.not_mem_nil, or_false] at h h2
  rcases h with ⟨h, ht⟩ | ⟨h, ht⟩ | ⟨h, ht⟩ <;>
    rcases h2 with ⟨h2, ht2⟩ | ⟨h2, ht2⟩ | ⟨h2, ht2⟩ <;> subst h h2 <;> simp_all

/-- Only whitespace stands before the end of a NUL-free text at which the
skipper stops. -/
theorem all_ws_of_skip_end (r : List Char) (h0 : '\x00' ∉ r)
    (h : deref (skip_ws r) = '\x00') : all_ws r := by
  obtain ⟨w, hw, hs⟩ := skip_ws_split r
  rw [skip_ws_eq_nil_of_deref r h0 h, List.append_nil] at hs
  rw [hs, all_ws_iff]
  exact hw

theorem skip_ws_all_ws (w s : List Char) (hw : all_ws w) : skip_ws (w ++ s) = skip_ws s :=
  skip_ws_append w s ((all_ws_iff w).mp hw)

theorem deref_skip_ws_all_ws (w : List Char) (hw : all_ws w) : deref (skip_ws w) = '\x00' := by
  rw [skip_ws_all w ((all_ws_iff w).mp hw)]; rfl

/-- Success of the entry point on a NUL-free text, inverted: the text is a
keyword or an accepted number between two runs of whitespace. -/
theorem lept_parse_ok_cases (v v1 : lept_value) (s : List Char) (h0 : '\x00' ∉ s)
    (h : lept_parse v s = some (LEPT_PARSE_OK, v1)) :
    ∃ w1 w2, all_ws w1 ∧ all_ws w2 ∧
      ((∃ kw ty, (kw, ty) ∈ keywords ∧ s = w1 ++ kw ++ w2 ∧ v1 = ⟨v.n, ty⟩) ∨
       (∃ t : number_text, t.wf = true ∧ s = w1 ++ t.text ++ w2 ∧
          overflowed (strtod (t.text ++ w2)) = false ∧
          v1 = ⟨(strtod (t.text ++ w2)).value, LEPT_NUMBER⟩)) := by
  obtain ⟨w1, hw1, hs⟩ := skip_ws_split s
  rw [← all_ws_iff] at hw1
  have h0' : '\x00' ∉ skip_ws s := fun hm => h0 (by rw [hs]; exact List.mem_append_right _ hm)
  rw [lept_parse_eq] at h
  rcases lept_parse_value_cases (skip_ws s) ⟨v.n, LEPT_NULL⟩ with
    ⟨k, ks, ty, rest, hmem, hj, hv⟩ | ⟨_, hv⟩ | ⟨_, hv⟩
  · rw [hv] at h
    by_cases hp : ks <+: rest
    · rw [if_pos hp] at h
      obtain ⟨r2, hr2⟩ := hp
      have hd : rest.drop ks.length = r2 := by rw [← hr2]; simp
      rw [hd] at h
      by_cases he : deref (skip_ws r2) = '\x00'
      · simp only [he, if_true, ne_eq, not_true_eq_false, if_false, Option.some.injEq,
          Prod.mk.injEq, true_and] at h
        have hr0 : '\x00' ∉ r2 := fun hm => h0' (by
          rw [hj, ← hr2]; exact List.mem_cons_of_mem _ (List.mem_append_right _ hm))
        refine ⟨w1, r2, hw1, all_ws_of_skip_end r2 hr0 he, Or.inl ⟨k :: ks, ty, hmem, ?_, h.symm⟩⟩
        conv_lhs => rw [hs, hj, ← hr2]
        simp
      · simp [he] at h
    · simp [hp] at h
  · rw [hv] at h
    simp at h
  · rw [hv] at h
    cases hve : validate_end (skip_ws s) with
    | none => rw [hve] at h; simp at h
    | some r =>
      rw [hve] at h
      obtain ⟨t, ht, hnum⟩ := validate_end_sound _ _ hve
      by_cases ho : overflowed (strtod (skip_ws s)) = true
      · simp [ho] at h
      · dsimp only at h
        rw [if_neg ho] at h
        dsimp only at h
        by_cases he : deref (skip_ws r) = '\x00'
        · simp only [he, if_true, ne_eq, not_true_eq_false, if_false, Option.some.injEq,
            Prod.mk.injEq, true_and] at h
          have hr0 : '\x00' ∉ r := fun hm => h0' (by
            rw [hnum]; exact List.mem_append_right _ hm)
          refine ⟨w1, r, hw1, all_ws_of_skip_end r hr0 he, Or.inr ⟨t, ht, ?_, ?_, ?_⟩⟩
          · conv_lhs => rw [hs, hnum]
            simp
          · rw [← hnum]; simpa using ho
          · rw [← hnum]; exact h.symm
        · simp [he] at h

/-- The entry point once the dispatcher's result is known. -/
theorem lept_parse_of_value (v v1 : lept_value) (json : List Char) (ret : lept_status)
    (c : lept_context)
    (h : lept_parse_value ⟨skip_ws json⟩ ⟨v.n, LEPT_NULL⟩ = some (ret, c, v1)) :
    lept_parse v json =
      if ret = LEPT_PARSE_OK then
        if deref (skip_ws c.json) ≠ '\x00' then
          some (LEPT_PARSE_ROOT_NOT_SINGULAR, ⟨v1.n, LEPT_NULL⟩)
        else some (LEPT_PARSE_OK, v1)
      else some (ret, v1) := by
  rw [lept_parse_eq, h]

/-- The entry point always returns, and a status other than success comes with
the type `LEPT_NULL`. -/
theorem lept_parse_error_type (v : lept_value) (json : List Char) :
    ∃ ret v1, lept_parse v json = some (ret, v1) ∧
      (ret ≠ LEPT_PARSE_OK → v1.type = LEPT_NULL) := by
  obtain ⟨ret, c, v1, h, ht⟩ := lept_parse_value_total ⟨skip_ws json⟩ ⟨v.n, LEPT_NULL⟩
  rw [lept_parse_of_value v v1 json ret c h]
  by_cases hr : ret = LEPT_PARSE_OK
  · by_cases he : deref (skip_ws c.json) = '\x00'
    · exact ⟨LEPT_PARSE_OK, v1, by simp [hr, he], fun h => absurd rfl h⟩
    · exact ⟨LEPT_PARSE_ROOT_NOT_SINGULAR, ⟨v1.n, LEPT_NULL⟩, by simp [hr, he], fun _ => rfl⟩
  · exact ⟨ret, v1, by simp [hr], fun h => ht h⟩

/-! ## `strtod` on a string of the grammar -/

theorem read_digits_append (ds r : List Char) (acc cnt : Nat) (hd : all_digits ds = true)
    (hr : ISDIGIT (deref r) = false) :
    read_digits acc cnt (ds ++ r) =
      (ds.foldl (fun a ch => a * 10 + (ch.toNat - '0'.toNat)) acc, cnt + ds.length, r) := by
  rw [all_digits_iff] at hd
  induction ds generalizing acc cnt with
  | nil =>
    cases r with
    | nil => rfl
    | cons a r => simp only [deref_cons] at hr; simp [read_digits, hr]
  | cons a ds ih =>
    have ha := hd a (List.mem_cons_self _ _)
    have step : read_digits acc cnt (a :: (ds ++ r)) =
        read_digits (acc * 10 + (a.toNat - '0'.toNat)) (cnt + 1) (ds ++ r) := by
      simp [read_digits, ha, digit_value]
    rw [List.cons_append, step, ih _ _ (fun ch h => hd ch (List.mem_cons_of_mem _ h))]
    simp [Nat.add_assoc, Nat.add_comm 1]

theorem int_wf_all_digits (ip : List Char) (h : int_wf ip = true) : all_digits ip = true := by
  cases ip with
  | nil => simp [int_wf] at h
  | cons d ds =>
    simp only [int_wf, Bool.or_eq_true, Bool.and_eq_true, beq_iff_eq, decide_eq_true_eq,
      List.isEmpty_iff] at h
    rw [all_digits_iff]
    intro ch hch
    rcases h with ⟨h1, h2⟩ | ⟨h1, h2⟩
    · subst h1 h2
      simp only [List.mem_singleton] at hch
      subst hch; decide
    · rcases List.mem_cons.mp hch with rfl | hm
      · exact ISDIGIT_of_1TO9 _ ((ISDIGIT1TO9_iff _).mpr h1)
      · exact (all_digits_iff ds).mp h2 ch hm

theorem read_exponent_text (e : Option exp_text) (r : List Char) (h : opt_exp_wf e = true)
    (hr : ISDIGIT (deref r) = false ∧ deref r ≠ 'e' ∧ deref r ≠ 'E') :
    read_exponent 'e' 'E' (opt_exp_text e ++ r) =
      (number_text.mk false [] none e).written_exponent := by
  cases e with
  | none =>
    cases r with
    | nil => rfl
    | cons a r =>
      simp only [deref_cons] at hr
      simp [opt_exp_text, read_exponent, hr.2.1, hr.2.2, number_text.written_exponent]
  | some e =>
    obtain ⟨m, sg, ds⟩ := e
    simp only [opt_exp_wf, exp_text.wf, Bool.and_eq_true, Bool.or_eq_true, beq_iff_eq,
      Bool.not_eq_true', List.isEmpty_eq_false] at h
    obtain ⟨⟨⟨hm, hs⟩, hne⟩, hds⟩ := h
    have hrd := read_digits_append ds r 0 0 hds hr.1
    have hlen : ds.length ≠ 0 := fun h => hne (List.length_eq_zero.mp h)
    have hm' : m = 'e' ∨ m = 'E' := hm
    simp only [opt_exp_text, exp_text.text, List.cons_append, read_exponent, hm', if_true,
      number_text.written_exponent]
    rcases hs with (hs | hs) | hs
    · subst hs
      cases ds with
      | nil => exact absurd rfl hne
      | cons d ds' =>
        have hd : ISDIGIT d = true := (all_digits_iff _).mp hds d (List.mem_cons_self _ _)
        have hdn := ISDIGIT_ne d hd
        have hsplit : (match (Option.toList (none : Option Char) ++ (d :: ds') ++ r : List Char) with
            | '-' :: r => (true, r)
            | '+' :: r => (false, r)
            | _ => (false, Option.toList (none : Option Char) ++ (d :: ds') ++ r)) =
            (false, (d :: ds') ++ r) := by
          simp only [Option.toList, List.nil_append, List.cons_append]
          split
          · rename_i heq; exact absurd (List.cons.inj heq).1 hdn.1
          · rename_i heq; exact absurd (List.cons.inj heq).1 hdn.2.1
          · rfl
        simp only [List.append_assoc] at hsplit ⊢
        rw [hsplit]
        simp only [hrd, digits_value]
        simp
    · subst hs
      simp only [Option.toList, List.singleton_append, List.cons_append, List.nil_append, hrd]
      simp [hlen, digits_value]
    · subst hs
      simp only [Option.toList, List.singleton_append, List.cons_append, List.nil_append, hrd]
      simp [hlen, digits_value]

theorem written_exponent_eq (t : number_text) :
    (number_text.mk false [] none t.exp).written_exponent = t.written_exponent := rfl

theorem decimal_subject_text (t : number_text) (r : List Char) (h : t.wf = true)
    (hr : number_end r) :
    decimal_subject (t.int ++ (frac_text t.frac ++ (opt_exp_text t.exp ++ r))) =
      some (t.significand, t.exponent) := by
  simp only [number_text.wf, Bool.and_eq_true] at h
  obtain ⟨⟨hi, hf⟩, he⟩ := h
  have hd3 := opt_exp_text_deref t.exp r he hr
  have hd2 := frac_text_deref t.frac (opt_exp_text t.exp ++ r) hd3.1
  have hexp := read_exponent_text t.exp r he ⟨hr.1, hr.2.2.1, hr.2.2.2⟩
  rw [written_exponent_eq] at hexp
  have hip := read_digits_append t.int (frac_text t.frac ++ (opt_exp_text t.exp ++ r)) 0 0
    (int_wf_all_digits _ hi) hd2
  have hlen : t.int.length ≠ 0 := fun h => (int_wf_deref _ hi).2 (List.length_eq_zero.mp h)
  unfold decimal_subject
  rw [hip]
  cases hfr : t.frac with
  | none =>
    have hnodot : ∀ r', frac_text none ++ (opt_exp_text t.exp ++ r) ≠ '.' :: r' := by
      intro r' heq
      have := congrArg deref heq
      simp only [frac_text, List.nil_append, deref_cons] at this
      exact hd3.2 this
    have hm : (match (frac_text none ++ (opt_exp_text t.exp ++ r) : List Char) with
        | '.' :: r' => read_digits (List.foldl (fun a ch => a * 10 + (ch.toNat - '0'.toNat)) 0 t.int) 0 r'
        | r' => (List.foldl (fun a ch => a * 10 + (ch.toNat - '0'.toNat)) 0 t.int, 0, r')) =
        (List.foldl (fun a ch => a * 10 + (ch.toNat - '0'.toNat)) 0 t.int, 0,
          frac_text none ++ (opt_exp_text t.exp ++ r)) := by
      split
      · rename_i r' heq; exact absurd heq (hnodot r')
      · rfl
    simp only [hm]
    simp only [frac_text, List.nil_append, hexp]
    simp [hlen, number_text.significand, number_text.exponent, digits_value, hfr]
  | some ds =>
    rw [hfr] at hf
    simp only [frac_wf, Bool.and_eq_true, Bool.not_eq_true', List.isEmpty_eq_false] at hf
    have hfp := read_digits_append ds (opt_exp_text t.exp ++ r)
      (List.foldl (fun a ch => a * 10 + (ch.toNat - '0'.toNat)) 0 t.int) 0 hf.2 hd3.1
    simp only [frac_text, List.cons_append, hfp, hexp]
    simp [hlen, number_text.significand, number_text.exponent, digits_value, hfr,
      List.foldl_append]

theorem hex_subject_text (t : number_text) (r : List Char) (h : t.wf = true)
    (hr : value_end r) :
    hex_subject (t.int ++ (frac_text t.frac ++ (opt_exp_text t.exp ++ r))) = none := by
  simp only [number_text.wf, Bool.and_eq_true] at h
  obtain ⟨⟨hi, hf⟩, he⟩ := h
  have hnext : deref (frac_text t.frac ++ (opt_exp_text t.exp ++ r)) ≠ 'x' ∧
      deref (frac_text t.frac ++ (opt_exp_text t.exp ++ r)) ≠ 'X' := by
    cases t.frac with
    | some ds => simp only [frac_text, List.cons_append, deref_cons]; decide
    | none =>
      simp only [frac_text, List.nil_append]
      cases hexp : t.exp with
      | none => exact hr.2
      | some e =>
        rw [hexp] at he
        simp only [opt_exp_wf, exp_text.wf, Bool.and_eq_true, Bool.or_eq_true, beq_iff_eq] at he
        simp only [opt_exp_text, exp_text.text, List.cons_append, deref_cons]
        rcases he.1.1.1 with h | h <;> rw [h] <;> decide
  cases hint : t.int with
  | nil => rw [hint] at hi; simp [int_wf] at hi
  | cons d ds =>
    rw [hint] at hi
    simp only [int_wf, Bool.or_eq_true, Bool.and_eq_true, beq_iff_eq, decide_eq_true_eq,
      List.isEmpty_iff] at hi
    by_cases hd : d = '0'
    · subst hd
      rcases hi with ⟨_, h2⟩ | ⟨h1, _⟩
      · subst h2
        cases hrest : frac_text t.frac ++ (opt_exp_text t.exp ++ r) with
        | nil => rfl
        | cons x r' =>
          rw [hrest, deref_cons] at hnext
          simp [hex_subject, hnext.1, hnext.2]
      · exact absurd h1 (by decide)
    · simp only [List.cons_append]
      unfold hex_subject
      split
      · rename_i heq; exact absurd (List.cons.inj heq).1 hd
      · rfl

/-- On a string of the grammar followed by a text that does not continue it,
`strtod` converts exactly the string: the result is the rounding of its exact
value `(-1)^neg * significand * 10 ^ exponent`. -/
theorem strtod_text (t : number_text) (r : List Char) (h : t.wf = true) (hr : value_end r) :
    strtod (t.text ++ r) =
      binary64_round t.neg (scale t.significand 10 t.exponent).1
        (scale t.significand 10 t.exponent).2 := by
  have hdec := decimal_subject_text t r h hr.1
  have hhex := hex_subject_text t r h hr
  have hi : int_wf t.int = true := by
    simp only [number_text.wf, Bool.and_eq_true] at h; exact h.1.1
  have hd1 : ISDIGIT (deref (t.int ++ (frac_text t.frac ++ (opt_exp_text t.exp ++ r)))) = true := by
    rw [deref_append_of_ne_nil _ _ (int_wf_deref _ hi).2]
    exact (int_wf_deref _ hi).1
  have hdn := ISDIGIT_ne _ hd1
  cases hrest : t.int ++ (frac_text t.frac ++ (opt_exp_text t.exp ++ r)) with
  | nil => rw [hrest] at hd1; exact absurd hd1 (by decide)
  | cons a rest =>
    rw [hrest] at hdec hhex hdn
    simp only [deref_cons] at hdn
    cases hneg : t.neg with
    | true =>
      have htext : t.text ++ r = '-' :: a :: rest := by
        simp [number_text.text, hneg, ← hrest]
      rw [htext]
      have hsp : skip_space ('-' :: a :: rest) = '-' :: a :: rest := by
        simp [skip_space, isspace]
      simp only [strtod, hsp, hhex, hdec]
    | false =>
      have htext : t.text ++ r = a :: rest := by
        simp [number_text.text, hneg, ← hrest]
      rw [htext]
      have hsp : skip_space (a :: rest) = a :: rest := by
        simp only [skip_space, hdn.2.2.2.2.2.2.2.2.2.2.2.2]
        simp
      have hsign : (match (a :: rest : List Char) with
          | '-' :: r => (true, r)
          | '+' :: r => (false, r)
          | _ => (false, a :: rest)) = (false, a :: rest) := by
        split
        · rename_i heq; exact absurd (List.cons.inj heq).1 hdn.1
        · rename_i heq; exact absurd (List.cons.inj heq).1 hdn.2.1
        · rfl
      simp only [strtod, hsp, hsign, hhex, hdec]

/-! ## The entry point on a string of the grammar -/

theorem overflowed_binary64_round (neg : Bool) (n d : Nat) :
    overflowed (binary64_round neg n d) = true ↔
      ((binary64_round neg n d).value = .inf false ∨
        (binary64_round neg n d).value = .inf true) := by
  unfold binary64_round
  by_cases hn : n = 0
  · simp [hn, overflowed]
  · simp only [hn, if_false]
    split_ifs <;> cases neg <;> simp [overflowed, Double.eq, HUGE_VAL, Double.neg]

theorem text_first (t : number_text) (r : List Char) (h : t.wf = true) :
    deref (t.text ++ r) = '-' ∨ ISDIGIT (deref (t.text ++ r)) = true := by
  have hi : int_wf t.int = true := by
    simp only [number_text.wf, Bool.and_eq_true] at h; exact h.1.1
  cases hneg : t.neg with
  | true => left; simp [number_text.text, hneg, deref_cons]
  | false =>
    right
    simp only [number_text.text, hneg, List.nil_append, List.append_assoc, Bool.false_eq_true,
      if_false]
    rw [deref_append_of_ne_nil _ _ (int_wf_deref _ hi).2]
    exact (int_wf_deref _ hi).1

theorem text_first_ne (t : number_text) (r : List Char) (h : t.wf = true) :
    deref (t.text ++ r) ≠ 't' ∧ deref (t.text ++ r) ≠ 'f' ∧ deref (t.text ++ r) ≠ 'n' ∧
      deref (t.text ++ r) ≠ '\x00' ∧ is_ws (deref (t.text ++ r)) = false := by
  rcases text_first t r h with h | h
  · rw [h]; decide
  · have := ISDIGIT_ne _ h
    exact ⟨this.2.2.2.2.2.1, this.2.2.2.2.2.2.1, this.2.2.2.2.2.2.2.1, this.2.2.2.2.2.2.2.2.1,
      this.2.2.2.2.2.2.2.2.2.2.2.1⟩

/-- The entry point on whitespace, a string of the grammar and a text that
does not continue the number. -/
theorem lept_parse_text (v : lept_value) (t : number_text) (w1 r : List Char)
    (h : t.wf = true) (hw1 : all_ws w1) (hr : value_end r) :
    lept_parse v (w1 ++ t.text ++ r) =
      if t.rounds_to_infinity then some (LEPT_PARSE_NUMBER_TOO_BIG, ⟨t.nearest_double, LEPT_NULL⟩)
      else if deref (skip_ws r) ≠ '\x00' then
        some (LEPT_PARSE_ROOT_NOT_SINGULAR, ⟨t.nearest_double, LEPT_NULL⟩)
      else some (LEPT_PARSE_OK, ⟨t.nearest_double, LEPT_NUMBER⟩) := by
  have hne := text_first_ne t r h
  have hskip : skip_ws (w1 ++ t.text ++ r) = t.text ++ r := by
    rw [List.append_assoc, skip_ws_all_ws _ _ hw1]
    exact skip_ws_of_not_ws _ hne.2.2.2.2
  have hstr := strtod_text t r h hr
  have hval : (strtod (t.text ++ r)).value = t.nearest_double := by
    rw [hstr]; rfl
  have hov : overflowed (strtod (t.text ++ r)) = true ↔ t.rounds_to_infinity := by
    rw [hstr, overflowed_binary64_round]; rfl
  have hv : lept_parse_value ⟨skip_ws (w1 ++ t.text ++ r)⟩ ⟨v.n, LEPT_NULL⟩ =
      if t.rounds_to_infinity then
        some (LEPT_PARSE_NUMBER_TOO_BIG, ⟨t.text ++ r⟩, ⟨t.nearest_double, LEPT_NULL⟩)
      else some (LEPT_PARSE_OK, ⟨r⟩, ⟨t.nearest_double, LEPT_NUMBER⟩) := by
    rw [hskip, lept_parse_value_number ⟨t.text ++ r⟩ _ hne.1 hne.2.1 hne.2.2.1 hne.2.2.2.1,
      lept_parse_number_eq]
    simp only [validate_end_text t r h hr.1, hval]
    by_cases hinf : t.rounds_to_infinity
    · rw [if_pos (hov.mpr hinf), if_pos hinf]
    · rw [if_neg (fun h => hinf (hov.mp h)), if_neg hinf]
  by_cases hinf : t.rounds_to_infinity
  · rw [if_pos hinf] at hv
    rw [lept_parse_of_value v _ _ _ _ hv, if_pos hinf]
    simp
  · rw [if_neg hinf] at hv
    rw [lept_parse_of_value v _ _ _ _ hv, if_neg hinf]
    simp

theorem value_end_of_all_ws (w : List Char) (hw : all_ws w) : value_end w := by
  cases w with
  | nil => simp only [value_end, number_end, deref_nil]; decide
  | cons a w =>
    have ha : is_ws a = true := (all_ws_iff _).mp hw a (List.mem_cons_self _ _)
    have := is_ws_ne a ha
    simp only [value_end, number_end, deref_cons]
    exact ⟨⟨this.2.2.2.2.2.2.2.2.2.2.2, this.2.2.1, this.2.2.2.1, this.2.2.2.2.1⟩,
      this.2.2.2.2.2.2.2.2.2.1, this.2.2.2.2.2.2.2.2.2.2.1⟩

/-! ## The overflow threshold of the binary64 rounding -/

theorem log2_halving_spec (fuel n : Nat) (hf : n ≤ fuel) (hn : 0 < n) :
    2 ^ log2_halving fuel n ≤ n ∧ n < 2 ^ (log2_halving fuel n + 1) := by
  induction fuel generalizing n with
  | zero => omega
  | succ fuel ih =>
    unfold log2_halving
    by_cases h2 : n < 2
    · simp only [h2, if_true]
      omega
    · simp only [h2, if_false]
      have hhalf : n / 2 ≤ fuel := by omega
      have hpos : 0 < n / 2 := by omega
      obtain ⟨h1, h3⟩ := ih (n / 2) hhalf hpos
      constructor
      · rw [pow_succ]; omega
      · rw [pow_succ]; omega

/-- The integer `floor_log2 n d` is at least `j` exactly when `n / d ≥ 2 ^ j`. -/
theorem le_floor_log2_iff (n d j : Nat) (hn : 0 < n) (hd : 0 < d) :
    (j : Int) ≤ floor_log2 n d ↔ d * 2 ^ j ≤ n := by
  obtain ⟨ha1, ha2⟩ := log2_halving_spec n n (le_refl _) hn
  obtain ⟨hb1, hb2⟩ := log2_halving_spec d d (le_refl _) hd
  unfold floor_log2
  generalize log2_halving n n = a at ha1 ha2 ⊢
  generalize log2_halving d d = b at hb1 hb2 ⊢
  have hpos : ∀ x : Nat, 0 < 2 ^ x := fun x => Nat.pow_pos (by decide)
  have hmono : ∀ x y : Nat, x ≤ y → 2 ^ x ≤ 2 ^ y := fun x y h =>
    Nat.pow_le_pow_right (by decide) h
  by_cases hab : b ≤ a
  · obtain ⟨c, rfl⟩ := Nat.exists_eq_add_of_le hab
    have hk : ((b + c : Nat) : Int) - (b : Int) = (c : Int) := by push_cast; ring
    simp only [hk, Int.natCast_nonneg, if_true, Int.toNat_ofNat]
    have e1 : 2 ^ (b + c) = 2 ^ b * 2 ^ c := pow_add 2 b c
    have e2 : 2 ^ (b + c + 1) = 2 ^ b * 2 ^ (c + 1) := by rw [Nat.add_assoc, pow_add]
    by_cases hc : d * 2 ^ c ≤ n
    · simp only [hc, if_true, Int.ofNat_le]
      constructor
      · intro hj
        exact le_trans (Nat.mul_le_mul_left d (hmono j c hj)) hc
      · intro hj
        by_contra hlt
        have h1 : 2 ^ (c + 1) ≤ 2 ^ j := hmono _ _ (by omega)
        have h2 : 2 ^ b * 2 ^ (c + 1) ≤ d * 2 ^ j := Nat.mul_le_mul hb1 h1
        omega
    · simp only [hc, if_false]
      constructor
      · intro hj
        have hc1 : 1 ≤ c := by omega
        have hj' : j ≤ c - 1 := by omega
        have h1 : 2 ^ j ≤ 2 ^ (c - 1) := hmono _ _ hj'
        have h2 : d * 2 ^ j ≤ d * 2 ^ (c - 1) := Nat.mul_le_mul_left d h1
        have h3 : d * 2 ^ (c - 1) < 2 ^ (b + 1) * 2 ^ (c - 1) :=
          Nat.mul_lt_mul_of_pos_right hb2 (hpos _)
        have h4 : 2 ^ (b + 1) * 2 ^ (c - 1) = 2 ^ (b + c) := by
          rw [← pow_add]; congr 1; omega
        omega
      · intro hj
        by_contra hlt
        have h1 : 2 ^ c ≤ 2 ^ j := hmono _ _ (by omega)
        have h2 : d * 2 ^ c ≤ d * 2 ^ j := Nat.mul_le_mul_left d h1
        omega
  · have hk : ¬ (0 : Int) ≤ (a : Int) - (b : Int) := by omega
    simp only [hk, if_false]
    have h1 : 2 ^ (a + 1) ≤ 2 ^ b := hmono _ _ (by omega)
    have h2 : d * 1 ≤ d * 2 ^ j := Nat.mul_le_mul_left d (hpos j)
    constructor
    · intro hj
      exfalso
      split_ifs at hj <;> omega
    · intro hj
      omega

theorem round_half_even_le (n d : Nat) :
    n / d ≤ round_half_even n d ∧ round_half_even n d ≤ n / d + 1 := by
  unfold round_half_even
  simp only
  split_ifs <;> omega

/-- In the topmost binade the rounded significand reaches `2 ^ 53` exactly
from the midpoint between the largest finite value and `2 ^ 1024` on. -/
theorem round_half_even_top (n D : Nat) (hD : 0 < D) (hhi : n < D * 2 ^ 53) :
    round_half_even n D = 2 ^ 53 ↔ (2 ^ 54 - 1) * D ≤ 2 * n := by
  have hdm := Nat.div_add_mod n D
  have hmod := Nat.mod_lt n hD
  have hq : n / D < 2 ^ 53 := (Nat.div_lt_iff_lt_mul hD).mpr (by rw [Nat.mul_comm]; exact hhi)
  unfold round_half_even
  simp only
  generalize n / D = Q at hdm hq ⊢
  generalize n % D = R at hdm hmod ⊢
  norm_num at hq ⊢
  by_cases hQ : Q = 9007199254740991
  · subst hQ
    rw [← hdm]
    split_ifs with h1 h2 h3
    · constructor <;> intro hx <;> omega
    · constructor <;> intro hx <;> omega
    · exact absurd h3 (by norm_num)
    · constructor <;> intro hx <;> omega
  · have hQ2 : Q ≤ 9007199254740990 := by omega
    have hP : D * Q ≤ D * 9007199254740990 := Nat.mul_le_mul_left D hQ2
    generalize D * Q = P at hdm hP
    rw [← hdm]
    split_ifs with h1 h2 h3
    · constructor <;> intro hx <;> omega
    · constructor <;> intro hx <;> omega
    · constructor <;> intro hx <;> omega
    · constructor <;> intro hx <;> omega

/-- The rounding overflows exactly from the midpoint between the largest
finite binary64 value and `2 ^ 1024` on: `n / d ≥ 2 ^ 1024 - 2 ^ 970`. -/
theorem binary64_round_inf_iff (neg : Bool) (n d : Nat) (hd : 0 < d) :
    ((binary64_round neg n d).value = .inf false ∨
      (binary64_round neg n d).value = .inf true) ↔ (2 ^ 1024 - 2 ^ 970) * d ≤ n := by
  by_cases hn : n = 0
  · subst hn
    have hpos : ¬ (2 ^ 1024 - 2 ^ 970) * d ≤ 0 := by
      norm_num
      omega
    constructor
    · intro h
      simp [binary64_round] at h
    · intro h
      exact absurd h hpos
  · have hval : ((binary64_round neg n d).value = .inf false ∨
        (binary64_round neg n d).value = .inf true) ↔
        971 < (if rounded_significand n d = 2 ^ 53 then quantum_exponent n d + 1
          else quantum_exponent n d) := by
      simp only [binary64_round, hn, if_false]
      split_ifs <;> cases neg <;> simp_all
    rw [hval]
    have h24 := le_floor_log2_iff n d 1024 (Nat.pos_of_ne_zero hn) hd
    have h23 := le_floor_log2_iff n d 1023 (Nat.pos_of_ne_zero hn) hd
    have hqe : quantum_exponent n d = max (floor_log2 n d) (-1022) - 52 := rfl
    have hrs : rounded_significand n d =
        if 0 ≤ quantum_exponent n d then
          round_half_even n (d * 2 ^ (quantum_exponent n d).toNat)
        else round_half_even (n * 2 ^ (- quantum_exponent n d).toNat) d := rfl
    generalize floor_log2 n d = F at h24 h23 hqe
    norm_num at h24 h23 ⊢
    by_cases c1 : (1024 : Int) ≤ F
    · have hq : 972 ≤ quantum_exponent n d := by rw [hqe]; omega
      have hn24 := h24.mp c1
      constructor
      · intro _; omega
      · intro _; split_ifs <;> omega
    · by_cases c2 : (1023 : Int) ≤ F
      · have hq : quantum_exponent n d = 971 := by rw [hqe]; omega
        have hn23 := h23.mp c2
        have hn24 : ¬ _ := fun h => c1 (h24.mpr h)
        rw [hq] at hrs ⊢
        simp only [show (0 : Int) ≤ 971 from by decide, if_true] at hrs
        have htop := round_half_even_top n (d * 2 ^ (971 : Int).toNat)
          (Nat.mul_pos hd (Nat.pow_pos (by decide))) (by
            have : (971 : Int).toNat = 971 := rfl
            rw [this]
            norm_num
            omega)
        rw [← hrs] at htop
        have e971 : (971 : Int).toNat = 971 := rfl
        rw [e971] at htop
        norm_num at htop
        constructor
        · intro h
          by_cases hm : rounded_significand n d = 9007199254740992
          · have := htop.mp hm
            omega
          · simp [hm] at h
        · intro h
          have hm : rounded_significand n d = 9007199254740992 := htop.mpr (by omega)
          simp [hm]
      · have hq : quantum_exponent n d ≤ 970 := by rw [hqe]; omega
        have hn23 : ¬ _ := fun h => c2 (h23.mpr h)
        constructor
        · intro h; exfalso; split_ifs at h <;> omega
        · intro h; omega

theorem scale_pos (m : Nat) (x : Int) : 0 < (scale m 10 x).2 := by
  unfold scale
  split_ifs
  · exact Nat.one_pos
  · exact Nat.pow_pos (by decide)

theorem scale_value (m : Nat) (x : Int) :
    ((scale m 10 x).1 : ℚ) / ((scale m 10 x).2 : ℚ) = (m : ℚ) * (10 : ℚ) ^ x := by
  unfold scale
  split_ifs with h
  · obtain ⟨k, rfl⟩ := Int.eq_ofNat_of_zero_le h
    simp
  · obtain ⟨k, hk⟩ := Int.exists_eq_neg_ofNat (le_of_lt (not_le.mp h))
    subst hk
    simp [zpow_neg, div_eq_mul_inv]

set_option exponentiation.threshold 2000 in
/-- A number text rounds to an infinity exactly when its exact magnitude is at
least `2 ^ 1024 - 2 ^ 970`, the midpoint between the largest finite binary64
value and `2 ^ 1024`. -/
theorem rounds_to_infinity_iff (t : number_text) :
    t.rounds_to_infinity ↔ (2 : ℚ) ^ 1024 - (2 : ℚ) ^ 970 ≤ t.magnitude := by
  unfold number_text.rounds_to_infinity number_text.nearest_double number_text.magnitude
  rw [binary64_round_inf_iff _ _ _ (scale_pos _ _), ← scale_value]
  have hd : (0 : ℚ) < ((scale t.significand 10 t.exponent).2 : ℚ) := by
    exact_mod_cast scale_pos t.significand t.exponent
  rw [le_div_iff₀ hd]
  have hc : (((2 ^ 1024 - 2 ^ 970 : Nat) : ℚ)) = (2 : ℚ) ^ 1024 - (2 : ℚ) ^ 970 := by
    rw [Nat.cast_sub (Nat.pow_le_pow_right (by decide) (by decide)), Nat.cast_pow,
      Nat.cast_pow, Nat.cast_ofNat]
  rw [← hc]
  exact_mod_cast Iff.rfl

/-! ## `strtod` on a zero followed by digits -/

theorem digit_value_le (ch : Char) (h : ISDIGIT ch = true) : ch.toNat - '0'.toNat ≤ 9 := by
  simp only [ISDIGIT, Bool.and_eq_true, decide_eq_true_eq] at h
  have h2 : ch.toNat ≤ 57 := h.2
  have : '0'.toNat = 48 := rfl
  omega

theorem foldl_digits_lt (ds : List Char) (acc : Nat) (hd : all_digits ds = true) :
    ds.foldl (fun a ch => a * 10 + (ch.toNat - '0'.toNat)) acc < (acc + 1) * 10 ^ ds.length := by
  rw [all_digits_iff] at hd
  induction ds generalizing acc with
  | nil => simp
  | cons a ds ih =>
    have ha := digit_value_le a (hd a (List.mem_cons_self _ _))
    have := ih (acc * 10 + (a.toNat - '0'.toNat)) (fun ch h => hd ch (List.mem_cons_of_mem _ h))
    simp only [List.foldl_cons, List.length_cons, pow_succ]
    calc _ < (acc * 10 + (a.toNat - '0'.toNat) + 1) * 10 ^ ds.length := this
      _ ≤ ((acc + 1) * 10) * 10 ^ ds.length := Nat.mul_le_mul_right _ (by omega)
      _ = (acc + 1) * (10 ^ ds.length * 10) := by ring

/-- On `0` followed by digits `strtod` converts the whole run of digits. -/
theorem strtod_zero_digits (ds : List Char) (hne : ds ≠ []) (hd : all_digits ds = true) :
    strtod ('0' :: ds) = binary64_round false (digits_value ds * 10 ^ 0) 1 := by
  have hall : all_digits ('0' :: ds) = true := by
    rw [all_digits_iff] at hd ⊢
    intro ch hch
    rcases List.mem_cons.mp hch with rfl | h
    · decide
    · exact hd ch h
  have hrd := read_digits_append ('0' :: ds) [] 0 0 hall (by decide)
  rw [List.append_nil] at hrd
  have hdec : decimal_subject ('0' :: ds) = some (digits_value ds, 0) := by
    unfold decimal_subject
    rw [hrd]
    simp [read_exponent, digits_value]
  have hhex : hex_subject ('0' :: ds) = none := by
    cases ds with
    | nil => exact absurd rfl hne
    | cons a ds' =>
      have ha : ISDIGIT a = true := (all_digits_iff _).mp hd a (List.mem_cons_self _ _)
      have hn := ISDIGIT_ne a ha
      simp [hex_subject, hn.2.2.2.2.2.2.2.2.2.1, hn.2.2.2.2.2.2.2.2.2.2.1]
  have hsp : skip_space ('0' :: ds) = '0' :: ds := by
    simp [skip_space, isspace]
  have hsign : (match ('0' :: ds : List Char) with
      | '-' :: r => (true, r)
      | '+' :: r => (false, r)
      | _ => (false, '0' :: ds)) = (false, '0' :: ds) := by
    split
    · rename_i heq; exact absurd (List.cons.inj heq).1 (by decide)
    · rename_i heq; exact absurd (List.cons.inj heq).1 (by decide)
    · rfl
  simp only [strtod, hsp, hsign, hhex, hdec]
  rfl

set_option exponentiation.threshold 2000 in
/-- A zero followed by at most 308 digits converts without overflow. -/
theorem strtod_zero_digits_in_range (ds : List Char) (hne : ds ≠ [])
    (hd : all_digits ds = true) (hlen : ds.length ≤ 308) :
    overflowed (strtod ('0' :: ds)) = false := by
  cases hov : overflowed (strtod ('0' :: ds)) with
  | false => rfl
  | true =>
    exfalso
    rw [strtod_zero_digits ds hne hd, overflowed_binary64_round,
      binary64_round_inf_iff _ _ _ Nat.one_pos] at hov
    have hlt := foldl_digits_lt ds 0 hd
    have hpow : 10 ^ ds.length ≤ 10 ^ 308 := Nat.pow_le_pow_right (by decide) hlen
    have hsmall : 10 ^ 308 < 2 ^ 1024 - 2 ^ 970 := by norm_num
    simp only [Nat.zero_add, Nat.one_mul] at hlt
    simp only [pow_zero, Nat.mul_one] at hov
    unfold digits_value at hov
    omega

/-! ## Properties of the entry point -/

/-- C1: for every text and every prior content of the value, `lept_parse`
returns, and whenever its status is not `LEPT_PARSE_OK` the type of the value
after the call is `LEPT_NULL`. -/
theorem lept_parse_error_leaves_null (v : lept_value) (json : List Char) :
    ∃ ret v1, lept_parse v json = some (ret, v1) ∧
      (ret ≠ LEPT_PARSE_OK → v1.type = LEPT_NULL) := by
  obtain ⟨ret, c, v1, h, ht⟩ := lept_parse_value_total ⟨skip_ws json⟩ ⟨v.n, LEPT_NULL⟩
  rw [lept_parse_of_value v v1 json ret c h]
  by_cases hr : ret = LEPT_PARSE_OK
  · by_cases he : deref (skip_ws c.json) = '\x00'
    · exact ⟨LEPT_PARSE_OK, v1, by simp [hr, he], fun h => absurd rfl h⟩
    · exact ⟨LEPT_PARSE_ROOT_NOT_SINGULAR, ⟨v1.n, LEPT_NULL⟩, by simp [hr, he], fun _ => rfl⟩
  · exact ⟨ret, v1, by simp [hr], fun h => ht h⟩

/-- C2: for each keyword `kw` of kind `K`, every text made of whitespace, then
`kw`, then whitespace parses with `LEPT_PARSE_OK` and type `K` (the payload is
untouched); conversely a NUL-free text that parses with `LEPT_PARSE_OK` and
type `K` is `kw` between two runs of whitespace. -/
theorem lept_parse_keyword (v : lept_value) (kw : List Char) (K : lept_type)
    (hk : (kw, K) ∈ keywords) :
    (∀ w1 w2, all_ws w1 → all_ws w2 →
      lept_parse v (w1 ++ kw ++ w2) = some (LEPT_PARSE_OK, ⟨v.n, K⟩)) ∧
    (∀ json v1, '\x00' ∉ json → lept_parse v json = some (LEPT_PARSE_OK, v1) → v1.type = K →
      ∃ w1 w2, all_ws w1 ∧ all_ws w2 ∧ json = w1 ++ kw ++ w2) := by
  constructor
  · intro w1 w2 hw1 hw2
    cases kw with
    | nil => simp [keywords] at hk
    | cons k ks =>
      have hkf := keyword_first k ks K hk
      have hskip : skip_ws (w1 ++ (k :: ks) ++ w2) = k :: (ks ++ w2) := by
        rw [List.append_assoc, skip_ws_all_ws _ _ hw1]
        exact skip_ws_of_not_ws _ hkf.2.2.1
      have hv := lept_parse_value_literal (ks ++ w2) ⟨v.n, LEPT_NULL⟩ k ks K hk
      rw [if_pos (List.prefix_append _ _)] at hv
      rw [← hskip] at hv
      rw [lept_parse_of_value v _ _ _ _ hv]
      simp [deref_skip_ws_all_ws w2 hw2]
  · intro json v1 h0 h hty
    obtain ⟨w1, w2, hw1, hw2, hc⟩ := lept_parse_ok_cases v v1 json h0 h
    rcases hc with ⟨kw2, ty, hmem, hs, hv⟩ | ⟨t, _, _, _, hv⟩
    · have : ty = K := by rw [hv] at hty; exact hty
      subst this
      exact ⟨w1, w2, hw1, hw2, by rw [hs, keyword_unique kw kw2 ty hk hmem]⟩
    · exfalso
      rw [hv] at hty
      have hne : K ≠ LEPT_NUMBER := by
        cases kw with
        | nil => simp [keywords] at hk
        | cons k ks => exact (keyword_first k ks K hk).2.2.2.2
      exact hne hty.symm

theorem lept_parse_keyword_witness :
    lept_parse ⟨.nan, LEPT_NUMBER⟩ ([' ', '\t'] ++ ['t', 'r', 'u', 'e'] ++ ['\n']) =
        some (LEPT_PARSE_OK, ⟨.nan, LEPT_TRUE⟩) ∧
      ∃ w1 w2, all_ws w1 ∧ all_ws w2 ∧ ['\r', 'n', 'u', 'l', 'l'] = w1 ++ ['n', 'u', 'l', 'l'] ++ w2 :=
  ⟨(lept_parse_keyword ⟨.nan, LEPT_NUMBER⟩ ['t', 'r', 'u', 'e'] LEPT_TRUE (by decide)).1
      [' ', '\t'] ['\n'] (by decide) (by decide),
   (lept_parse_keyword ⟨.nan, LEPT_NUMBER⟩ ['n', 'u', 'l', 'l'] LEPT_NULL (by decide)).2
      ['\r', 'n', 'u', 'l', 'l'] ⟨.nan, LEPT_NULL⟩ (by decide) (by decide) rfl⟩

/-- C6: on a NUL-free text, `lept_parse` returns `LEPT_PARSE_EXPECT_VALUE` if
and only if the text is empty or made only of space, tab, LF and CR. -/
theorem lept_parse_expect_value_iff (v : lept_value) (json : List Char) (h0 : '\x00' ∉ json) :
    (lept_parse v json).map Prod.fst = some LEPT_PARSE_EXPECT_VALUE ↔ all_ws json := by
  constructor
  · intro h
    apply all_ws_of_skip_end json h0
    rcases lept_parse_value_cases (skip_ws json) ⟨v.n, LEPT_NULL⟩ with
      ⟨k, ks, ty, rest, hmem, hj, hv⟩ | ⟨he, _⟩ | ⟨_, hv⟩
    · exfalso
      by_cases hp : ks <+: rest
      · rw [if_pos hp] at hv
        rw [lept_parse_of_value v _ _ _ _ hv] at h
        by_cases he : deref (skip_ws (rest.drop ks.length)) = '\x00' <;> simp [he] at h
      · rw [if_neg hp] at hv
        rw [lept_parse_of_value v _ _ _ _ hv] at h
        simp at h
    · exact he
    · exfalso
      cases hve : validate_end (skip_ws json) with
      | none =>
        rw [hve] at hv
        rw [lept_parse_of_value v _ _ _ _ hv] at h
        simp at h
      | some r =>
        rw [hve] at hv
        dsimp only at hv
        by_cases ho : overflowed (strtod (skip_ws json)) = true
        · rw [if_pos ho] at hv
          rw [lept_parse_of_value v _ _ _ _ hv] at h
          simp at h
        · rw [if_neg ho] at hv
          rw [lept_parse_of_value v _ _ _ _ hv] at h
          by_cases he : deref (skip_ws r) = '\x00' <;> simp [he] at h
  · intro hw
    have he := deref_skip_ws_all_ws json hw
    have hv := lept_parse_value_end ⟨skip_ws json⟩ ⟨v.n, LEPT_NULL⟩ he
    rw [lept_parse_of_value v _ _ _ _ hv]
    simp

theorem lept_parse_expect_value_iff_witness :
    (lept_parse ⟨.nan, LEPT_TRUE⟩ [' ', '\n']).map Prod.fst = some LEPT_PARSE_EXPECT_VALUE ↔
      all_ws [' ', '\n'] :=
  lept_parse_expect_value_iff ⟨.nan, LEPT_TRUE⟩ [' ', '\n'] (by decide)

/-- C8: when the first character after the leading whitespace is the first
letter of a keyword (`t`, `f` or `n`) and the text from there on does not
begin with the whole keyword, `lept_parse` returns `LEPT_PARSE_INVALID_VALUE`
(and leaves the type `LEPT_NULL`). -/
theorem lept_parse_misspelt_literal (v : lept_value) (w r kw : List Char) (K : lept_type)
    (hk : (kw, K) ∈ keywords) (hw : all_ws w) (hfirst : r.head? = kw.head?)
    (hbad : ¬ kw <+: r) :
    lept_parse v (w ++ r) = some (LEPT_PARSE_INVALID_VALUE, ⟨v.n, LEPT_NULL⟩) := by
  cases kw with
  | nil => simp [keywords] at hk
  | cons k ks =>
    cases r with
    | nil => simp at hfirst
    | cons c rest =>
      have hc : c = k := by simpa using hfirst
      subst hc
      have hkf := keyword_first c ks K hk
      have hskip : skip_ws (w ++ c :: rest) = c :: rest := by
        rw [skip_ws_all_ws _ _ hw]
        exact skip_ws_of_not_ws _ hkf.2.2.1
      have hp : ¬ ks <+: rest := fun h => hbad ((List.cons_prefix_cons).mpr ⟨rfl, h⟩)
      have hv := lept_parse_value_literal rest ⟨v.n, LEPT_NULL⟩ c ks K hk
      rw [if_neg hp, ← hskip] at hv
      rw [lept_parse_of_value v _ _ _ _ hv]
      simp

theorem lept_parse_misspelt_literal_witness :
    lept_parse ⟨.nan, LEPT_TRUE⟩ ([' '] ++ ['n', 'u', 'l']) =
      some (LEPT_PARSE_INVALID_VALUE, ⟨.nan, LEPT_NULL⟩) :=
  lept_parse_misspelt_literal ⟨.nan, LEPT_TRUE⟩ [' '] ['n', 'u', 'l'] ['n', 'u', 'l', 'l']
    LEPT_NULL (by decide) (by decide) (by decide) (by decide)

theorem validate_end_bad_start (c : Char) (rest : List Char)
    (h : (c ≠ '-' ∧ c ∉ digit_chars) ∨ (c = '-' ∧ deref rest ∉ digit_chars)) :
    validate_end (c :: rest) = none := by
  have hnot : ∀ ch : Char, ch ∉ digit_chars → ch ≠ '0' ∧ ISDIGIT1TO9 ch = false := by
    intro ch hch
    constructor
    · rintro rfl; exact hch (by decide)
    · cases hd : ISDIGIT1TO9 ch with
      | false => rfl
      | true => exact absurd ((ISDIGIT_iff ch).mp (ISDIGIT_of_1TO9 ch hd)) hch
  rcases h with ⟨h1, h2⟩ | ⟨h1, h2⟩
  · have := hnot c h2
    simp [validate_end, after_sign, after_int, deref_cons, h1, this.1, this.2]
  · subst h1
    have := hnot _ h2
    simp [validate_end, after_sign, after_int, deref_cons, this.1, this.2]

/-- C9: when the first character `c` after the leading whitespace exists and is
none of `t`, `f`, `n`, `-` or a decimal digit, `lept_parse` returns
`LEPT_PARSE_INVALID_VALUE`; likewise when `c` is `-` and the character after
it is not a decimal digit (or is the end of the text). -/
theorem lept_parse_invalid_start (v : lept_value) (w rest : List Char) (c : Char)
    (hw : all_ws w) (hc0 : c ≠ '\x00') (hcw : c ∉ ws_chars)
    (hc : (c ≠ 't' ∧ c ≠ 'f' ∧ c ≠ 'n' ∧ c ≠ '-' ∧ c ∉ digit_chars) ∨
      (c = '-' ∧ deref rest ∉ digit_chars)) :
    lept_parse v (w ++ c :: rest) = some (LEPT_PARSE_INVALID_VALUE, ⟨v.n, LEPT_NULL⟩) := by
  have hcw' : is_ws c = false := by
    cases h : is_ws c with
    | false => rfl
    | true => exact absurd ((is_ws_iff_mem c).mp h) hcw
  have hskip : skip_ws (w ++ c :: rest) = c :: rest := by
    rw [skip_ws_all_ws _ _ hw]
    exact skip_ws_of_not_ws _ hcw'
  have hletters : c ≠ 't' ∧ c ≠ 'f' ∧ c ≠ 'n' := by
    rcases hc with ⟨h1, h2, h3, _⟩ | ⟨h, _⟩
    · exact ⟨h1, h2, h3⟩
    · subst h; decide
  have hve : validate_end (c :: rest) = none := by
    apply validate_end_bad_start
    rcases hc with ⟨_, _, _, h4, h5⟩ | h
    · exact Or.inl ⟨h4, h5⟩
    · exact Or.inr h
  have hv : lept_parse_value ⟨skip_ws (w ++ c :: rest)⟩ ⟨v.n, LEPT_NULL⟩ =
      some (LEPT_PARSE_INVALID_VALUE, ⟨c :: rest⟩, ⟨v.n, LEPT_NULL⟩) := by
    rw [hskip, lept_parse_value_number ⟨c :: rest⟩ _ hletters.1 hletters.2.1 hletters.2.2 hc0,
      lept_parse_number_eq]
    simp only [hve]
  rw [lept_parse_of_value v _ _ _ _ hv]
  simp

theorem lept_parse_invalid_start_witness :
    lept_parse ⟨.nan, LEPT_TRUE⟩ ([' '] ++ '-' :: ['.', '5']) =
      some (LEPT_PARSE_INVALID_VALUE, ⟨.nan, LEPT_NULL⟩) :=
  lept_parse_invalid_start ⟨.nan, LEPT_TRUE⟩ [' '] ['.', '5'] '-' (by decide) (by decide)
    (by decide) (Or.inr ⟨rfl, by decide⟩)

/-- C3: a NUL-free text that parses with `LEPT_PARSE_OK` and type `LEPT_NUMBER`
is one string of the number grammar between two runs of whitespace; and every
string of the grammar between two runs of whitespace parses with
`LEPT_PARSE_OK` and type `LEPT_NUMBER` or with `LEPT_PARSE_NUMBER_TOO_BIG`. -/
theorem lept_parse_number_grammar (v : lept_value) :
    (∀ json v1, '\x00' ∉ json → lept_parse v json = some (LEPT_PARSE_OK, v1) →
      v1.type = LEPT_NUMBER →
      ∃ w1 g w2, all_ws w1 ∧ all_ws w2 ∧ is_number g ∧ json = w1 ++ g ++ w2) ∧
    (∀ w1 g w2, all_ws w1 → all_ws w2 → is_number g →
      (∃ v1, lept_parse v (w1 ++ g ++ w2) = some (LEPT_PARSE_OK, v1) ∧ v1.type = LEPT_NUMBER) ∨
      (∃ v1, lept_parse v (w1 ++ g ++ w2) = some (LEPT_PARSE_NUMBER_TOO_BIG, v1))) := by
  constructor
  · intro json v1 h0 h hty
    obtain ⟨w1, w2, hw1, hw2, hc⟩ := lept_parse_ok_cases v v1 json h0 h
    rcases hc with ⟨kw, ty, hmem, _, hv⟩ | ⟨t, ht, hs, _, _⟩
    · exfalso
      rw [hv] at hty
      cases kw with
      | nil => simp [keywords] at hmem
      | cons k ks => exact (keyword_first k ks ty hmem).2.2.2.2 hty
    · exact ⟨w1, t.text, w2, hw1, hw2, ⟨t, ht, rfl⟩, hs⟩
  · intro w1 g w2 hw1 hw2 hg
    obtain ⟨t, ht, rfl⟩ := hg
    rw [lept_parse_text v t w1 w2 ht hw1 (value_end_of_all_ws w2 hw2)]
    by_cases hinf : t.rounds_to_infinity
    · exact Or.inr ⟨_, by rw [if_pos hinf]⟩
    · refine Or.inl ⟨⟨t.nearest_double, LEPT_NUMBER⟩, ?_, rfl⟩
      rw [if_neg hinf]
      simp [deref_skip_ws_all_ws w2 hw2]

theorem lept_parse_value_status (c c1 : lept_context) (v v1 : lept_value) (ret : lept_status)
    (h : lept_parse_value c v = some (ret, c1, v1)) :
    ret ≠ LEPT_PARSE_ROOT_NOT_SINGULAR := by
  obtain ⟨json⟩ := c
  rcases lept_parse_value_cases json v with ⟨k, ks, ty, rest, _, _, hv⟩ | ⟨_, hv⟩ | ⟨_, hv⟩
  · rw [hv] at h
    split_ifs at h <;> simp only [Option.some.injEq, Prod.mk.injEq] at h <;>
      (rw [← h.1]; decide)
  · rw [hv] at h
    simp only [Option.some.injEq, Prod.mk.injEq] at h
    rw [← h.1]; decide
  · rw [hv] at h
    cases hve : validate_end json with
    | none =>
      rw [hve] at h
      simp only [Option.some.injEq, Prod.mk.injEq] at h
      rw [← h.1]; decide
    | some r =>
      rw [hve] at h
      dsimp only at h
      split_ifs at h <;> simp only [Option.some.injEq, Prod.mk.injEq] at h <;>
        (rw [← h.1]; decide)

/-- C7: `lept_parse` returns `LEPT_PARSE_ROOT_NOT_SINGULAR` if and only if the
dispatcher succeeds at the first non-whitespace position and, after the
whitespace that follows the value, the pointer is not at the end of the text;
the type is then `LEPT_NULL`.  In particular a keyword or a grammar number
whose value does not round to infinity, followed by a non-empty run of
whitespace and a text that starts with a non-whitespace character, gives
`LEPT_PARSE_ROOT_NOT_SINGULAR`. -/
theorem lept_parse_root_not_singular (v : lept_value) (json : List Char) :
    ((lept_parse v json).map Prod.fst = some LEPT_PARSE_ROOT_NOT_SINGULAR ↔
      ∃ c1 v1,
        lept_parse_value (lept_parse_whitespace ⟨json⟩) { v with type := LEPT_NULL } =
          some (LEPT_PARSE_OK, c1, v1) ∧
        deref (lept_parse_whitespace c1).json ≠ '\x00') ∧
    (∀ v1, lept_parse v json = some (LEPT_PARSE_ROOT_NOT_SINGULAR, v1) → v1.type = LEPT_NULL) ∧
    (∀ (val w rest : List Char) (c : Char),
      ((∃ K, (val, K) ∈ keywords) ∨
        (∃ t : number_text, t.wf = true ∧ ¬ t.rounds_to_infinity ∧ val = t.text)) →
      w ≠ [] → all_ws w → c ∉ ws_chars → c ≠ '\x00' →
      (lept_parse v (val ++ w ++ c :: rest)).map Prod.fst =
        some LEPT_PARSE_ROOT_NOT_SINGULAR) := by
  refine ⟨?_, ?_, ?_⟩
  · obtain ⟨ret, c, v1, h, _⟩ := lept_parse_value_total ⟨skip_ws json⟩ ⟨v.n, LEPT_NULL⟩
    have hrns := lept_parse_value_status _ _ _ _ _ h
    have hp := lept_parse_of_value v v1 json ret c h
    show _ ↔ ∃ c1 v1, lept_parse_value ⟨skip_ws json⟩ ⟨v.n, LEPT_NULL⟩ = some (LEPT_PARSE_OK, c1, v1) ∧
        deref (skip_ws c1.json) ≠ '\x00'
    rw [hp, h]
    constructor
    · intro hm
      by_cases hr : ret = LEPT_PARSE_OK
      · subst hr
        by_cases he : deref (skip_ws c.json) = '\x00'
        · simp [he] at hm
        · exact ⟨c, v1, rfl, he⟩
      · simp only [hr, if_false, Option.map_some', Option.some.injEq] at hm
        exact absurd hm hrns
    · rintro ⟨c1, v2, heq, he⟩
      simp only [Option.some.injEq, Prod.mk.injEq] at heq
      obtain ⟨h1, h2, _⟩ := heq
      subst h1 h2
      simp [he]
  · intro v1 h
    obtain ⟨ret, v2, h2, hty⟩ := lept_parse_error_type v json
    rw [h2] at h
    simp only [Option.some.injEq, Prod.mk.injEq] at h
    rw [← h.2]
    exact hty (by rw [h.1]; decide)
  · intro val w rest c hval hwne hw hcw hc0
    have hcw' : is_ws c = false := by
      cases h : is_ws c with
      | false => rfl
      | true => exact absurd ((is_ws_iff_mem c).mp h) hcw
    have hafter : deref (skip_ws (w ++ c :: rest)) ≠ '\x00' := by
      rw [skip_ws_all_ws _ _ hw, skip_ws_of_not_ws (c :: rest) hcw']
      exact hc0
    rcases hval with ⟨K, hk⟩ | ⟨t, ht, hfin, rfl⟩
    · cases val with
      | nil => simp [keywords] at hk
      | cons k ks =>
        have hkf := keyword_first k ks K hk
        have hskip : skip_ws ((k :: ks) ++ w ++ c :: rest) = k :: (ks ++ (w ++ c :: rest)) := by
          rw [List.append_assoc]
          exact skip_ws_of_not_ws _ hkf.2.2.1
        have hv := lept_parse_value_literal (ks ++ (w ++ c :: rest)) ⟨v.n, LEPT_NULL⟩ k ks K hk
        rw [if_pos (List.prefix_append _ _), ← hskip] at hv
        rw [lept_parse_of_value v _ _ _ _ hv]
        simp [hafter]
    · have hend : value_end (w ++ c :: rest) := by
        cases w with
        | nil => exact absurd rfl hwne
        | cons a w' =>
          have := value_end_of_all_ws [a] (fun ch hch => hw ch (by
            simp only [List.mem_singleton] at hch; rw [hch]; exact List.mem_cons_self _ _))
          simpa [value_end, number_end, deref_cons] using this
      have := lept_parse_text v t [] (w ++ c :: rest) ht (by intro ch hch; simp at hch) hend
      simp only [List.nil_append] at this
      rw [List.append_assoc, this, if_neg hfin, if_pos hafter]
      rfl

theorem lept_parse_number_grammar_witness :
    (∃ w1 g w2, all_ws w1 ∧ all_ws w2 ∧ is_number g ∧ [' ', '-', '0', '.', '5', ' '] = w1 ++ g ++ w2) ∧
    ((∃ v1, lept_parse ⟨.nan, LEPT_TRUE⟩ ([' '] ++ ['1', '.', '5', 'E', '+', '2'] ++ ['\n']) =
        some (LEPT_PARSE_OK, v1) ∧ v1.type = LEPT_NUMBER) ∨
      (∃ v1, lept_parse ⟨.nan, LEPT_TRUE⟩ ([' '] ++ ['1', '.', '5', 'E', '+', '2'] ++ ['\n']) =
        some (LEPT_PARSE_NUMBER_TOO_BIG, v1))) :=
  ⟨(lept_parse_number_grammar ⟨.nan, LEPT_TRUE⟩).1 [' ', '-', '0', '.', '5', ' ']
      ⟨.finite true 4503599627370496 (-53), LEPT_NUMBER⟩ (by decide) (by decide) rfl,
   (lept_parse_number_grammar ⟨.nan, LEPT_TRUE⟩).2 [' '] ['1', '.', '5', 'E', '+', '2'] ['\n']
      (by decide) (by decide)
      ⟨⟨false, ['1'], some ['5'], some ⟨'E', some '+', ['2']⟩⟩, by decide, by decide⟩⟩

theorem lept_parse_root_not_singular_witness :
    (lept_parse ⟨.nan, LEPT_TRUE⟩ (['1'] ++ [' '] ++ '2' :: [])).map Prod.fst =
        some LEPT_PARSE_ROOT_NOT_SINGULAR ∧
      (lept_parse ⟨.nan, LEPT_TRUE⟩ (['n', 'u', 'l', 'l'] ++ [' '] ++ 'x' :: [])).map Prod.fst =
        some LEPT_PARSE_ROOT_NOT_SINGULAR :=
  ⟨(lept_parse_root_not_singular ⟨.nan, LEPT_TRUE⟩ []).2.2 ['1'] [' '] [] '2'
      (Or.inr ⟨⟨false, ['1'], none, none⟩, by decide, by decide, by decide⟩)
      (by decide) (by decide) (by decide) (by decide),
   (lept_parse_root_not_singular ⟨.nan, LEPT_TRUE⟩ []).2.2 ['n', 'u', 'l', 'l'] [' '] [] 'x'
      (Or.inl ⟨LEPT_NULL, by decide⟩) (by decide) (by decide) (by decide) (by decide)⟩

/-- C10: on a string of the number grammar between two runs of whitespace,
`lept_parse` returns `LEPT_PARSE_NUMBER_TOO_BIG` if and only if the exact
decimal value of the string rounds (to the nearest binary64, ties to even) to
positive or negative infinity, which is when its magnitude is at least
`2 ^ 1024 - 2 ^ 970`; otherwise it returns `LEPT_PARSE_OK` with type
`LEPT_NUMBER` and the nearest binary64 as payload, also when that is a zero
or a subnormal reached by underflow. -/
theorem lept_parse_number_too_big_iff (v : lept_value) (t : number_text) (w1 w2 : List Char)
    (h : t.wf = true) (hw1 : all_ws w1) (hw2 : all_ws w2) :
    ((lept_parse v (w1 ++ t.text ++ w2)).map Prod.fst = some LEPT_PARSE_NUMBER_TOO_BIG ↔
      t.rounds_to_infinity) ∧
    (t.rounds_to_infinity ↔ (2 : ℚ) ^ 1024 - (2 : ℚ) ^ 970 ≤ t.magnitude) ∧
    (¬ t.rounds_to_infinity →
      lept_parse v (w1 ++ t.text ++ w2) =
        some (LEPT_PARSE_OK, ⟨t.nearest_double, LEPT_NUMBER⟩)) := by
  refine ⟨?_, rounds_to_infinity_iff t, ?_⟩
  · rw [lept_parse_text v t w1 w2 h hw1 (value_end_of_all_ws w2 hw2)]
    by_cases hinf : t.rounds_to_infinity
    · simp [hinf]
    · simp [hinf, deref_skip_ws_all_ws w2 hw2]
  · intro hinf
    rw [lept_parse_text v t w1 w2 h hw1 (value_end_of_all_ws w2 hw2)]
    simp [hinf, deref_skip_ws_all_ws w2 hw2]

set_option exponentiation.threshold 2000 in
set_option maxRecDepth 100000 in
theorem lept_parse_number_too_big_iff_witness :
    (lept_parse ⟨.nan, LEPT_TRUE⟩ ([] ++ ['1', 'e', '4', '0', '0'] ++ [])).map Prod.fst =
        some LEPT_PARSE_NUMBER_TOO_BIG ∧
      lept_parse ⟨.nan, LEPT_TRUE⟩ ([' '] ++ ['1', 'e', '-', '4', '0', '0'] ++ ['\n']) =
        some (LEPT_PARSE_OK, ⟨.finite false 0 0, LEPT_NUMBER⟩) :=
  ⟨(lept_parse_number_too_big_iff ⟨.nan, LEPT_TRUE⟩
      ⟨false, ['1'], none, some ⟨'e', none, ['4', '0', '0']⟩⟩ [] []
      (by decide) (by decide) (by decide)).1.mpr (by decide),
   (lept_parse_number_too_big_iff ⟨.nan, LEPT_TRUE⟩
      ⟨false, ['1'], none, some ⟨'e', some '-', ['4', '0', '0']⟩⟩ [' '] ['\n']
      (by decide) (by decide) (by decide)).2.2 (by decide)⟩

/-- The validator on `0` followed by a digit: it accepts the `0` alone. -/
theorem validate_end_zero_digits (ds : List Char) (hd : ISDIGIT (deref ds) = true) :
    validate_end ('0' :: ds) = some ds := by
  have hn := ISDIGIT_ne _ hd
  simp [validate_end, after_sign, after_int, after_frac, after_exp, deref_cons, hn.2.2.1,
    hn.2.2.2.1, hn.2.2.2.2.1]

/-- C4 as stated fails: on `0123` the status is `LEPT_PARSE_ROOT_NOT_SINGULAR`,
not `LEPT_PARSE_INVALID_VALUE`. -/
theorem lept_parse_leading_zero_counterexample :
    lept_parse ⟨.nan, LEPT_TRUE⟩ ['0', '1', '2', '3'] =
        some (LEPT_PARSE_ROOT_NOT_SINGULAR, ⟨.finite false 8655355533852672 (-46), LEPT_NULL⟩) ∧
      (lept_parse ⟨.nan, LEPT_TRUE⟩ ['0', '1', '2', '3']).map Prod.fst ≠
        some LEPT_PARSE_INVALID_VALUE := by
  decide

/-- C4, amended: on `0` followed by one or more decimal digits the validator
accepts the `0` alone (consumed length 1) and, when the conversion does not
overflow, `lept_parse` returns `LEPT_PARSE_ROOT_NOT_SINGULAR` with type
`LEPT_NULL`; the conversion does not overflow when at most 308 digits follow
the `0`. -/
theorem lept_parse_leading_zero (v : lept_value) (ds : List Char) (hne : ds ≠ [])
    (hd : ∀ ch ∈ ds, ch ∈ digit_chars) :
    lept_validate_number ('0' :: ds) = some (some 1) ∧
      (overflowed (strtod ('0' :: ds)) = false →
        lept_parse v ('0' :: ds) =
          some (LEPT_PARSE_ROOT_NOT_SINGULAR, ⟨(strtod ('0' :: ds)).value, LEPT_NULL⟩)) ∧
      (ds.length ≤ 308 → overflowed (strtod ('0' :: ds)) = false) := by
  have hall : all_digits ds = true := by
    rw [all_digits_iff]
    exact fun ch h => (ISDIGIT_iff ch).mpr (hd ch h)
  have hdig : ISDIGIT (deref ds) = true := by
    cases ds with
    | nil => exact absurd rfl hne
    | cons a ds' => exact (ISDIGIT_iff a).mpr (hd a (List.mem_cons_self _ _))
  have hn := ISDIGIT_ne _ hdig
  have hve := validate_end_zero_digits ds hdig
  refine ⟨?_, ?_, strtod_zero_digits_in_range ds hne hall⟩
  · rw [lept_validate_number_eq, hve]
    simp
  · intro hov
    have hz : ('0' : Char) ≠ 't' ∧ ('0' : Char) ≠ 'f' ∧ ('0' : Char) ≠ 'n' ∧
        ('0' : Char) ≠ '\x00' ∧ is_ws '0' = false := by decide
    have hskip : skip_ws ('0' :: ds) = '0' :: ds := skip_ws_of_not_ws _ hz.2.2.2.2
    have hv : lept_parse_value ⟨skip_ws ('0' :: ds)⟩ ⟨v.n, LEPT_NULL⟩ =
        some (LEPT_PARSE_OK, ⟨ds⟩, ⟨(strtod ('0' :: ds)).value, LEPT_NUMBER⟩) := by
      rw [hskip, lept_parse_value_number ⟨'0' :: ds⟩ _ hz.1 hz.2.1 hz.2.2.1 hz.2.2.2.1,
        lept_parse_number_eq]
      simp only [hve, hov]
      rfl
    rw [lept_parse_of_value v _ _ _ _ hv]
    have hafter : deref (skip_ws ds) ≠ '\x00' := by
      rw [skip_ws_of_not_ws ds hn.2.2.2.2.2.2.2.2.2.2.2.1]
      exact hn.2.2.2.2.2.2.2.2.1
    simp [hafter]

theorem lept_parse_leading_zero_witness :
    lept_validate_number ('0' :: ['1', '2', '3']) = some (some 1) ∧
      lept_parse ⟨.nan, LEPT_TRUE⟩ ('0' :: ['1', '2', '3']) =
        some (LEPT_PARSE_ROOT_NOT_SINGULAR,
          ⟨(strtod ('0' :: ['1', '2', '3'])).value, LEPT_NULL⟩) :=
  ⟨(lept_parse_leading_zero ⟨.nan, LEPT_TRUE⟩ ['1', '2', '3'] (by decide) (by decide)).1,
   (lept_parse_leading_zero ⟨.nan, LEPT_TRUE⟩ ['1', '2', '3'] (by decide) (by decide)).2.1
     ((lept_parse_leading_zero ⟨.nan, LEPT_TRUE⟩ ['1', '2', '3'] (by decide)
       (by decide)).2.2 (by decide))⟩

set_option exponentiation.threshold 2000 in
set_option maxRecDepth 100000 in
/-- C5, the code at the failing input `01e400`: the validator accepts the span
`0` (one character), whose value is in range and parses alone to the number
zero; `strtod` reads on past the span, overflows, and `lept_parse` returns
`LEPT_PARSE_NUMBER_TOO_BIG`.  With the in-range tail `1e3` in place of `1e400`
the same span gives `LEPT_PARSE_ROOT_NOT_SINGULAR`. -/
theorem lept_parse_too_big_beyond_span :
    lept_validate_number ['0', '1', 'e', '4', '0', '0'] = some (some 1) ∧
      lept_parse ⟨.nan, LEPT_TRUE⟩ ['0', '1', 'e', '4', '0', '0'] =
        some (LEPT_PARSE_NUMBER_TOO_BIG, ⟨.inf false, LEPT_NULL⟩) ∧
      lept_parse ⟨.nan, LEPT_TRUE⟩ ['0'] =
        some (LEPT_PARSE_OK, ⟨.finite false 0 0, LEPT_NUMBER⟩) ∧
      (lept_parse ⟨.nan, LEPT_TRUE⟩ ['0', '1', 'e', '3']).map Prod.fst =
        some LEPT_PARSE_ROOT_NOT_SINGULAR := by
  decide

/-! ## The helpers on their own -/

theorem skip_ws_idem (s : List Char) : skip_ws (skip_ws s) = skip_ws s :=
  skip_ws_of_not_ws _ (is_ws_deref_skip_ws s)

/-- C17: `lept_parse_whitespace` skips exactly the maximal leading run of
whitespace and is idempotent: the characters skipped are all among space, tab,
LF and CR, the character under the resulting pointer is none of them (another
character or the terminator), and a second application changes nothing. -/
theorem lept_parse_whitespace_maximal (c : lept_context) :
    (∃ w, all_ws w ∧ c.json = w ++ (lept_parse_whitespace c).json) ∧
      deref (lept_parse_whitespace c).json ∉ ws_chars ∧
      lept_parse_whitespace (lept_parse_whitespace c) = lept_parse_whitespace c := by
  refine ⟨?_, ?_, ?_⟩
  · obtain ⟨w, hw, hs⟩ := skip_ws_split c.json
    exact ⟨w, (all_ws_iff w).mpr hw, hs⟩
  · intro hmem
    have h1 := (is_ws_iff_mem _).mpr hmem
    have h2 := is_ws_deref_skip_ws c.json
    simp only [lept_parse_whitespace] at h1
    rw [h1] at h2
    exact absurd h2 (by decide)
  · simp only [lept_parse_whitespace, skip_ws_idem]

/-- C16: when the character under the pointer is the first character of the
(non-empty, NUL-free) keyword, `lept_parse_literal` succeeds if and only if
the text at the pointer begins with the whole keyword; it then advances the
pointer by exactly the length of the keyword and sets the type to the kind
supplied, leaving the payload as it was.  On a mismatch it returns
`LEPT_PARSE_INVALID_VALUE`, leaves the pointer exactly one character past its
start and leaves the value unchanged. -/
theorem lept_parse_literal_spec (c : lept_context) (v : lept_value) (k : Char)
    (ks : List Char) (type : lept_type) (hk : '\x00' ∉ k :: ks) (hc : deref c.json = k) :
    (k :: ks <+: c.json →
      lept_parse_literal c v (k :: ks) type =
        some (LEPT_PARSE_OK, ⟨c.json.drop (k :: ks).length⟩, ⟨v.n, type⟩)) ∧
    (¬ k :: ks <+: c.json →
      lept_parse_literal c v (k :: ks) type =
        some (LEPT_PARSE_INVALID_VALUE, ⟨c.json.drop 1⟩, v)) ∧
    ((∃ c1 v1, lept_parse_literal c v (k :: ks) type = some (LEPT_PARSE_OK, c1, v1)) ↔
      k :: ks <+: c.json) := by
  obtain ⟨json⟩ := c
  have hk0 : k ≠ '\x00' := fun h => hk (by simp [h])
  have hks : '\x00' ∉ ks := fun h => hk (List.mem_cons_of_mem _ h)
  have hj : json = k :: json.tail := cons_tail_of_deref json k hc hk0
  have heq := lept_parse_literal_eq json.tail v k ks type hks
  rw [← hj] at heq
  have hpre : k :: ks <+: json ↔ ks <+: json.tail := by
    conv_lhs => rw [hj]
    simp [List.cons_prefix_cons]
  have hdrop : json.drop (k :: ks).length = json.tail.drop ks.length := by
    conv_lhs => rw [hj]
    simp
  have hdrop1 : json.drop 1 = json.tail := by
    conv_lhs => rw [hj]
    simp
  refine ⟨?_, ?_, ?_⟩
  · intro hp
    rw [heq, if_pos (hpre.mp hp), hdrop]
  · intro hp
    rw [heq, if_neg (fun h => hp (hpre.mpr h)), hdrop1]
  · rw [heq]
    constructor
    · rintro ⟨c1, v1, h⟩
      by_cases hp : ks <+: json.tail
      · exact hpre.mpr hp
      · rw [if_neg hp] at h
        simp at h
    · intro hp
      rw [if_pos (hpre.mp hp)]
      exact ⟨_, _, rfl⟩

theorem lept_parse_literal_spec_witness :
    lept_parse_literal ⟨['t', 'r', 'u', 'e', ' ']⟩ ⟨.nan, LEPT_NULL⟩ ('t' :: ['r', 'u', 'e'])
        LEPT_TRUE = some (LEPT_PARSE_OK, ⟨[' ']⟩, ⟨.nan, LEPT_TRUE⟩) ∧
      lept_parse_literal ⟨['n', 'u', 'l']⟩ ⟨.nan, LEPT_FALSE⟩ ('n' :: ['u', 'l', 'l'])
        LEPT_NULL = some (LEPT_PARSE_INVALID_VALUE, ⟨['u', 'l']⟩, ⟨.nan, LEPT_FALSE⟩) :=
  ⟨(lept_parse_literal_spec ⟨['t', 'r', 'u', 'e', ' ']⟩ ⟨.nan, LEPT_NULL⟩ 't' ['r', 'u', 'e']
      LEPT_TRUE (by decide) rfl).1 (by decide),
   (lept_parse_literal_spec ⟨['n', 'u', 'l']⟩ ⟨.nan, LEPT_FALSE⟩ 'n' ['u', 'l', 'l']
      LEPT_NULL (by decide) rfl).2.1 (by decide)⟩

/-! ## Termination of the validator -/

theorem validate_step_rank (num s s1 : List Char) (st st1 : LEPT_VALIDATE_STATE)
    (h : validate_step num s st = .next s1 st1) : state_rank st1 = state_rank st + 1 := by
  cases st <;> simp only [validate_step] at h
  · simp only [validate_step_result.next.injEq] at h
    rw [← h.2]; rfl
  · split_ifs at h <;> simp only [validate_step_result.next.injEq] at h <;>
      (rw [← h.2]; rfl)
  · split_ifs at h <;> simp only [validate_step_result.next.injEq] at h <;>
      (rw [← h.2]; rfl)
  · split_ifs at h <;> simp only [validate_step_result.next.injEq] at h <;>
      (rw [← h.2]; rfl)
  · exact absurd h (by simp)

/-- With a budget that covers the states still ahead, the loop returns. -/
theorem validate_loop_returns (num : List Char) (fuel : Nat) (s : List Char)
    (st : LEPT_VALIDATE_STATE) (h : 5 ≤ fuel + state_rank st) :
    validate_loop num fuel s st ≠ none := by
  induction fuel generalizing s st with
  | zero => cases st <;> simp [state_rank] at h
  | succ fuel ih =>
    rw [validate_loop]
    cases hstep : validate_step num s st with
    | next s1 st1 =>
      have hr := validate_step_rank num s s1 st st1 hstep
      exact ih s1 st1 (by omega)
    | reject => simp
    | accept size => simp

/-- A larger budget does not change what the loop returns. -/
theorem validate_loop_more_fuel (num : List Char) (fuel : Nat) (s : List Char)
    (st : LEPT_VALIDATE_STATE) (r : Option Nat) (h : validate_loop num fuel s st = some r)
    (k : Nat) : validate_loop num (fuel + k) s st = some r := by
  induction fuel generalizing s st with
  | zero => simp [validate_loop] at h
  | succ fuel ih =>
    rw [Nat.add_right_comm, validate_loop]
    rw [validate_loop] at h
    cases hstep : validate_step num s st with
    | next s1 st1 =>
      rw [hstep] at h
      exact ih s1 st1 h
    | reject => rw [hstep] at h; exact h
    | accept size => rw [hstep] at h; exact h

/-- C20: the state machine of the validator terminates on every text.  Each
iteration of the loop either returns or moves to the next state of the order
`START, POST_SIGN, POST_INT, POST_FRAC, END`; hence a budget of as many
iterations as there are states from the current one on is never exhausted,
five iterations from `VALIDATE_START` suffice and any larger budget gives the
same result; the five states are all there are (no `default` case); and each
inner digit loop stops at the first character that is not a digit. -/
theorem lept_validate_number_terminates (num : List Char) :
    (∀ s st s1 st1, validate_step num s st = .next s1 st1 →
      state_rank st1 = state_rank st + 1) ∧
    (∀ fuel s st, 5 ≤ fuel + state_rank st → validate_loop num fuel s st ≠ none) ∧
    (∃ r, lept_validate_number num = some r ∧
      ∀ fuel, 5 ≤ fuel → validate_loop num fuel num VALIDATE_START = some r) ∧
    (∀ st : LEPT_VALIDATE_STATE, st = VALIDATE_START ∨ st = VALIDATE_POST_SIGN ∨
      st = VALIDATE_POST_INT ∨ st = VALIDATE_POST_FRAC ∨ st = VALIDATE_END) ∧
    (∀ s, ∃ ds, (∀ ch ∈ ds, ch ∈ digit_chars) ∧ s = ds ++ skip_digits s ∧
      deref (skip_digits s) ∉ digit_chars) := by
  refine ⟨fun s st s1 st1 => validate_step_rank num s s1 st st1, validate_loop_returns num,
    ?_, ?_, ?_⟩
  · refine ⟨_, lept_validate_number_eq num, ?_⟩
    intro fuel hf
    obtain ⟨k, rfl⟩ := Nat.exists_eq_add_of_le hf
    have h5 := lept_validate_number_eq num
    rw [lept_validate_number] at h5
    exact validate_loop_more_fuel num 5 num VALIDATE_START _ h5 k
  · intro st
    cases st <;> simp
  · intro s
    obtain ⟨ds, h1, h2, h3⟩ := skip_digits_split s
    refine ⟨ds, ?_, h2, ?_⟩
    · intro ch hch
      exact (ISDIGIT_iff ch).mp ((all_digits_iff ds).mp h1 ch hch)
    · intro hmem
      rw [(ISDIGIT_iff _).mpr hmem] at h3
      exact absurd h3 (by decide)

/-! ## The validator consumes the maximal prefix -/

theorem after_sign_number (neg : Bool) (ip rest : List Char) (hi : int_wf ip = true) :
    after_sign (sign_text neg ++ (ip ++ rest)) = ip ++ rest := by
  have hd1 : ISDIGIT (deref (ip ++ rest)) = true := by
    rw [deref_append_of_ne_nil _ _ (int_wf_deref _ hi).2]
    exact (int_wf_deref _ hi).1
  cases neg with
  | true => simp [sign_text, after_sign, deref_cons]
  | false => simp [sign_text, after_sign, (ISDIGIT_ne _ hd1).1]

theorem text_eq_sign (t : number_text) :
    t.text = sign_text t.neg ++ (t.int ++ (frac_text t.frac ++ opt_exp_text t.exp)) := rfl

theorem opt_exp_text_deref_some (e : exp_text) (r : List Char)
    (h : opt_exp_wf (some e) = true) :
    deref (opt_exp_text (some e) ++ r) = 'e' ∨ deref (opt_exp_text (some e) ++ r) = 'E' := by
  simp only [opt_exp_wf, exp_text.wf, Bool.and_eq_true, Bool.or_eq_true, beq_iff_eq] at h
  simp only [opt_exp_text, exp_text.text, List.cons_append, deref_cons]
  exact h.1.1.1

/-- Completeness of the validator under the exact stopping condition. -/
theorem validate_end_stops (t : number_text) (r : List Char) (h : t.wf = true)
    (hr : stops_at t r) : validate_end (t.text ++ r) = some r := by
  have hwf := h
  simp only [number_text.wf, Bool.and_eq_true] at h
  obtain ⟨⟨hi, hf⟩, he⟩ := h
  obtain ⟨tneg, tint, tfrac, texp⟩ := t
  simp only at hi hf he
  simp only [stops_at] at hr
  have h0 : after_sign (number_text.text ⟨tneg, tint, tfrac, texp⟩ ++ r) =
      tint ++ (frac_text tfrac ++ (opt_exp_text texp ++ r)) := by
    rw [text_eq_sign]
    simp only [List.append_assoc]
    exact after_sign_number tneg tint _ hi
  -- the three phases, by the shape of the optional parts
  cases texp with
  | some e =>
    have hmark := opt_exp_text_deref_some e r he
    have hnd : ISDIGIT (deref (opt_exp_text (some e) ++ r)) = false ∧
        deref (opt_exp_text (some e) ++ r) ≠ '.' := by
      rcases hmark with h | h <;> rw [h] <;> decide
    have h3 : after_exp (opt_exp_text (some e) ++ r) = some r := by
      have hd : ISDIGIT (deref r) = false := hr.1 (by simp)
      simp only [opt_exp_wf, exp_text.wf, Bool.and_eq_true, Bool.or_eq_true, beq_iff_eq,
        Bool.not_eq_true', List.isEmpty_eq_false] at he
      obtain ⟨m, sg, ds⟩ := e
      obtain ⟨⟨⟨hm, hs⟩, hne⟩, hds⟩ := he
      have hdig := all_digits_deref ds r hne hds
      have hm' : m = 'e' ∨ m = 'E' := hm
      have key : after_exp_sign (sg.toList ++ ds ++ r) = ds ++ r := by
        rcases hs with (hs | hs) | hs
        · subst hs
          simpa using after_exp_sign_digit _ hdig
        · subst hs
          simp [after_exp_sign, deref_cons]
        · subst hs
          simp [after_exp_sign, deref_cons]
      simp only [opt_exp_text, exp_text.text, List.cons_append, after_exp, deref_cons, hm',
        if_true, List.tail_cons]
      rw [key, hdig, skip_digits_append ds r hds hd]
      rfl
    have h2 := after_frac_text tfrac (opt_exp_text (some e) ++ r) hf hnd
    have hd2 := frac_text_deref tfrac (opt_exp_text (some e) ++ r) hnd.1
    have h1 := after_int_text tint (frac_text tfrac ++ (opt_exp_text (some e) ++ r)) hi
      (Or.inr hd2)
    simp [validate_end, h0, h1, h2, h3]
  | none =>
    have hr2 := hr.2 rfl
    have h3 : after_exp r = some r := by
      simp [after_exp, hr2.1, hr2.2.1]
    cases tfrac with
    | some ds =>
      have hd : ISDIGIT (deref r) = false := hr2.2.2.1 (by simp)
      have h2 : after_frac (frac_text (some ds) ++ r) = some r := by
        simp only [frac_wf, Bool.and_eq_true, Bool.not_eq_true', List.isEmpty_eq_false] at hf
        have hdg := all_digits_deref ds r hf.1 hf.2
        simp [frac_text, after_frac, deref_cons, hdg, skip_digits_append ds r hf.2 hd]
      have hd2 : ISDIGIT (deref (frac_text (some ds) ++ r)) = false := by
        simp only [frac_text, List.cons_append, deref_cons]; decide
      have h1 := after_int_text tint (frac_text (some ds) ++ r) hi (Or.inr hd2)
      simp [validate_end, h0, opt_exp_text, h1, h2, h3]
    | none =>
      have hr3 := hr2.2.2.2 rfl
      have h2 : after_frac r = some r := by simp [after_frac, hr3.1]
      have h1 : after_int (tint ++ r) = some r := by
        apply after_int_text tint r hi
        by_cases hz : tint = ['0']
        · exact Or.inl hz
        · exact Or.inr (hr3.2 hz)
      simp [validate_end, h0, opt_exp_text, frac_text, h1, h2, h3]

/-- Soundness of the validator with the stopping condition it has checked. -/
theorem validate_end_sound_stops (num r : List Char) (h : validate_end num = some r) :
    ∃ t : number_text, t.wf = true ∧ num = t.text ++ r ∧ stops_at t r := by
  unfold validate_end at h
  cases h1 : after_int (after_sign num) with
  | none => simp [h1] at h
  | some s1 =>
    simp only [h1, Option.some_bind] at h
    cases h2 : after_frac s1 with
    | none => simp [h2] at h
    | some s2 =>
      simp only [h2, Option.some_bind] at h
      obtain ⟨ip, hip, hs0, hstop0⟩ := after_int_sound _ _ h1
      obtain ⟨f, hf, hs1, hstop1a, hstop1b⟩ := after_frac_sound _ _ h2
      obtain ⟨e, he, hs2, hstop2a, hstop2b⟩ := after_exp_sound _ _ h
      have hstops : ∀ neg, stops_at ⟨neg, ip, f, e⟩ r := by
        intro neg
        refine ⟨fun hne => hstop2b hne, fun hnone => ?_⟩
        have he0 : e = none := hnone
        subst he0
        have hs2' : s2 = r := by simpa [opt_exp_text] using hs2
        subst hs2'
        refine ⟨(hstop2a rfl).1, (hstop2a rfl).2, fun hfne => hstop1b hfne, fun hfn => ?_⟩
        have hf0 : f = none := hfn
        subst hf0
        have hs1' : s1 = s2 := by simpa [frac_text] using hs1
        subst hs1'
        refine ⟨hstop1a rfl, fun hz => ?_⟩
        rcases hstop0 with h | h
        · exact absurd h hz
        · exact h
      by_cases hm : deref num = '-'
      · refine ⟨⟨true, ip, f, e⟩, by simp [number_text.wf, hip, hf, he], ?_, hstops true⟩
        have hn := cons_tail_of_deref num '-' hm (by decide)
        have : after_sign num = num.tail := by simp [after_sign, hm]
        rw [this] at hs0
        rw [hn, hs0, hs1, hs2]
        simp [number_text.text]
      · refine ⟨⟨false, ip, f, e⟩, by simp [number_text.wf, hip, hf, he], ?_, hstops false⟩
        have : after_sign num = num := by simp [after_sign, hm]
        rw [this] at hs0
        rw [hs0, hs1, hs2]
        simp [number_text.text]

theorem stops_at_of_deref (t : number_text) (r r0 : List Char) (h : stops_at t r)
    (hd : deref r0 = deref r) : stops_at t r0 := by
  unfold stops_at at h ⊢
  rw [hd]
  exact h

theorem stops_at_nil (t : number_text) : stops_at t [] := by
  unfold stops_at
  simp only [deref_nil]
  refine ⟨fun _ => by decide, fun _ => ⟨by decide, by decide, fun _ => by decide,
    fun _ => ⟨by decide, fun _ => by decide⟩⟩⟩

/-- C14: when `lept_validate_number` accepts with consumed length `n`, the
first `n` characters of the text are a string of the number grammar and no
prefix of the text that is a string of the grammar is longer than `n`;
conversely on a string of the grammar followed by the end of the text the
validator accepts with consumed length the length of the string. -/
theorem lept_validate_number_maximal (num : List Char) :
    (∀ n, lept_validate_number num = some (some n) →
      n ≤ num.length ∧ is_number (num.take n) ∧
        ∀ g, is_number g → g <+: num → g.length ≤ n) ∧
    (∀ g, is_number g → lept_validate_number g = some (some g.length)) := by
  constructor
  · intro n h
    rw [lept_validate_number_eq] at h
    cases hve : validate_end num with
    | none => rw [hve] at h; simp at h
    | some r =>
      rw [hve] at h
      simp only [Option.map_some', Option.some.injEq] at h
      obtain ⟨t, ht, hnum, hstop⟩ := validate_end_sound_stops num r hve
      have hn : n = t.text.length := by rw [← h, hnum]; simp
      refine ⟨by rw [hn, hnum]; simp, ?_, ?_⟩
      · rw [hn, hnum]
        simp only [List.take_left']
        exact ⟨t, ht, rfl⟩
      · rintro g ⟨t1, ht1, rfl⟩ hpre
        by_contra hlt
        have hlen : t.text.length < t1.text.length := by omega
        rw [hnum] at hpre
        have hpt : t.text <+: t1.text :=
          List.prefix_of_prefix_length_le (List.prefix_append _ _) hpre (le_of_lt hlen)
        obtain ⟨r0, hr0⟩ := hpt
        obtain ⟨x, hx⟩ := hpre
        have hr0ne : r0 ≠ [] := by
          rintro rfl
          rw [List.append_nil] at hr0
          rw [hr0] at hlen
          exact absurd hlen (lt_irrefl _)
        have hr : r = r0 ++ x := by
          rw [← hr0, List.append_assoc] at hx
          exact (List.append_cancel_left hx).symm
        have hd : deref r0 = deref r := by
          rw [hr, deref_append_of_ne_nil r0 x hr0ne]
        have h1 := validate_end_stops t r0 ht (stops_at_of_deref t r r0 hstop hd)
        have h2 := validate_end_stops t1 [] ht1 (stops_at_nil t1)
        rw [List.append_nil, ← hr0, h1] at h2
        exact hr0ne (Option.some.inj h2)
  · rintro g ⟨t, ht, rfl⟩
    have h := validate_end_stops t [] ht (stops_at_nil t)
    rw [List.append_nil] at h
    rw [lept_validate_number_eq, h]
    simp

theorem lept_validate_number_maximal_witness :
    (3 ≤ ['1', '.', '5', 'x', '2'].length ∧ is_number (['1', '.', '5', 'x', '2'].take 3) ∧
      ∀ g, is_number g → g <+: ['1', '.', '5', 'x', '2'] → g.length ≤ 3) ∧
    lept_validate_number ['-', '0', 'e', '7'] = some (some ['-', '0', 'e', '7'].length) :=
  ⟨(lept_validate_number_maximal ['1', '.', '5', 'x', '2']).1 3 (by decide),
   (lept_validate_number_maximal []).2 ['-', '0', 'e', '7']
     ⟨⟨true, ['0'], none, some ⟨'e', none, ['7']⟩⟩, by decide, by decide⟩⟩

/-! ## Dangling fraction and exponent -/

theorem number_start_ne (neg : Bool) (ip rest : List Char) (hi : int_wf ip = true) :
    deref (sign_text neg ++ (ip ++ rest)) ≠ 't' ∧ deref (sign_text neg ++ (ip ++ rest)) ≠ 'f' ∧
      deref (sign_text neg ++ (ip ++ rest)) ≠ 'n' ∧
      deref (sign_text neg ++ (ip ++ rest)) ≠ '\x00' ∧
      is_ws (deref (sign_text neg ++ (ip ++ rest))) = false := by
  cases neg with
  | true => simp only [sign_text, if_true, List.singleton_append, deref_cons]; decide
  | false =>
    simp only [sign_text, Bool.false_eq_true, if_false, List.nil_append]
    have hd1 : ISDIGIT (deref (ip ++ rest)) = true := by
      rw [deref_append_of_ne_nil _ _ (int_wf_deref _ hi).2]
      exact (int_wf_deref _ hi).1
    have := ISDIGIT_ne _ hd1
    exact ⟨this.2.2.2.2.2.1, this.2.2.2.2.2.2.1, this.2.2.2.2.2.2.2.1, this.2.2.2.2.2.2.2.2.1,
      this.2.2.2.2.2.2.2.2.2.2.2.1⟩

/-- A text that the validator rejects, after leading whitespace, at a
position that dispatches to the number parser. -/
theorem lept_parse_rejected (v : lept_value) (w1 s : List Char) (hw1 : all_ws w1)
    (hs : deref s ≠ 't' ∧ deref s ≠ 'f' ∧ deref s ≠ 'n' ∧ deref s ≠ '\x00' ∧
      is_ws (deref s) = false)
    (hve : validate_end s = none) :
    lept_parse v (w1 ++ s) = some (LEPT_PARSE_INVALID_VALUE, ⟨v.n, LEPT_NULL⟩) := by
  have hskip : skip_ws (w1 ++ s) = s := by
    rw [skip_ws_all_ws _ _ hw1]
    exact skip_ws_of_not_ws _ hs.2.2.2.2
  have hv : lept_parse_value ⟨skip_ws (w1 ++ s)⟩ ⟨v.n, LEPT_NULL⟩ =
      some (LEPT_PARSE_INVALID_VALUE, ⟨s⟩, ⟨v.n, LEPT_NULL⟩) := by
    rw [hskip, lept_parse_value_number ⟨s⟩ _ hs.1 hs.2.1 hs.2.2.1 hs.2.2.2.1,
      lept_parse_number_eq]
    simp only [hve]
  rw [lept_parse_of_value v _ _ _ _ hv]
  simp

theorem validate_end_dangling_frac (neg : Bool) (ip rest : List Char) (hi : int_wf ip = true)
    (hr : ISDIGIT (deref rest) = false) :
    validate_end (sign_text neg ++ (ip ++ '.' :: rest)) = none := by
  have h0 := after_sign_number neg ip ('.' :: rest) hi
  have h1 := after_int_text ip ('.' :: rest) hi (Or.inr (by simp only [deref_cons]; decide))
  simp [validate_end, h0, h1, after_frac, deref_cons, hr]

theorem validate_end_dangling_exp (neg : Bool) (ip : List Char) (f : Option (List Char))
    (m : Char) (sg : Option Char) (rest : List Char) (hi : int_wf ip = true)
    (hf : frac_wf f = true) (hm : m = 'e' ∨ m = 'E')
    (hsg : sg = none ∨ sg = some '+' ∨ sg = some '-')
    (hr : ISDIGIT (deref rest) = false)
    (hgreedy : sg = none → deref rest ≠ '+' ∧ deref rest ≠ '-') :
    validate_end (sign_text neg ++ (ip ++ (frac_text f ++ m :: (sg.toList ++ rest)))) =
      none := by
  have hmd : ISDIGIT m = false ∧ m ≠ '.' := by
    rcases hm with h | h <;> subst h <;> decide
  have h0 := after_sign_number neg ip (frac_text f ++ m :: (sg.toList ++ rest)) hi
  have hd2 := frac_text_deref f (m :: (sg.toList ++ rest)) (by simp only [deref_cons]; exact hmd.1)
  have h1 := after_int_text ip (frac_text f ++ m :: (sg.toList ++ rest)) hi (Or.inr hd2)
  have h2 := after_frac_text f (m :: (sg.toList ++ rest)) hf
    (by simp only [deref_cons]; exact hmd)
  have hsign : after_exp_sign (sg.toList ++ rest) = rest := by
    rcases hsg with h | h | h
    · subst h
      have := hgreedy rfl
      simp [after_exp_sign, this.1, this.2]
    · subst h; simp [after_exp_sign, deref_cons]
    · subst h; simp [after_exp_sign, deref_cons]
  have h3 : after_exp (m :: (sg.toList ++ rest)) = none := by
    simp only [after_exp, deref_cons, hm, if_true, List.tail_cons, hsign, hr]
    simp
  simp [validate_end, h0, h1, h2, h3]

/-- C15: the validator rejects at a dangling fraction or exponent instead of
stopping before it.  On a text that begins with an optional minus sign, an
int-part and a `.` that is not followed by a digit, and on a text that begins
with an optional minus sign, an int-part, an optional frac-part, an exponent
marker and its optional sign (taken when it is there) not followed by a
digit, `lept_validate_number` returns false and `lept_parse` returns
`LEPT_PARSE_INVALID_VALUE`, whatever whitespace comes first. -/
theorem lept_validate_number_dangling (v : lept_value) (w1 : List Char) (neg : Bool)
    (ip rest : List Char) (hw1 : all_ws w1) (hi : int_wf ip = true)
    (hr : deref rest ∉ digit_chars) :
    (lept_validate_number (sign_text neg ++ (ip ++ '.' :: rest)) = some none ∧
      lept_parse v (w1 ++ (sign_text neg ++ (ip ++ '.' :: rest))) =
        some (LEPT_PARSE_INVALID_VALUE, ⟨v.n, LEPT_NULL⟩)) ∧
    (∀ (f : Option (List Char)) (m : Char) (sg : Option Char), frac_wf f = true →
      m = 'e' ∨ m = 'E' → sg = none ∨ sg = some '+' ∨ sg = some '-' →
      (sg = none → deref rest ≠ '+' ∧ deref rest ≠ '-') →
      lept_validate_number (sign_text neg ++ (ip ++ (frac_text f ++ m :: (sg.toList ++ rest)))) =
          some none ∧
        lept_parse v (w1 ++ (sign_text neg ++ (ip ++ (frac_text f ++ m :: (sg.toList ++ rest))))) =
          some (LEPT_PARSE_INVALID_VALUE, ⟨v.n, LEPT_NULL⟩)) := by
  have hr' : ISDIGIT (deref rest) = false := by
    cases h : ISDIGIT (deref rest) with
    | false => rfl
    | true => exact absurd ((ISDIGIT_iff _).mp h) hr
  constructor
  · have hve := validate_end_dangling_frac neg ip rest hi hr'
    refine ⟨by rw [lept_validate_number_eq, hve]; rfl, ?_⟩
    exact lept_parse_rejected v w1 _ hw1 (number_start_ne neg ip _ hi) hve
  · intro f m sg hf hm hsg hgreedy
    have hve := validate_end_dangling_exp neg ip f m sg rest hi hf hm hsg hr' hgreedy
    refine ⟨by rw [lept_validate_number_eq, hve]; rfl, ?_⟩
    exact lept_parse_rejected v w1 _ hw1 (number_start_ne neg ip _ hi) hve

theorem lept_validate_number_dangling_witness :
    (lept_validate_number (sign_text false ++ (['1'] ++ '.' :: ['e', '5'])) = some none ∧
      lept_parse ⟨.nan, LEPT_TRUE⟩ ([] ++ (sign_text false ++ (['1'] ++ '.' :: ['e', '5']))) =
        some (LEPT_PARSE_INVALID_VALUE, ⟨.nan, LEPT_NULL⟩)) ∧
    (lept_validate_number
        (sign_text true ++ (['1'] ++ (frac_text (some ['5']) ++ 'E' :: ((some '+').toList ++ ['x']))))
        = some none ∧
      lept_parse ⟨.nan, LEPT_TRUE⟩ ([' '] ++
        (sign_text true ++ (['1'] ++ (frac_text (some ['5']) ++ 'E' :: ((some '+').toList ++ ['x'])))))
        = some (LEPT_PARSE_INVALID_VALUE, ⟨.nan, LEPT_NULL⟩)) :=
  ⟨(lept_validate_number_dangling ⟨.nan, LEPT_TRUE⟩ [] false ['1'] ['e', '5'] (by decide)
      (by decide) (by decide)).1,
   (lept_validate_number_dangling ⟨.nan, LEPT_TRUE⟩ [' '] true ['1'] ['x'] (by decide)
      (by decide) (by decide)).2 (some ['5']) 'E' (some '+') (by decide) (Or.inr rfl)
      (Or.inr (Or.inl rfl)) (by intro h; exact absurd h (by decide))⟩

/-! ## The cursor -/

theorem skip_ws_suffix (s : List Char) : skip_ws s <:+ s := by
  obtain ⟨w, _, hs⟩ := skip_ws_split s
  exact ⟨w, hs.symm⟩

/-- A pointer that is a suffix of the text at a position is itself at a
position of the text, not before the first one. -/
theorem at_position_of_suffix (text : List Char) (c c1 : lept_context) (p : Nat)
    (hp : at_position text c p) (hs : c1.json <:+ c.json) :
    ∃ p1, p ≤ p1 ∧ at_position text c1 p1 := by
  obtain ⟨hle, hc⟩ := hp
  have hlen : c1.json.length ≤ c.json.length := hs.length_le
  have hcl : c.json.length = text.length - p := by rw [hc]; simp
  have hd := (List.suffix_iff_eq_drop).mp hs
  generalize c.json.length - c1.json.length = k at hd
  have hk : k ≤ text.length - p ∨ text.length - p < k := le_or_lt _ _
  rcases hk with hk | hk
  · refine ⟨p + k, Nat.le_add_right _ _, by omega, ?_⟩
    rw [hd, hc, List.drop_drop]
  · refine ⟨text.length, hle, le_refl _, ?_⟩
    rw [hd, hc, List.drop_drop, List.drop_eq_nil_of_le (by omega), List.drop_length]

theorem lept_parse_literal_suffix (c c1 : lept_context) (v v1 : lept_value) (kw : List Char)
    (type : lept_type) (ret : lept_status) (hne : kw ≠ []) (hk : '\x00' ∉ kw)
    (h : lept_parse_literal c v kw type = some (ret, c1, v1)) : c1.json <:+ c.json := by
  cases kw with
  | nil => exact absurd rfl hne
  | cons k ks =>
    obtain ⟨json⟩ := c
    have hk0 : k ≠ '\x00' := fun h => hk (by simp [h])
    have hks : '\x00' ∉ ks := fun h => hk (List.mem_cons_of_mem _ h)
    by_cases hd : deref json = k
    · have hj : json = k :: json.tail := cons_tail_of_deref json k hd hk0
      rw [hj, lept_parse_literal_eq json.tail v k ks type hks] at h
      rw [hj]
      split_ifs at h <;> simp only [Option.some.injEq, Prod.mk.injEq] at h <;> rw [← h.2.1]
      · exact (List.drop_suffix _ _).trans (List.suffix_cons _ _)
      · exact List.suffix_cons _ _
    · simp [lept_parse_literal, EXPECT, deref_cons, hd] at h

theorem lept_parse_number_suffix (c c1 : lept_context) (v v1 : lept_value)
    (ret : lept_status) (h : lept_parse_number c v = some (ret, c1, v1)) :
    c1.json <:+ c.json := by
  rw [lept_parse_number_eq] at h
  cases hve : validate_end c.json with
  | none =>
    rw [hve] at h
    simp only [Option.some.injEq, Prod.mk.injEq] at h
    rw [← h.2.1]
  | some r =>
    rw [hve] at h
    obtain ⟨t, _, hnum⟩ := validate_end_sound _ _ hve
    dsimp only at h
    split_ifs at h
    · simp only [Option.some.injEq, Prod.mk.injEq] at h
      rw [← h.2.1]
    · simp only [Option.some.injEq, Prod.mk.injEq] at h
      rw [← h.2.1]
      exact ⟨t.text, hnum.symm⟩

theorem lept_parse_value_suffix (c c1 : lept_context) (v v1 : lept_value)
    (ret : lept_status) (h : lept_parse_value c v = some (ret, c1, v1)) :
    c1.json <:+ c.json := by
  unfold lept_parse_value at h
  split_ifs at h
  · exact lept_parse_literal_suffix c c1 v v1 _ _ ret (by simp) (by decide) h
  · exact lept_parse_literal_suffix c c1 v v1 _ _ ret (by simp) (by decide) h
  · exact lept_parse_literal_suffix c c1 v v1 _ _ ret (by simp) (by decide) h
  · simp only [Option.some.injEq, Prod.mk.injEq] at h
    rw [← h.2.1]
  · exact lept_parse_number_suffix c c1 v v1 ret h

/-! ## The payload after a parse -/

set_option exponentiation.threshold 2000 in
set_option maxRecDepth 100000 in
/-- C12 as stated fails: on `1e400` the status is `LEPT_PARSE_NUMBER_TOO_BIG`
and the payload, `0.0` before the call, is an infinity after it; on `1 2` the
status is `LEPT_PARSE_ROOT_NOT_SINGULAR` and the payload has become `1.0`. -/
theorem lept_parse_error_payload_counterexample :
    lept_parse ⟨.finite false 0 0, LEPT_TRUE⟩ ['1', 'e', '4', '0', '0'] =
        some (LEPT_PARSE_NUMBER_TOO_BIG, ⟨.inf false, LEPT_NULL⟩) ∧
      lept_parse ⟨.finite false 0 0, LEPT_TRUE⟩ ['1', ' ', '2'] =
        some (LEPT_PARSE_ROOT_NOT_SINGULAR, ⟨.finite false (2 ^ 52) (-52), LEPT_NULL⟩) ∧
      Double.inf false ≠ Double.finite false 0 0 ∧
      Double.finite false (2 ^ 52) (-52) ≠ Double.finite false 0 0 := by
  decide

/-- What a parse leaves in the value: the type `LEPT_NULL` with an error
status, the payload untouched with `LEPT_PARSE_EXPECT_VALUE` and
`LEPT_PARSE_INVALID_VALUE`, and otherwise the payload untouched or, after the
validator has accepted, the result of `strtod`. -/
theorem lept_parse_payload_cases (v v1 : lept_value) (json : List Char) (ret : lept_status)
    (h : lept_parse v json = some (ret, v1)) :
    (ret ≠ LEPT_PARSE_OK → v1.type = LEPT_NULL) ∧
    (ret = LEPT_PARSE_EXPECT_VALUE ∨ ret = LEPT_PARSE_INVALID_VALUE → v1.n = v.n) ∧
    (v1.n = v.n ∨
      ((∃ size, lept_validate_number (lept_parse_whitespace ⟨json⟩).json = some (some size)) ∧
        v1.n = (strtod (lept_parse_whitespace ⟨json⟩).json).value)) := by
  have htype : ret ≠ LEPT_PARSE_OK → v1.type = LEPT_NULL := by
    intro hne
    obtain ⟨ret2, v2, h2, hty⟩ := lept_parse_error_type v json
    rw [h2] at h
    simp only [Option.some.injEq, Prod.mk.injEq] at h
    rw [← h.2]
    exact hty (by rw [h.1]; exact hne)
  refine ⟨htype, ?_⟩
  show (ret = LEPT_PARSE_EXPECT_VALUE ∨ ret = LEPT_PARSE_INVALID_VALUE → v1.n = v.n) ∧
    (v1.n = v.n ∨
      ((∃ size, lept_validate_number (skip_ws json) = some (some size)) ∧
        v1.n = (strtod (skip_ws json)).value))
  rcases lept_parse_value_cases (skip_ws json) ⟨v.n, LEPT_NULL⟩ with
    ⟨k, ks, ty, rest, _, _, hv⟩ | ⟨_, hv⟩ | ⟨_, hv⟩
  · have hn : v1.n = v.n := by
      by_cases hp : ks <+: rest
      · rw [if_pos hp] at hv
        rw [lept_parse_of_value v _ _ _ _ hv] at h
        by_cases he : deref (skip_ws (rest.drop ks.length)) = '\x00' <;>
          simp only [he, if_true, ne_eq, not_true_eq_false, not_false_eq_true, if_false,
            Option.some.injEq, Prod.mk.injEq] at h <;> rw [← h.2]
      · rw [if_neg hp] at hv
        rw [lept_parse_of_value v _ _ _ _ hv] at h
        simp only [if_false, Option.some.injEq, Prod.mk.injEq,
          show ¬ LEPT_PARSE_INVALID_VALUE = LEPT_PARSE_OK from by decide] at h
        rw [← h.2]
    exact ⟨fun _ => hn, Or.inl hn⟩
  · rw [lept_parse_of_value v _ _ _ _ hv] at h
    simp only [if_false, Option.some.injEq, Prod.mk.injEq,
      show ¬ LEPT_PARSE_EXPECT_VALUE = LEPT_PARSE_OK from by decide] at h
    have hn : v1.n = v.n := by rw [← h.2]
    exact ⟨fun _ => hn, Or.inl hn⟩
  · cases hve : validate_end (skip_ws json) with
    | none =>
      rw [hve] at hv
      rw [lept_parse_of_value v _ _ _ _ hv] at h
      simp only [if_false, Option.some.injEq, Prod.mk.injEq,
        show ¬ LEPT_PARSE_INVALID_VALUE = LEPT_PARSE_OK from by decide] at h
      have hn : v1.n = v.n := by rw [← h.2]
      exact ⟨fun _ => hn, Or.inl hn⟩
    | some r =>
      rw [hve] at hv
      dsimp only at hv
      have hacc : ∃ size, lept_validate_number (skip_ws json) = some (some size) :=
        ⟨_, by rw [lept_validate_number_eq, hve]; rfl⟩
      by_cases ho : overflowed (strtod (skip_ws json)) = true
      · rw [if_pos ho] at hv
        rw [lept_parse_of_value v _ _ _ _ hv] at h
        simp only [if_false, Option.some.injEq, Prod.mk.injEq,
          show ¬ LEPT_PARSE_NUMBER_TOO_BIG = LEPT_PARSE_OK from by decide] at h
        refine ⟨fun hr => ?_, Or.inr ⟨hacc, by rw [← h.2]⟩⟩
        rw [← h.1] at hr
        rcases hr with hr | hr <;> exact absurd hr (by decide)
      · rw [if_neg ho] at hv
        rw [lept_parse_of_value v _ _ _ _ hv] at h
        by_cases he : deref (skip_ws r) = '\x00'
        · simp only [he, if_true, ne_eq, not_true_eq_false, if_false, Option.some.injEq,
            Prod.mk.injEq] at h
          refine ⟨fun hr => ?_, Or.inr ⟨hacc, by rw [← h.2]⟩⟩
          rw [← h.1] at hr
          rcases hr with hr | hr <;> exact absurd hr (by decide)
        · simp only [he, if_true, ne_eq, not_false_eq_true, Option.some.injEq,
            Prod.mk.injEq] at h
          refine ⟨fun hr => ?_, Or.inr ⟨hacc, by rw [← h.2]⟩⟩
          rw [← h.1] at hr
          rcases hr with hr | hr <;> exact absurd hr (by decide)

/-- A text on which the validator accepts dispatches to the number parser. -/
theorem validate_end_dispatch (j r : List Char) (h : validate_end j = some r) :
    deref j ≠ 't' ∧ deref j ≠ 'f' ∧ deref j ≠ 'n' ∧ deref j ≠ '\x00' := by
  obtain ⟨t, ht, hnum⟩ := validate_end_sound j r h
  have := text_first_ne t r ht
  rw [← hnum] at this
  exact ⟨this.1, this.2.1, this.2.2.1, this.2.2.2.1⟩

/-- C12, amended: after a parse that returns an error status the type is
`LEPT_NULL`; the payload equals its content before the call when the status
is `LEPT_PARSE_EXPECT_VALUE` or `LEPT_PARSE_INVALID_VALUE`; and after any
parse the payload is the result of `strtod` when the number validator has
accepted at the first non-whitespace position, whatever the status, and its
content before the call when it has not. -/
theorem lept_parse_payload (v v1 : lept_value) (json : List Char) (ret : lept_status)
    (h : lept_parse v json = some (ret, v1)) :
    (ret ≠ LEPT_PARSE_OK → v1.type = LEPT_NULL) ∧
    (ret = LEPT_PARSE_EXPECT_VALUE ∨ ret = LEPT_PARSE_INVALID_VALUE → v1.n = v.n) ∧
    ((∃ size, lept_validate_number (lept_parse_whitespace ⟨json⟩).json = some (some size)) →
      v1.n = (strtod (lept_parse_whitespace ⟨json⟩).json).value) ∧
    ((¬ ∃ size, lept_validate_number (lept_parse_whitespace ⟨json⟩).json = some (some size)) →
      v1.n = v.n) := by
  obtain ⟨h1, h2, h3⟩ := lept_parse_payload_cases v v1 json ret h
  refine ⟨h1, h2, ?_, ?_⟩
  · rintro ⟨size, hacc⟩
    have hacc' : lept_validate_number (skip_ws json) = some (some size) := hacc
    show v1.n = (strtod (skip_ws json)).value
    rw [lept_validate_number_eq] at hacc'
    cases hve : validate_end (skip_ws json) with
    | none => rw [hve] at hacc'; simp at hacc'
    | some r =>
      have hd := validate_end_dispatch _ _ hve
      have hv : lept_parse_value ⟨skip_ws json⟩ ⟨v.n, LEPT_NULL⟩ =
          if overflowed (strtod (skip_ws json)) then
            some (LEPT_PARSE_NUMBER_TOO_BIG, ⟨skip_ws json⟩,
              ⟨(strtod (skip_ws json)).value, LEPT_NULL⟩)
          else some (LEPT_PARSE_OK, ⟨r⟩, ⟨(strtod (skip_ws json)).value, LEPT_NUMBER⟩) := by
        rw [lept_parse_value_number ⟨skip_ws json⟩ _ hd.1 hd.2.1 hd.2.2.1 hd.2.2.2,
          lept_parse_number_eq]
        simp only [hve]
      by_cases ho : overflowed (strtod (skip_ws json)) = true
      · rw [if_pos ho] at hv
        rw [lept_parse_of_value v _ _ _ _ hv] at h
        simp only [if_false, Option.some.injEq, Prod.mk.injEq,
          show ¬ LEPT_PARSE_NUMBER_TOO_BIG = LEPT_PARSE_OK from by decide] at h
        rw [← h.2]
      · rw [if_neg ho] at hv
        rw [lept_parse_of_value v _ _ _ _ hv] at h
        by_cases he : deref (skip_ws r) = '\x00'
        · simp only [he, if_true, ne_eq, not_true_eq_false, if_false, Option.some.injEq,
            Prod.mk.injEq] at h
          rw [← h.2]
        · simp only [he, if_true, ne_eq, not_false_eq_true, Option.some.injEq,
            Prod.mk.injEq] at h
          rw [← h.2]
  · intro hno
    rcases h3 with h3 | ⟨hacc, _⟩
    · exact h3
    · exact absurd hacc hno

theorem lept_parse_payload_witness :
    (⟨.finite false 7 0, LEPT_NULL⟩ : lept_value).n =
        (⟨.finite false 7 0, LEPT_TRUE⟩ : lept_value).n ∧
      (⟨.finite false (2 ^ 52) (-52), LEPT_NULL⟩ : lept_value).n =
        (strtod (lept_parse_whitespace ⟨[' ', '1', ' ', '2']⟩).json).value :=
  ⟨(lept_parse_payload ⟨.finite false 7 0, LEPT_TRUE⟩ ⟨.finite false 7 0, LEPT_NULL⟩ ['1', '.']
      LEPT_PARSE_INVALID_VALUE (by decide)).2.1 (Or.inr rfl),
   (lept_parse_payload ⟨.finite false 7 0, LEPT_TRUE⟩ ⟨.finite false (2 ^ 52) (-52), LEPT_NULL⟩
      [' ', '1', ' ', '2'] LEPT_PARSE_ROOT_NOT_SINGULAR (by decide)).2.2.1 ⟨1, by decide⟩⟩

/-! ## Trailing whitespace -/

/-- The character under a pointer into a run of whitespace is the terminator
or one of the four whitespace characters. -/
theorem deref_all_ws (w : List Char) (hw : all_ws w) :
    deref w ∈ ['\x00', ' ', '\t', '\n', '\r'] := by
  cases w with
  | nil => simp [deref_nil]
  | cons a w =>
    have := hw a (List.mem_cons_self _ _)
    simp only [ws_chars, List.mem_cons, List.mem_singleton, List.not_mem_nil, or_false] at this
    simp only [deref_cons, List.mem_cons, List.mem_singleton, List.not_mem_nil, or_false]
    exact Or.inr this

theorem inert_deref (p : Char → Bool) (hp : inert p) (w : List Char) (hw : all_ws w) :
    p (deref w) = false := by
  have := deref_all_ws w hw
  simp only [List.mem_cons, List.mem_singleton, List.not_mem_nil, or_false] at this
  rcases this with h | h | h | h | h <;> rw [h]
  · exact hp.1
  · exact hp.2.1
  · exact hp.2.2.1
  · exact hp.2.2.2.1
  · exact hp.2.2.2.2

/-- An inert test cannot tell a text from the text followed by whitespace. -/
theorem inert_deref_append (p : Char → Bool) (hp : inert p) (s w : List Char)
    (hw : all_ws w) : p (deref (s ++ w)) = p (deref s) := by
  cases s with
  | nil => rw [List.nil_append, inert_deref p hp w hw, deref_nil, hp.1]
  | cons a s => rfl

theorem inert_eq (c : Char) (hc : c ∉ ['\x00', ' ', '\t', '\n', '\r']) :
    inert (fun ch => decide (ch = c)) := by
  simp only [List.mem_cons, List.mem_singleton, List.not_mem_nil, or_false, not_or] at hc
  simp only [inert, decide_eq_false_iff_not]
  exact ⟨fun h => hc.1 h.symm, fun h => hc.2.1 h.symm, fun h => hc.2.2.1 h.symm,
    fun h => hc.2.2.2.1 h.symm, fun h => hc.2.2.2.2 h.symm⟩

theorem deref_eq_append (c : Char) (hc : c ∉ ['\x00', ' ', '\t', '\n', '\r'])
    (s w : List Char) (hw : all_ws w) : deref (s ++ w) = c ↔ deref s = c := by
  have := inert_deref_append _ (inert_eq c hc) s w hw
  simpa using this

theorem tail_append_of_deref (c : Char) (hc : c ≠ '\x00') (s w : List Char)
    (h : deref s = c) : (s ++ w).tail = s.tail ++ w := by
  cases s with
  | nil => exact absurd h.symm hc
  | cons a s => rfl

theorem inert_ISDIGIT : inert ISDIGIT := by unfold inert; decide

theorem inert_ISDIGIT1TO9 : inert ISDIGIT1TO9 := by unfold inert; decide

theorem skip_ws_append_ws (s w : List Char) (hw : all_ws w) :
    (skip_ws s = [] ∧ skip_ws (s ++ w) = []) ∨
      (skip_ws s ≠ [] ∧ skip_ws (s ++ w) = skip_ws s ++ w) := by
  induction s with
  | nil =>
    left
    exact ⟨rfl, by rw [List.nil_append]; exact skip_ws_all w ((all_ws_iff w).mp hw)⟩
  | cons a s ih =>
    by_cases ha : is_ws a = true
    · simpa [skip_ws, ha] using ih
    · right
      simp [skip_ws, ha]

theorem skip_digits_append_ws (s w : List Char) (hw : all_ws w) :
    skip_digits (s ++ w) = skip_digits s ++ w := by
  induction s with
  | nil =>
    cases w with
    | nil => rfl
    | cons a w' =>
      have := inert_deref ISDIGIT inert_ISDIGIT (a :: w') hw
      simp only [deref_cons] at this
      simp [skip_digits, this]
  | cons a s ih =>
    by_cases ha : ISDIGIT a = true
    · simp [skip_digits, ha, ih]
    · simp [skip_digits, ha]

theorem after_sign_append_ws (s w : List Char) (hw : all_ws w) :
    after_sign (s ++ w) = after_sign s ++ w := by
  unfold after_sign
  have h := deref_eq_append '-' (by decide) s w hw
  by_cases hd : deref s = '-'
  · rw [if_pos (h.mpr hd), if_pos hd, tail_append_of_deref '-' (by decide) s w hd]
  · rw [if_neg (fun x => hd (h.mp x)), if_neg hd]

theorem after_int_append_ws (s w : List Char) (hw : all_ws w) :
    after_int (s ++ w) = (after_int s).map (fun r => r ++ w) := by
  unfold after_int
  have h := deref_eq_append '0' (by decide) s w hw
  have h9 := inert_deref_append ISDIGIT1TO9 inert_ISDIGIT1TO9 s w hw
  by_cases hd : deref s = '0'
  · rw [if_pos (h.mpr hd), if_pos hd, tail_append_of_deref '0' (by decide) s w hd]
    rfl
  · rw [if_neg (fun x => hd (h.mp x)), if_neg hd, h9]
    by_cases hn : ISDIGIT1TO9 (deref s) = true
    · have hne : deref s ≠ '\x00' := (ISDIGIT_ne _ (ISDIGIT_of_1TO9 _ hn)).2.2.2.2.2.2.2.2.1
      rw [if_pos hn, if_pos hn, tail_append_of_deref (deref s) hne s w rfl,
        skip_digits_append_ws _ _ hw]
      rfl
    · rw [if_neg hn, if_neg hn]
      rfl

theorem after_frac_append_ws (s w : List Char) (hw : all_ws w) :
    after_frac (s ++ w) = (after_frac s).map (fun r => r ++ w) := by
  unfold after_frac
  have h := deref_eq_append '.' (by decide) s w hw
  by_cases hd : deref s = '.'
  · rw [if_pos (h.mpr hd), if_pos hd, tail_append_of_deref '.' (by decide) s w hd,
      inert_deref_append ISDIGIT inert_ISDIGIT _ w hw, skip_digits_append_ws _ _ hw]
    by_cases hn : ISDIGIT (deref s.tail) = true
    · rw [if_pos hn, if_pos hn]; rfl
    · rw [if_neg hn, if_neg hn]; rfl
  · rw [if_neg (fun x => hd (h.mp x)), if_neg hd]
    rfl

theorem after_exp_sign_append_ws (s w : List Char) (hw : all_ws w) :
    after_exp_sign (s ++ w) = after_exp_sign s ++ w := by
  unfold after_exp_sign
  have hp := deref_eq_append '+' (by decide) s w hw
  have hm := deref_eq_append '-' (by decide) s w hw
  by_cases hd : deref s = '+' ∨ deref s = '-'
  · have hd' : deref (s ++ w) = '+' ∨ deref (s ++ w) = '-' := by
      rcases hd with h | h
      · exact Or.inl (hp.mpr h)
      · exact Or.inr (hm.mpr h)
    have hne : deref s ≠ '\x00' := by
      rcases hd with h | h <;> rw [h] <;> decide
    rw [if_pos hd', if_pos hd, tail_append_of_deref (deref s) hne s w rfl]
  · have hd' : ¬ (deref (s ++ w) = '+' ∨ deref (s ++ w) = '-') := by
      rintro (h | h)
      · exact hd (Or.inl (hp.mp h))
      · exact hd (Or.inr (hm.mp h))
    rw [if_neg hd', if_neg hd]

theorem after_exp_append_ws (s w : List Char) (hw : all_ws w) :
    after_exp (s ++ w) = (after_exp s).map (fun r => r ++ w) := by
  unfold after_exp
  have he := deref_eq_append 'e' (by decide) s w hw
  have hE := deref_eq_append 'E' (by decide) s w hw
  by_cases hd : deref s = 'e' ∨ deref s = 'E'
  · have hd' : deref (s ++ w) = 'e' ∨ deref (s ++ w) = 'E' := by
      rcases hd with h | h
      · exact Or.inl (he.mpr h)
      · exact Or.inr (hE.mpr h)
    have hne : deref s ≠ '\x00' := by
      rcases hd with h | h <;> rw [h] <;> decide
    rw [if_pos hd', if_pos hd, tail_append_of_deref (deref s) hne s w rfl,
      after_exp_sign_append_ws _ _ hw, inert_deref_append ISDIGIT inert_ISDIGIT _ w hw,
      skip_digits_append_ws _ _ hw]
    by_cases hn : ISDIGIT (deref (after_exp_sign s.tail)) = true
    · rw [if_pos hn, if_pos hn]; rfl
    · rw [if_neg hn, if_neg hn]; rfl
  · have hd' : ¬ (deref (s ++ w) = 'e' ∨ deref (s ++ w) = 'E') := by
      rintro (h | h)
      · exact hd (Or.inl (he.mp h))
      · exact hd (Or.inr (hE.mp h))
    rw [if_neg hd', if_neg hd]
    rfl

/-- The validator on a text followed by whitespace stops where it stops on
the text alone. -/
theorem validate_end_append_ws (s w : List Char) (hw : all_ws w) :
    validate_end (s ++ w) = (validate_end s).map (fun r => r ++ w) := by
  unfold validate_end
  rw [after_sign_append_ws s w hw, after_int_append_ws _ w hw]
  cases after_int (after_sign s) with
  | none => rfl
  | some s1 =>
    simp only [Option.map_some', Option.some_bind]
    rw [after_frac_append_ws s1 w hw]
    cases after_frac s1 with
    | none => rfl
    | some s2 =>
      simp only [Option.map_some', Option.some_bind]
      exact after_exp_append_ws s2 w hw

theorem inert_isspace_not (p : Char → Bool) (hp : inert p) (ch : Char)
    (h : is_ws ch = true) : p ch = false := by
  rcases (is_ws_iff ch).mp h with h | h | h | h <;> rw [h]
  · exact hp.2.1
  · exact hp.2.2.1
  · exact hp.2.2.2.1
  · exact hp.2.2.2.2

theorem isspace_of_is_ws (ch : Char) (h : is_ws ch = true) : isspace ch = true := by
  rcases (is_ws_iff ch).mp h with h | h | h | h <;> rw [h] <;> decide

theorem skip_space_all_ws (w : List Char) (hw : all_ws w) : skip_space w = [] := by
  induction w with
  | nil => rfl
  | cons a w ih =>
    have ha := isspace_of_is_ws a ((all_ws_iff _).mp hw a (List.mem_cons_self _ _))
    simp only [skip_space, ha, if_true]
    exact ih (fun ch h => hw ch (List.mem_cons_of_mem _ h))

theorem skip_space_append_ws (s w : List Char) (hw : all_ws w) :
    (skip_space s = [] ∧ skip_space (s ++ w) = []) ∨
      (skip_space s ≠ [] ∧ skip_space (s ++ w) = skip_space s ++ w) := by
  induction s with
  | nil =>
    left
    exact ⟨rfl, by rw [List.nil_append]; exact skip_space_all_ws w hw⟩
  | cons a s ih =>
    by_cases ha : isspace a = true
    · simpa [skip_space, ha] using ih
    · right
      simp [skip_space, ha]

theorem read_digits_append_ws (t w : List Char) (hw : all_ws w) (acc cnt : Nat) :
    read_digits acc cnt (t ++ w) =
      ((read_digits acc cnt t).1, (read_digits acc cnt t).2.1,
        (read_digits acc cnt t).2.2 ++ w) := by
  induction t generalizing acc cnt with
  | nil =>
    cases w with
    | nil => rfl
    | cons a w' =>
      have := inert_deref ISDIGIT inert_ISDIGIT (a :: w') hw
      simp only [deref_cons] at this
      simp [read_digits, this]
  | cons a t ih =>
    by_cases ha : ISDIGIT a = true
    · simp only [List.cons_append, read_digits, ha, if_true]
      exact ih _ _
    · simp [read_digits, ha]

theorem hex_value_ws (ch : Char) (h : is_ws ch = true) : hex_value ch = none := by
  rcases (is_ws_iff ch).mp h with h | h | h | h <;> rw [h] <;> decide

theorem read_hex_digits_append_ws (t w : List Char) (hw : all_ws w) (acc cnt : Nat) :
    read_hex_digits acc cnt (t ++ w) =
      ((read_hex_digits acc cnt t).1, (read_hex_digits acc cnt t).2.1,
        (read_hex_digits acc cnt t).2.2 ++ w) := by
  induction t generalizing acc cnt with
  | nil =>
    cases w with
    | nil => rfl
    | cons a w' =>
      have := hex_value_ws a ((all_ws_iff _).mp hw a (List.mem_cons_self _ _))
      simp [read_hex_digits, this]
  | cons a t ih =>
    cases ha : hex_value a with
    | none => simp [read_hex_digits, ha]
    | some d =>
      simp only [List.cons_append, read_hex_digits, ha]
      exact ih _ _

/-- The sign of an exponent, as `read_exponent` reads it. -/
theorem exponent_sign_append_ws (rest w : List Char) (hw : all_ws w) :
    (match (rest ++ w : List Char) with
      | '-' :: r => (true, r)
      | '+' :: r => (false, r)
      | _ => (false, rest ++ w)) =
    ((match rest with
      | '-' :: r => (true, r)
      | '+' :: r => (false, r)
      | _ => (false, rest)).1,
     (match rest with
      | '-' :: r => (true, r)
      | '+' :: r => (false, r)
      | _ => (false, rest)).2 ++ w) := by
  cases rest with
  | nil =>
    cases w with
    | nil => rfl
    | cons a w' =>
      have ha := is_ws_ne a ((all_ws_iff _).mp hw a (List.mem_cons_self _ _))
      simp only [List.nil_append]
      split
      · rename_i heq; exact absurd (List.cons.inj heq).1 ha.1
      · rename_i heq; exact absurd (List.cons.inj heq).1 ha.2.1
      · rfl
  | cons c r =>
    by_cases hm : c = '-'
    · subst hm; rfl
    · by_cases hp : c = '+'
      · subst hp; rfl
      · have e1 : (match (c :: r ++ w : List Char) with
            | '-' :: r => (true, r)
            | '+' :: r => (false, r)
            | _ => (false, c :: r ++ w)) = (false, c :: r ++ w) := by
          split
          · rename_i heq; exact absurd (List.cons.inj heq).1 hm
          · rename_i heq; exact absurd (List.cons.inj heq).1 hp
          · rfl
        have e2 : (match (c :: r : List Char) with
            | '-' :: r => (true, r)
            | '+' :: r => (false, r)
            | _ => (false, c :: r)) = (false, c :: r) := by
          split
          · rename_i heq; exact absurd (List.cons.inj heq).1 hm
          · rename_i heq; exact absurd (List.cons.inj heq).1 hp
          · rfl
        rw [e1, e2]

theorem read_exponent_append_ws (lo up : Char) (hlo : is_ws lo = false) (hup : is_ws up = false)
    (t w : List Char) (hw : all_ws w) :
    read_exponent lo up (t ++ w) = read_exponent lo up t := by
  cases t with
  | nil =>
    cases w with
    | nil => rfl
    | cons a w' =>
      have ha : is_ws a = true := (all_ws_iff _).mp hw a (List.mem_cons_self _ _)
      have h1 : a ≠ lo := by rintro rfl; rw [ha] at hlo; exact absurd hlo (by decide)
      have h2 : a ≠ up := by rintro rfl; rw [ha] at hup; exact absurd hup (by decide)
      simp [read_exponent, h1, h2]
  | cons c rest =>
    simp only [List.cons_append, read_exponent]
    by_cases hc : c = lo ∨ c = up
    · simp only [hc, if_true]
      rw [exponent_sign_append_ws rest w hw]
      simp only [read_digits_append_ws _ w hw]
    · simp only [hc, if_false]

/-- The optional radix point and the digits after it, on a text followed by
whitespace. -/
theorem radix_append_ws (f : List Char → Nat × Nat × List Char) (w : List Char)
    (hw : all_ws w)
    (hf : ∀ r, f (r ++ w) = ((f r).1, (f r).2.1, (f r).2.2 ++ w)) (a : Nat) (rest : List Char) :
    (match (rest ++ w : List Char) with
      | '.' :: r => f r
      | r => (a, 0, r)) =
    ((match rest with
      | '.' :: r => f r
      | r => (a, 0, r)).1,
     (match rest with
      | '.' :: r => f r
      | r => (a, 0, r)).2.1,
     (match rest with
      | '.' :: r => f r
      | r => (a, 0, r)).2.2 ++ w) := by
  cases rest with
  | nil =>
    cases w with
    | nil => rfl
    | cons c w' =>
      have hc := is_ws_ne c ((all_ws_iff _).mp hw c (List.mem_cons_self _ _))
      simp only [List.nil_append]
      split
      · rename_i heq; exact absurd (List.cons.inj heq).1 hc.2.2.1
      · rfl
  | cons c r =>
    by_cases hd : c = '.'
    · subst hd
      exact hf r
    · have e1 : (match (c :: r ++ w : List Char) with
          | '.' :: r => f r
          | r => (a, 0, r)) = (a, 0, c :: r ++ w) := by
        split
        · rename_i heq; exact absurd (List.cons.inj heq).1 hd
        · rfl
      have e2 : (match (c :: r : List Char) with
          | '.' :: r => f r
          | r => (a, 0, r)) = (a, 0, c :: r) := by
        split
        · rename_i heq; exact absurd (List.cons.inj heq).1 hd
        · rfl
      rw [e1, e2]

theorem decimal_subject_append_ws (t w : List Char) (hw : all_ws w) :
    decimal_subject (t ++ w) = decimal_subject t := by
  unfold decimal_subject
  simp only [read_digits_append_ws t w hw]
  rw [radix_append_ws (fun r => read_digits (read_digits 0 0 t).1 0 r) w hw
    (fun r => read_digits_append_ws r w hw _ _)]
  simp only [read_exponent_append_ws 'e' 'E' (by decide) (by decide) _ w hw]

theorem hex_subject_append_ws (t w : List Char) (hw : all_ws w) :
    hex_subject (t ++ w) = hex_subject t := by
  cases t with
  | nil =>
    cases w with
    | nil => rfl
    | cons c w' =>
      have hc : c ≠ '0' := by
        have := (all_ws_iff _).mp hw c (List.mem_cons_self _ _)
        rintro rfl
        exact absurd this (by decide)
      simp only [List.nil_append]
      unfold hex_subject
      split
      · rename_i heq; exact absurd (List.cons.inj heq).1 hc
      · rfl
  | cons c t1 =>
    by_cases hc : c = '0'
    · subst hc
      cases t1 with
      | nil =>
        cases w with
        | nil => rfl
        | cons x w' =>
          have hx := is_ws_ne x ((all_ws_iff _).mp hw x (List.mem_cons_self _ _))
          simp [hex_subject, hx.2.2.2.2.2.2.2.2.2.1, hx.2.2.2.2.2.2.2.2.2.2.1]
      | cons x r =>
        simp only [List.cons_append, hex_subject]
        by_cases hx : x = 'x' ∨ x = 'X'
        · simp only [hx, if_true]
          simp only [read_hex_digits_append_ws r w hw]
          rw [radix_append_ws (fun r' => read_hex_digits (read_hex_digits 0 0 r).1 0 r') w hw
            (fun r' => read_hex_digits_append_ws r' w hw _ _)]
          simp only [read_exponent_append_ws 'p' 'P' (by decide) (by decide) _ w hw]
        · simp only [hx, if_false]
    · have e1 : hex_subject (c :: t1 ++ w) = none := by
        unfold hex_subject
        split
        · rename_i heq; exact absurd (List.cons.inj heq).1 hc
        · rfl
      have e2 : hex_subject (c :: t1) = none := by
        unfold hex_subject
        split
        · rename_i heq; exact absurd (List.cons.inj heq).1 hc
        · rfl
      rw [e1, e2]

theorem toLower_ws (ch : Char) (h : is_ws ch = true) : ch.toLower = ch := by
  rcases (is_ws_iff ch).mp h with h | h | h | h <;> rw [h] <;> decide

theorem starts_with_word_append_ws (t w : List Char) (hw : all_ws w) (a b c : Char)
    (ha : is_ws a = false) (hb : is_ws b = false) (hc : is_ws c = false) :
    starts_with_word (t ++ w) [a, b, c] = starts_with_word t [a, b, c] := by
  have hne : ∀ x ∈ w, ∀ y : Char, is_ws y = false → x.toLower ≠ y := by
    intro x hx y hy heq
    have hxw := (all_ws_iff _).mp hw x hx
    rw [toLower_ws x hxw] at heq
    rw [heq, hy] at hxw
    exact absurd hxw (by decide)
  unfold starts_with_word
  simp only [List.length_cons, List.length_nil]
  rcases t with _ | ⟨t0, _ | ⟨t1, _ | ⟨t2, t3⟩⟩⟩
  · rcases w with _ | ⟨w0, w'⟩
    · rfl
    · have := hne w0 (List.mem_cons_self _ _) a ha
      cases w' <;> simp [this]
  · rcases w with _ | ⟨w0, w'⟩
    · rfl
    · have := hne w0 (List.mem_cons_self _ _) b hb
      cases w' <;> simp [this]
  · rcases w with _ | ⟨w0, w'⟩
    · rfl
    · have := hne w0 (List.mem_cons_self _ _) c hc
      simp [this]
  · simp

theorem strtod_eq_at (nptr : List Char) : strtod nptr = strtod_at (skip_space nptr) := rfl

theorem strtod_at_signed (b : Bool) (t w : List Char) (hw : all_ws w) :
    (match hex_subject (t ++ w) with
      | some (m, x) => binary64_round b (scale m 2 x).1 (scale m 2 x).2
      | none =>
        match decimal_subject (t ++ w) with
        | some (m, x) => binary64_round b (scale m 10 x).1 (scale m 10 x).2
        | none =>
          if starts_with_word (t ++ w) ['i', 'n', 'f'] then (⟨.inf b, false⟩ : strtod_result)
          else if starts_with_word (t ++ w) ['n', 'a', 'n'] then ⟨.nan, false⟩
          else ⟨.finite false 0 0, false⟩) =
    (match hex_subject t with
      | some (m, x) => binary64_round b (scale m 2 x).1 (scale m 2 x).2
      | none =>
        match decimal_subject t with
        | some (m, x) => binary64_round b (scale m 10 x).1 (scale m 10 x).2
        | none =>
          if starts_with_word t ['i', 'n', 'f'] then (⟨.inf b, false⟩ : strtod_result)
          else if starts_with_word t ['n', 'a', 'n'] then ⟨.nan, false⟩
          else ⟨.finite false 0 0, false⟩) := by
  rw [hex_subject_append_ws t w hw, decimal_subject_append_ws t w hw,
    starts_with_word_append_ws t w hw 'i' 'n' 'f' (by decide) (by decide) (by decide),
    starts_with_word_append_ws t w hw 'n' 'a' 'n' (by decide) (by decide) (by decide)]

theorem strtod_at_append_ws (j w : List Char) (hw : all_ws w) (hj : j ≠ []) :
    strtod_at (j ++ w) = strtod_at j := by
  cases j with
  | nil => exact absurd rfl hj
  | cons c r =>
    by_cases hm : c = '-'
    · subst hm
      exact strtod_at_signed true r w hw
    · by_cases hp : c = '+'
      · subst hp
        exact strtod_at_signed false r w hw
      · have e1 : (match (c :: r ++ w : List Char) with
            | '-' :: r => (true, r)
            | '+' :: r => (false, r)
            | _ => (false, c :: r ++ w)) = (false, c :: r ++ w) := by
          split
          · rename_i heq; exact absurd (List.cons.inj heq).1 hm
          · rename_i heq; exact absurd (List.cons.inj heq).1 hp
          · rfl
        have e2 : (match (c :: r : List Char) with
            | '-' :: r => (true, r)
            | '+' :: r => (false, r)
            | _ => (false, c :: r)) = (false, c :: r) := by
          split
          · rename_i heq; exact absurd (List.cons.inj heq).1 hm
          · rename_i heq; exact absurd (List.cons.inj heq).1 hp
          · rfl
        simp only [List.cons_append] at e1
        simp only [strtod_at, List.cons_append, e1, e2]
        exact strtod_at_signed false (c :: r) w hw

/-- `strtod` returns the same on a text and on the text followed by whitespace. -/
theorem strtod_append_ws (s w : List Char) (hw : all_ws w) : strtod (s ++ w) = strtod s := by
  rw [strtod_eq_at, strtod_eq_at]
  rcases skip_space_append_ws s w hw with ⟨h1, h2⟩ | ⟨h1, h2⟩
  · rw [h1, h2]
  · rw [h2]
    exact strtod_at_append_ws _ w hw h1

theorem prefix_append_ws (ks rest w : List Char) (hks : ∀ ch ∈ ks, is_ws ch = false)
    (hw : all_ws w) : ks <+: rest ++ w ↔ ks <+: rest := by
  induction ks generalizing rest with
  | nil => simp
  | cons a ks ih =>
    have ha := hks a (List.mem_cons_self _ _)
    have hks' : ∀ ch ∈ ks, is_ws ch = false := fun ch h => hks ch (List.mem_cons_of_mem _ h)
    cases rest with
    | nil =>
      cases w with
      | nil => simp
      | cons b w' =>
        have hb : is_ws b = true := (all_ws_iff _).mp hw b (List.mem_cons_self _ _)
        have hab : a ≠ b := by rintro rfl; rw [ha] at hb; exact absurd hb (by decide)
        simp [List.cons_prefix_cons, hab]
    | cons c r =>
      simp only [List.cons_append, List.cons_prefix_cons]
      rw [ih r hks']

theorem deref_append_ne_nil (j w : List Char) (hj : j ≠ []) : deref (j ++ w) = deref j :=
  deref_append_of_ne_nil j w hj

/-- The dispatcher on a non-empty text followed by whitespace: the same
status and value, and the pointer left followed by the same whitespace. -/
theorem lept_parse_value_append_ws (j w : List Char) (v : lept_value) (hw : all_ws w)
    (hj : j ≠ []) :
    lept_parse_value ⟨j ++ w⟩ v =
      (lept_parse_value ⟨j⟩ v).map (fun x => (x.1, ⟨x.2.1.json ++ w⟩, x.2.2)) := by
  have hd := deref_append_ne_nil j w hj
  rcases lept_parse_value_cases j v with ⟨k, ks, ty, rest, hmem, hjk, hv⟩ | ⟨h0, hv⟩ | ⟨hn, hv⟩
  · rw [hv]
    subst hjk
    have hkf := keyword_first k ks ty hmem
    have hks : ∀ ch ∈ ks, is_ws ch = false :=
      fun ch h => hkf.2.2.2.1 ch (List.mem_cons_of_mem _ h)
    have hv2 := lept_parse_value_literal (rest ++ w) v k ks ty hmem
    rw [List.cons_append, hv2]
    by_cases hp : ks <+: rest
    · rw [if_pos hp, if_pos ((prefix_append_ws ks rest w hks hw).mpr hp)]
      simp only [Option.map_some']
      rw [List.drop_append_of_le_length hp.length_le]
    · rw [if_neg hp, if_neg (fun h => hp ((prefix_append_ws ks rest w hks hw).mp h))]
      rfl
  · rw [hv, lept_parse_value_end ⟨j ++ w⟩ v (by rw [hd]; exact h0)]
    rfl
  · rw [hv, lept_parse_value_number ⟨j ++ w⟩ v (by rw [hd]; exact hn.1)
      (by rw [hd]; exact hn.2.1) (by rw [hd]; exact hn.2.2.1) (by rw [hd]; exact hn.2.2.2),
      lept_parse_number_eq]
    simp only [validate_end_append_ws j w hw, strtod_append_ws j w hw]
    cases validate_end j with
    | none => rfl
    | some r =>
      simp only [Option.map_some']
      split_ifs <;> rfl

theorem deref_skip_ws_append_ws (r w : List Char) (hw : all_ws w) :
    deref (skip_ws (r ++ w)) = deref (skip_ws r) := by
  rcases skip_ws_append_ws r w hw with ⟨h1, h2⟩ | ⟨h1, h2⟩
  · rw [h1, h2]
  · rw [h2, deref_append_of_ne_nil _ _ h1]

/-- C11: leading and trailing whitespace is ignored: for every text `s` and
all runs of whitespace `w1` and `w2`, `lept_parse` on `w1 ++ s ++ w2` returns
the same status and leaves the same value (type and payload) as on `s`. -/
theorem lept_parse_ignores_whitespace (v : lept_value) (s w1 w2 : List Char)
    (hw1 : all_ws w1) (hw2 : all_ws w2) :
    lept_parse v (w1 ++ s ++ w2) = lept_parse v s := by
  rw [lept_parse_eq, lept_parse_eq, List.append_assoc, skip_ws_all_ws _ _ hw1]
  rcases skip_ws_append_ws s w2 hw2 with ⟨h1, h2⟩ | ⟨h1, h2⟩
  · rw [h1, h2]
  · rw [h2, lept_parse_value_append_ws _ w2 _ hw2 h1]
    cases lept_parse_value ⟨skip_ws s⟩ ⟨v.n, LEPT_NULL⟩ with
    | none => rfl
    | some x =>
      obtain ⟨ret, c, v1⟩ := x
      simp only [Option.map_some', deref_skip_ws_append_ws c.json w2 hw2]

theorem lept_parse_ignores_whitespace_witness :
    lept_parse ⟨.nan, LEPT_TRUE⟩ ([' ', ' '] ++ ['-', '0', '.', '5', 'e', '-', '3'] ++ [' ', ' ']) =
      lept_parse ⟨.nan, LEPT_TRUE⟩ ['-', '0', '.', '5', 'e', '-', '3'] :=
  lept_parse_ignores_whitespace ⟨.nan, LEPT_TRUE⟩ ['-', '0', '.', '5', 'e', '-', '3']
    [' ', ' '] [' ', ' '] (by decide) (by decide)

/-! ## Checked accesses never fail -/

theorem read_eq (p : List Char) : read p = some (deref p) := by
  cases p <;> simp [read, index, deref]

theorem skip_while_checked_eq (test : Char → Bool) (f : List Char → List Char)
    (h0 : test '\x00' = false) (hnil : f [] = [])
    (hcons : ∀ a r, f (a :: r) = if test a = true then f r else a :: r)
    (p : List Char) (fuel : Nat) (hf : p.length < fuel) :
    skip_while_checked test fuel p = some (f p) := by
  induction p generalizing fuel with
  | nil =>
    cases fuel with
    | zero => exact absurd hf (Nat.lt_irrefl _)
    | succ fuel => simp [skip_while_checked, read_eq, deref_nil, h0, hnil]
  | cons a r ih =>
    cases fuel with
    | zero => exact absurd hf (Nat.not_lt_zero _)
    | succ fuel =>
      have hlt : r.length < fuel := by simpa using hf
      simp only [skip_while_checked, read_eq, deref_cons, advance, hcons]
      by_cases ha : test a = true
      · simp only [ha, if_true]
        exact ih fuel hlt
      · simp only [ha, if_false]
        rfl

theorem skip_ws_checked_eq (p : List Char) :
    skip_while_checked is_ws (p.length + 1) p = some (skip_ws p) :=
  skip_while_checked_eq is_ws skip_ws (by decide) rfl (fun _ _ => rfl) p _ (Nat.lt_succ_self _)

theorem skip_digits_checked_eq (s : List Char) : skip_digits_checked s = some (skip_digits s) :=
  skip_while_checked_eq ISDIGIT skip_digits (by decide) rfl (fun _ _ => rfl) s _
    (Nat.lt_succ_self _)

theorem lept_parse_whitespace_checked_eq (c : lept_context) :
    lept_parse_whitespace_checked c = some (lept_parse_whitespace c) := by
  simp [lept_parse_whitespace_checked, skip_ws_checked_eq, lept_parse_whitespace]

theorem advance_of_deref (s : List Char) (ch : Char) (h : deref s = ch) (h0 : ch ≠ '\x00') :
    advance s = some s.tail := by
  cases s with
  | nil => exact absurd h.symm h0
  | cons a s => rfl

theorem validate_step_checked_eq (num s : List Char) (st : LEPT_VALIDATE_STATE) :
    validate_step_checked num s st = some (validate_step num s st) := by
  cases st
  · simp only [validate_step_checked, validate_step, BEGIN_WITH_CHAR, read_eq, Option.bind_eq_bind,
      Option.some_bind, Option.pure_def]
    by_cases h : deref s = '-'
    · simp [h, advance_of_deref s '-' h (by decide)]
    · simp [h]
  · simp only [validate_step_checked, validate_step, BEGIN_WITH_CHAR, read_eq, Option.bind_eq_bind,
      Option.some_bind, Option.pure_def]
    by_cases h : deref s = '0'
    · simp [h, advance_of_deref s '0' h (by decide)]
    · by_cases h9 : ISDIGIT1TO9 (deref s) = true
      · have hne : deref s ≠ '\x00' := (ISDIGIT_ne _ (ISDIGIT_of_1TO9 _ h9)).2.2.2.2.2.2.2.2.1
        simp [h, h9, advance_of_deref s _ rfl hne, skip_digits_checked_eq]
      · simp [h, h9]
  · simp only [validate_step_checked, validate_step, BEGIN_WITH_CHAR, read_eq, Option.bind_eq_bind,
      Option.some_bind, Option.pure_def]
    by_cases h : deref s = '.'
    · by_cases hd : ISDIGIT (deref s.tail) = true
      · simp [h, hd, advance_of_deref s '.' h (by decide), read_eq, skip_digits_checked_eq]
      · simp [h, hd, advance_of_deref s '.' h (by decide), read_eq]
    · simp [h]
  · simp only [validate_step_checked, validate_step, BEGIN_WITH_CHAR_or, read_eq,
      Option.bind_eq_bind, Option.some_bind, Option.pure_def]
    by_cases h : (if deref s = 'e' then true
        else if (false || decide (deref s = 'E')) = true then true else false) = true
    · have hne : deref s ≠ '\x00' := by
        intro h0
        rw [h0] at h
        exact absurd h (by decide)
      simp only [h, if_true, advance_of_deref s _ rfl hne, Option.some_bind, read_eq]
      by_cases hs : (if deref s.tail = '+' then true
          else if (false || decide (deref s.tail = '-')) = true then true else false) = true
      · have hne2 : deref s.tail ≠ '\x00' := by
          intro h0
          rw [h0] at hs
          exact absurd hs (by decide)
        simp only [hs, if_true, advance_of_deref s.tail _ rfl hne2, Option.some_bind, read_eq]
        by_cases hd : ISDIGIT (deref s.tail.tail) = true
        · simp [hd, skip_digits_checked_eq]
        · simp [hd]
      · simp only [hs, if_false, Option.pure_def, Option.some_bind, read_eq,
          Bool.false_eq_true]
        by_cases hd : ISDIGIT (deref s.tail) = true
        · simp [hd, skip_digits_checked_eq]
        · simp [hd]
    · simp only [h, if_false, Bool.false_eq_true]
  · rfl

theorem validate_loop_checked_eq (num : List Char) (fuel : Nat) (s : List Char)
    (st : LEPT_VALIDATE_STATE) :
    validate_loop_checked num fuel s st = validate_loop num fuel s st := by
  induction fuel generalizing s st with
  | zero => rfl
  | succ fuel ih =>
    simp only [validate_loop_checked, validate_loop, validate_step_checked_eq]
    cases validate_step num s st with
    | next s1 st1 => exact ih s1 st1
    | reject => rfl
    | accept size => rfl

theorem lept_validate_number_checked_eq (num : List Char) :
    lept_validate_number_checked num = lept_validate_number num :=
  validate_loop_checked_eq num 5 num VALIDATE_START

/-- The entry point on a text whose first letter after the whitespace starts a
keyword that the text does not spell out. -/
theorem lept_parse_misspelt_text (v : lept_value) (w r kw : List Char) (K : lept_type)
    (hk : (kw, K) ∈ keywords) (hw : all_ws w) (hfirst : r.head? = kw.head?)
    (hbad : ¬ kw <+: r) :
    lept_parse v (w ++ r) = some (LEPT_PARSE_INVALID_VALUE, ⟨v.n, LEPT_NULL⟩) := by
  cases kw with
  | nil => simp [keywords] at hk
  | cons k ks =>
    cases r with
    | nil => simp at hfirst
    | cons c rest =>
      have hc : c = k := by simpa using hfirst
      subst hc
      have hkf := keyword_first c ks K hk
      have hskip : skip_ws (w ++ c :: rest) = c :: rest := by
        rw [skip_ws_all_ws _ _ hw]
        exact skip_ws_of_not_ws _ hkf.2.2.1
      have hp : ¬ ks <+: rest := fun h => hbad ((List.cons_prefix_cons).mpr ⟨rfl, h⟩)
      have hv := lept_parse_value_literal rest ⟨v.n, LEPT_NULL⟩ c ks K hk
      rw [if_neg hp, ← hskip] at hv
      rw [lept_parse_of_value v _ _ _ _ hv]
      simp

theorem EXPECT_checked_eq (c : lept_context) (ch : Char) (h0 : ch ≠ '\x00') :
    EXPECT_checked c ch = EXPECT c ch := by
  simp only [EXPECT_checked, EXPECT, read_eq, Option.bind_eq_bind, Option.some_bind,
    Option.pure_def]
  by_cases h : deref c.json = ch
  · simp [h, advance_of_deref c.json ch h h0]
  · simp [h]

theorem lept_parse_literal_checked_eq (c : lept_context) (v : lept_value) (k : Char)
    (ks : List Char) (type : lept_type) (hk : '\x00' ∉ k :: ks) :
    lept_parse_literal_checked c v (k :: ks) type = lept_parse_literal c v (k :: ks) type := by
  have hk0 : k ≠ '\x00' := fun h => hk (by simp [h])
  have hks : '\x00' ∉ ks := fun h => hk (List.mem_cons_of_mem _ h)
  simp only [lept_parse_literal_checked, lept_parse_literal, deref_cons, List.tail_cons,
    EXPECT_checked_eq c k hk0, Option.bind_eq_bind, Option.pure_def]
  cases hE : EXPECT c k with
  | none => rfl
  | some c1 =>
    simp only [Option.some_bind]
    have hloop := literal_loop_eq c1.json ks 0 hks (Nat.zero_le _)
    simp only [List.drop_zero, Nat.zero_add] at hloop
    rw [hloop]
    by_cases hp : ks <+: c1.json
    · simp only [hp, if_true, Option.some_bind, advance_by, hp.length_le]
    · simp only [hp, if_false, Option.some_bind]

theorem lept_parse_number_checked_eq (c : lept_context) (v : lept_value) :
    lept_parse_number_checked c v = lept_parse_number c v := by
  simp only [lept_parse_number_checked, lept_parse_number, lept_validate_number_checked_eq,
    Option.bind_eq_bind, Option.pure_def]
  rw [lept_validate_number_eq]
  cases validate_end c.json with
  | none => rfl
  | some r =>
    simp only [Option.map_some', Option.some_bind, advance_by]
    split_ifs with h1 h2
    · rfl
    · rfl
    · exact absurd (Nat.sub_le _ _) h2

theorem lept_parse_value_checked_eq (c : lept_context) (v : lept_value) :
    lept_parse_value_checked c v = lept_parse_value c v := by
  simp only [lept_parse_value_checked, lept_parse_value, read_eq, Option.bind_eq_bind,
    Option.some_bind, Option.pure_def,
    lept_parse_literal_checked_eq c v 't' ['r', 'u', 'e'] LEPT_TRUE (by decide),
    lept_parse_literal_checked_eq c v 'f' ['a', 'l', 's', 'e'] LEPT_FALSE (by decide),
    lept_parse_literal_checked_eq c v 'n' ['u', 'l', 'l'] LEPT_NULL (by decide),
    lept_parse_number_checked_eq]

theorem lept_parse_checked_eq (v : lept_value) (json : List Char) :
    lept_parse_checked v json = lept_parse v json := by
  simp only [lept_parse_checked, lept_parse, lept_parse_whitespace_checked_eq,
    lept_parse_value_checked_eq, read_eq, Option.bind_eq_bind, Option.some_bind,
    Option.pure_def]
  cases lept_parse_value (lept_parse_whitespace ⟨json⟩) ⟨v.n, LEPT_NULL⟩ with
  | none => rfl
  | some x =>
    obtain ⟨ret, c, v1⟩ := x
    simp only [Option.some_bind]

/-- C19: every read stays within the text and its terminator.  With every
read `*p` and `p[i]` returning an `Option` (`none` past the terminator) and
every pointer move checked against the terminator, `lept_parse` and its
helpers compute what they compute without the checks, and `lept_parse`
always returns: no access is out of range, neither in the whitespace loop,
nor in the look-ahead of the literal matcher, which returns on any text under
a pointer at the first letter of a keyword, truncated ones such as `n` and
`tru` included, nor in the look-aheads of the validator, which returns on any
text, those ending in `.`, `e` or an exponent sign included. -/
theorem checked_accesses_in_range (v : lept_value) (json : List Char) :
    lept_parse_checked v json = lept_parse v json ∧
    (∃ r, lept_parse_checked v json = some r) ∧
    (∀ c, lept_parse_whitespace_checked c = some (lept_parse_whitespace c)) ∧
    (∀ c kw K, (kw, K) ∈ keywords → deref c.json = deref kw →
      ∃ r, lept_parse_literal_checked c v kw K = some r ∧ lept_parse_literal c v kw K = some r) ∧
    (∀ num, ∃ r, lept_validate_number_checked num = some r ∧ lept_validate_number num = some r) ∧
    (∀ c, ∃ r, lept_parse_value_checked c v = some r ∧ lept_parse_value c v = some r) ∧
    lept_parse_checked v ['n'] = some (LEPT_PARSE_INVALID_VALUE, ⟨v.n, LEPT_NULL⟩) ∧
    lept_parse_checked v ['t', 'r', 'u'] = some (LEPT_PARSE_INVALID_VALUE, ⟨v.n, LEPT_NULL⟩) ∧
    lept_parse_checked v ['1', '.'] = some (LEPT_PARSE_INVALID_VALUE, ⟨v.n, LEPT_NULL⟩) ∧
    lept_parse_checked v ['1', 'e'] = some (LEPT_PARSE_INVALID_VALUE, ⟨v.n, LEPT_NULL⟩) ∧
    lept_parse_checked v ['1', 'e', '+'] = some (LEPT_PARSE_INVALID_VALUE, ⟨v.n, LEPT_NULL⟩) := by
  refine ⟨lept_parse_checked_eq v json, ?_, lept_parse_whitespace_checked_eq, ?_, ?_, ?_,
    ?_, ?_, ?_, ?_, ?_⟩
  · obtain ⟨ret, v1, h, _⟩ := lept_parse_error_type v json
    exact ⟨(ret, v1), by rw [lept_parse_checked_eq, h]⟩
  · intro c kw K hk hd
    cases kw with
    | nil => simp [keywords] at hk
    | cons k ks =>
      have hkf := keyword_first k ks K hk
      rw [lept_parse_literal_checked_eq c v k ks K hkf.2.1]
      obtain ⟨json1⟩ := c
      have hk0 : k ≠ '\x00' := fun h => hkf.2.1 (by simp [h])
      have hks : '\x00' ∉ ks := fun h => hkf.2.1 (List.mem_cons_of_mem _ h)
      have hj := cons_tail_of_deref json1 k hd hk0
      rw [hj, lept_parse_literal_eq json1.tail v k ks K hks]
      split_ifs
      · exact ⟨_, rfl, rfl⟩
      · exact ⟨_, rfl, rfl⟩
  · intro num
    exact ⟨_, by rw [lept_validate_number_checked_eq, lept_validate_number_eq],
      lept_validate_number_eq num⟩
  · intro c
    obtain ⟨ret, c1, v1, h, _⟩ := lept_parse_value_total c v
    exact ⟨_, by rw [lept_parse_value_checked_eq, h], h⟩
  · rw [lept_parse_checked_eq]
    exact lept_parse_misspelt_text v [] ['n'] ['n', 'u', 'l', 'l'] LEPT_NULL (by decide)
      (by decide) (by decide) (by decide)
  · rw [lept_parse_checked_eq]
    exact lept_parse_misspelt_text v [] ['t', 'r', 'u'] ['t', 'r', 'u', 'e'] LEPT_TRUE
      (by decide) (by decide) (by decide) (by decide)
  · rw [lept_parse_checked_eq]
    exact lept_parse_rejected v [] ['1', '.'] (by decide) (by decide) (by decide)
  · rw [lept_parse_checked_eq]
    exact lept_parse_rejected v [] ['1', 'e'] (by decide) (by decide) (by decide)
  · rw [lept_parse_checked_eq]
    exact lept_parse_rejected v [] ['1', 'e', '+'] (by decide) (by decide) (by decide)

/-! ## Accessors -/

/-- The entry point on a keyword between two runs of whitespace. -/
theorem lept_parse_keyword_text (v : lept_value) (kw : List Char) (K : lept_type)
    (hk : (kw, K) ∈ keywords) (w1 w2 : List Char) (hw1 : all_ws w1) (hw2 : all_ws w2) :
    lept_parse v (w1 ++ kw ++ w2) = some (LEPT_PARSE_OK, ⟨v.n, K⟩) := by
  cases kw with
  | nil => simp [keywords] at hk
  | cons k ks =>
    have hkf := keyword_first k ks K hk
    have hskip : skip_ws (w1 ++ (k :: ks) ++ w2) = k :: (ks ++ w2) := by
      rw [List.append_assoc, skip_ws_all_ws _ _ hw1]
      exact skip_ws_of_not_ws _ hkf.2.2.1
    have hv := lept_parse_value_literal (ks ++ w2) ⟨v.n, LEPT_NULL⟩ k ks K hk
    rw [if_pos (List.prefix_append _ _)] at hv
    rw [← hskip] at hv
    rw [lept_parse_of_value v _ _ _ _ hv]
    simp [deref_skip_ws_all_ws w2 hw2]

/-- C13: `lept_get_type` returns the tag of every value; `lept_get_number` is
defined exactly when the tag is `LEPT_NUMBER` and then returns the payload.
After `lept_parse`, `lept_get_number` is defined if and only if the status is
`LEPT_PARSE_OK` with type `LEPT_NUMBER`, which on a NUL-free text means
`LEPT_PARSE_OK` on a string of the number grammar between whitespace; it is
undefined after every failed parse and after every parse of a keyword. -/
theorem lept_get_number_defined (v : lept_value) (json : List Char) :
    lept_get_type v = v.type ∧
    (∀ x, lept_get_number v = some x ↔ v.type = LEPT_NUMBER ∧ x = v.n) ∧
    (∃ ret v1, lept_parse v json = some (ret, v1) ∧
      ((lept_get_number v1).isSome ↔ ret = LEPT_PARSE_OK ∧ v1.type = LEPT_NUMBER) ∧
      (ret ≠ LEPT_PARSE_OK → lept_get_number v1 = none) ∧
      ('\x00' ∉ json →
        ((lept_get_number v1).isSome ↔
          ret = LEPT_PARSE_OK ∧
            ∃ w1 g w2, all_ws w1 ∧ all_ws w2 ∧ is_number g ∧ json = w1 ++ g ++ w2))) ∧
    (∀ kw K w1 w2, (kw, K) ∈ keywords → all_ws w1 → all_ws w2 →
      ∃ v1, lept_parse v (w1 ++ kw ++ w2) = some (LEPT_PARSE_OK, v1) ∧
        lept_get_number v1 = none) := by
  refine ⟨rfl, ?_, ?_, ?_⟩
  · intro x
    unfold lept_get_number
    by_cases ht : v.type = LEPT_NUMBER
    · simp [ht, eq_comm]
    · simp [ht]
  · obtain ⟨ret, v1, h, herr⟩ := lept_parse_error_type v json
    have hsome : (lept_get_number v1).isSome ↔ v1.type = LEPT_NUMBER := by
      unfold lept_get_number
      by_cases ht : v1.type = LEPT_NUMBER <;> simp [ht]
    have hok : v1.type = LEPT_NUMBER → ret = LEPT_PARSE_OK := by
      intro ht
      by_contra hne
      rw [herr hne] at ht
      exact absurd ht (by decide)
    refine ⟨ret, v1, h, ?_, ?_, ?_⟩
    · rw [hsome]
      exact ⟨fun ht => ⟨hok ht, ht⟩, fun ht => ht.2⟩
    · intro hne
      unfold lept_get_number
      rw [herr hne]
      rfl
    · intro h0
      rw [hsome]
      constructor
      · intro ht
        have hr := hok ht
        subst hr
        obtain ⟨w1, w2, hw1, hw2, hc⟩ := lept_parse_ok_cases v v1 json h0 h
        rcases hc with ⟨kw, ty, hmem, _, hv⟩ | ⟨t, htw, hs, _, _⟩
        · exfalso
          rw [hv] at ht
          cases kw with
          | nil => simp [keywords] at hmem
          | cons k ks => exact (keyword_first k ks ty hmem).2.2.2.2 ht
        · exact ⟨rfl, w1, t.text, w2, hw1, hw2, ⟨t, htw, rfl⟩, hs⟩
      · rintro ⟨hr, w1, g, w2, hw1, hw2, ⟨t, htw, rfl⟩, hs⟩
        subst hr
        rw [hs, lept_parse_text v t w1 w2 htw hw1 (value_end_of_all_ws w2 hw2)] at h
        by_cases hinf : t.rounds_to_infinity
        · rw [if_pos hinf] at h
          simp at h
        · rw [if_neg hinf] at h
          simp only [deref_skip_ws_all_ws w2 hw2, ne_eq, not_true_eq_false, if_false,
            Option.some.injEq, Prod.mk.injEq, true_and] at h
          rw [← h]
  · intro kw K w1 w2 hk hw1 hw2
    refine ⟨⟨v.n, K⟩, lept_parse_keyword_text v kw K hk w1 w2 hw1 hw2, ?_⟩
    unfold lept_get_number
    have hne : K ≠ LEPT_NUMBER := by
      cases kw with
      | nil => simp [keywords] at hk
      | cons k ks => exact (keyword_first k ks K hk).2.2.2.2
    simp [hne]

/-! ## The cursor as an index -/

/-- A checked move by `i` from index `p` arrives at index `p + i`. -/
theorem at_position_drop (text : List Char) (c c1 : lept_context) (p i : Nat)
    (hp : at_position text c p) (hi : i ≤ c.json.length) (h1 : c1.json = c.json.drop i) :
    at_position text c1 (p + i) := by
  obtain ⟨hle, hc⟩ := hp
  have hcl : c.json.length = text.length - p := by rw [hc]; simp
  refine ⟨by omega, ?_⟩
  rw [h1, hc, List.drop_drop]

/-- C18: the cursor is an index of the text that only grows and never passes
the terminator.  With every move of the pointer checked against the
terminator, each of `lept_parse_whitespace`, `lept_parse_literal` (on a
non-empty NUL-free keyword whose first character is under the cursor),
`lept_parse_number` and `lept_parse_value`, called with the cursor at an index
`p` of the text (at most its length `L`, the index of the terminator),
returns, returns what it returns without the checks, and leaves the cursor at
an index `p1` with `p ≤ p1 ≤ L`: `p` plus the number of whitespace characters
skipped; `p` plus the length of the keyword on a match and `p + 1` on a
mismatch; `p` plus the size reported by the validator when the number parser
succeeds and `p` when it does not.  In `lept_parse` the cursor starts at `0`,
and its indices after the first skip of whitespace, after the value and after
the second skip are non-decreasing indices of the text. -/
theorem cursor_monotone (text : List Char) (c : lept_context) (v : lept_value) (p : Nat)
    (hp : at_position text c p) :
    (∃ c1 w p1, lept_parse_whitespace_checked c = some c1 ∧ lept_parse_whitespace c = c1 ∧
      all_ws w ∧ c.json = w ++ c1.json ∧ p1 = p + w.length ∧ at_position text c1 p1) ∧
    (∀ k ks type, '\x00' ∉ k :: ks → deref c.json = k →
      ∃ ret c1 v1 p1, lept_parse_literal_checked c v (k :: ks) type = some (ret, c1, v1) ∧
        lept_parse_literal c v (k :: ks) type = some (ret, c1, v1) ∧
        at_position text c1 p1 ∧
        ((ret = LEPT_PARSE_OK ∧ p1 = p + (k :: ks).length) ∨
          (ret = LEPT_PARSE_INVALID_VALUE ∧ p1 = p + 1))) ∧
    (∃ ret c1 v1 p1, lept_parse_number_checked c v = some (ret, c1, v1) ∧
      lept_parse_number c v = some (ret, c1, v1) ∧ at_position text c1 p1 ∧
      ((ret = LEPT_PARSE_OK ∧
          ∃ size, lept_validate_number c.json = some (some size) ∧ p1 = p + size) ∨
        (ret ≠ LEPT_PARSE_OK ∧ p1 = p))) ∧
    (∃ ret c1 v1 p1, lept_parse_value_checked c v = some (ret, c1, v1) ∧
      lept_parse_value c v = some (ret, c1, v1) ∧ p ≤ p1 ∧ at_position text c1 p1) ∧
    (at_position text ⟨text⟩ 0 ∧
      ∃ c1 ret c2 v2 c3 p1 p2 p3,
        lept_parse_whitespace_checked ⟨text⟩ = some c1 ∧
        lept_parse_value_checked c1 { v with type := LEPT_NULL } = some (ret, c2, v2) ∧
        lept_parse_whitespace_checked c2 = some c3 ∧
        at_position text c1 p1 ∧ at_position text c2 p2 ∧ at_position text c3 p3 ∧
        p1 ≤ p2 ∧ p2 ≤ p3 ∧ p3 ≤ text.length) := by
  refine ⟨?_, ?_, ?_, ?_, ?_⟩
  · obtain ⟨w, hw, hs⟩ := skip_ws_split c.json
    have hlen : w.length ≤ c.json.length := by
      have := congrArg List.length hs
      simp only [List.length_append] at this
      omega
    have hd : (lept_parse_whitespace c).json = c.json.drop w.length := by
      show skip_ws c.json = c.json.drop w.length
      conv_rhs => rw [hs]
      simp
    exact ⟨lept_parse_whitespace c, w, p + w.length, lept_parse_whitespace_checked_eq c, rfl,
      (all_ws_iff w).mpr hw, hs, rfl, at_position_drop text c _ p w.length hp hlen hd⟩
  · intro k ks type hk hc
    have hk0 : k ≠ '\x00' := fun h => hk (by simp [h])
    have hks : '\x00' ∉ ks := fun h => hk (List.mem_cons_of_mem _ h)
    have hj : c.json = k :: c.json.tail := cons_tail_of_deref c.json k hc hk0
    have hlen : c.json.length = c.json.tail.length + 1 := by
      conv_lhs => rw [hj]
      simp
    have heq : lept_parse_literal c v (k :: ks) type =
        if ks <+: c.json.tail then
          some (LEPT_PARSE_OK, ⟨c.json.tail.drop ks.length⟩, { v with type := type })
        else some (LEPT_PARSE_INVALID_VALUE, ⟨c.json.tail⟩, v) := by
      have := lept_parse_literal_eq c.json.tail v k ks type hks
      rw [← hj] at this
      exact this
    rw [lept_parse_literal_checked_eq c v k ks type hk, heq]
    by_cases hpre : ks <+: c.json.tail
    · rw [if_pos hpre]
      refine ⟨_, _, _, p + (k :: ks).length, rfl, rfl, ?_, Or.inl ⟨rfl, rfl⟩⟩
      apply at_position_drop text c _ p _ hp
      · have := hpre.length_le
        simp only [List.length_cons]
        omega
      · show c.json.tail.drop ks.length = c.json.drop (k :: ks).length
        conv_rhs => rw [hj]
        simp
    · rw [if_neg hpre]
      refine ⟨_, _, _, p + 1, rfl, rfl, ?_, Or.inr ⟨rfl, rfl⟩⟩
      apply at_position_drop text c _ p 1 hp (by omega)
      show c.json.tail = c.json.drop 1
      conv_rhs => rw [hj]
      simp
  · rw [lept_parse_number_checked_eq, lept_parse_number_eq]
    cases hve : validate_end c.json with
    | none =>
      exact ⟨_, _, _, p, rfl, rfl, hp, Or.inr ⟨by decide, rfl⟩⟩
    | some r =>
      obtain ⟨t, _, hnum⟩ := validate_end_sound _ _ hve
      dsimp only
      by_cases ho : overflowed (strtod c.json) = true
      · rw [if_pos ho]
        exact ⟨_, _, _, p, rfl, rfl, hp, Or.inr ⟨by decide, rfl⟩⟩
      · rw [if_neg ho]
        have hsize : lept_validate_number c.json = some (some (c.json.length - r.length)) := by
          rw [lept_validate_number_eq, hve]; rfl
        refine ⟨_, _, _, p + (c.json.length - r.length), rfl, rfl, ?_,
          Or.inl ⟨rfl, _, hsize, rfl⟩⟩
        apply at_position_drop text c _ p _ hp (Nat.sub_le _ _)
        show r = c.json.drop (c.json.length - r.length)
        rw [hnum, drop_length_sub]
  · obtain ⟨ret, c1, v1, h, _⟩ := lept_parse_value_total c v
    obtain ⟨p1, hle, h1⟩ := at_position_of_suffix text c c1 p hp
      (lept_parse_value_suffix c c1 v v1 ret h)
    exact ⟨ret, c1, v1, p1, by rw [lept_parse_value_checked_eq, h], h, hle, h1⟩
  · have h0 : at_position text ⟨text⟩ 0 := ⟨Nat.zero_le _, by simp⟩
    refine ⟨h0, ?_⟩
    obtain ⟨ret, c2, v2, hv, _⟩ :=
      lept_parse_value_total (lept_parse_whitespace ⟨text⟩) ⟨v.n, LEPT_NULL⟩
    obtain ⟨p1, _, h1⟩ := at_position_of_suffix text ⟨text⟩ (lept_parse_whitespace ⟨text⟩) 0 h0
      (skip_ws_suffix text)
    obtain ⟨p2, h12, h2⟩ := at_position_of_suffix text _ c2 p1 h1
      (lept_parse_value_suffix _ c2 _ v2 ret hv)
    obtain ⟨p3, h23, h3⟩ := at_position_of_suffix text c2 (lept_parse_whitespace c2) p2 h2
      (skip_ws_suffix c2.json)
    exact ⟨lept_parse_whitespace ⟨text⟩, ret, c2, v2, lept_parse_whitespace c2, p1, p2, p3,
      lept_parse_whitespace_checked_eq _, by rw [lept_parse_value_checked_eq]; exact hv,
      lept_parse_whitespace_checked_eq _, h1, h2, h3, h12, h23, h3.1⟩

theorem cursor_monotone_witness :
    (∃ c1 w p1, lept_parse_whitespace_checked ⟨[' ', 'n', 'u', 'l', 'l']⟩ = some c1 ∧
      lept_parse_whitespace ⟨[' ', 'n', 'u', 'l', 'l']⟩ = c1 ∧
      all_ws w ∧ [' ', 'n', 'u', 'l', 'l'] = w ++ c1.json ∧ p1 = 1 + w.length ∧
      at_position [' ', ' ', 'n', 'u', 'l', 'l'] c1 p1) ∧
    (∃ ret c1 v1 p1,
      lept_parse_number_checked ⟨['1', '2', ' ', 'x']⟩ ⟨.nan, LEPT_TRUE⟩ = some (ret, c1, v1) ∧
      lept_parse_number ⟨['1', '2', ' ', 'x']⟩ ⟨.nan, LEPT_TRUE⟩ = some (ret, c1, v1) ∧
      at_position [' ', '1', '2', ' ', 'x'] c1 p1 ∧
      ((ret = LEPT_PARSE_OK ∧
          ∃ size, lept_validate_number ['1', '2', ' ', 'x'] = some (some size) ∧ p1 = 1 + size) ∨
        (ret ≠ LEPT_PARSE_OK ∧ p1 = 1))) :=
  ⟨(cursor_monotone [' ', ' ', 'n', 'u', 'l', 'l'] ⟨[' ', 'n', 'u', 'l', 'l']⟩
      ⟨.nan, LEPT_TRUE⟩ 1 ⟨by decide, rfl⟩).1,
   (cursor_monotone [' ', '1', '2', ' ', 'x'] ⟨['1', '2', ' ', 'x']⟩
      ⟨.nan, LEPT_TRUE⟩ 1 ⟨by decide, rfl⟩).2.2.1⟩

end Leptjson
